import Mathlib

/-!
# Collapsed Gibbs sampling for LDA (package lda): embedding and verification

The Go sources `common.go`, `document.go`, `model.go` and `sampler.go`, and
the training driver `train.go`, are translated function by function.

Modelling conventions.
* Go `int` is `Int` for counts and topic labels (no overflow: counts are
  bounded by the corpus size) and `Nat` for positions that the code only ever
  starts at `0` and increments.
* Go `float64` is `ℚ`: every statement about weights is over exact arithmetic.
* A Go `map[string]Histogram` is an association list with distinct keys; the
  list order stands for the (unspecified) iteration order of the map.
* A call that may panic returns `Res σ`, which carries the state the call
  leaves behind.  Pure reads that may panic return `Option`.
* `rand.Float64()` is a stream `rnd : Nat → ℚ` read at an explicit position.
* The live model and the accumulator of a sampler are distinct objects, as in
  the training driver.
* `math.Log` is a function `log : ℚ → ℚ` given as an argument; what the driver
  prints is not part of its state.
-/

namespace lda

/-! ## Outcomes and Go slices -/

/-- Outcome of a call on a mutable state: normal return, Go panic, or the
exhausted step budget of a cursor loop (an artefact of the embedding that
`DocumentGibbsSampling_total` and `CreateModel_total` exclude). -/
inductive Res (σ : Type) where
  | ok (s : σ)
  | panic (s : σ)
  | timeout (s : σ)
deriving DecidableEq

/-- Sequencing of calls: a panic stops the computation where it stands. -/
def Res.bind {σ : Type} (r : Res σ) (f : σ → Res σ) : Res σ :=
  match r with
  | .ok s => f s
  | .panic s => .panic s
  | .timeout s => .timeout s

/-- State left behind by a call, whatever its outcome. -/
def Res.state {σ : Type} : Res σ → σ
  | .ok s => s
  | .panic s => s
  | .timeout s => s

/-- Normal return. -/
def Res.isOk {σ : Type} : Res σ → Bool
  | .ok _ => true
  | _ => false

/-- Exhausted step budget. -/
def Res.isTimeout {σ : Type} : Res σ → Bool
  | .timeout _ => true
  | _ => false

/-- Go slice read `s[i]` with an `int` index; `none` is the index-out-of-range panic. -/
def sliceGet {α : Type} (s : List α) (i : Int) : Option α :=
  if i < 0 then none else s[i.toNat]?

/-! ## common.go -/

abbrev Distribution := List ℚ

abbrev Histogram := List Int

/-- Source: `NewDistribution`. -/
def NewDistribution (dim : Nat) : Distribution := List.replicate dim 0

/-- Source: `NewHistogram`. -/
def NewHistogram (dim : Nat) : Histogram := List.replicate dim 0

/-- The second loop of `GetAccumulativeSample`: first index whose running sum
reaches `choice`, or `-1`. -/
def sampleScan : List ℚ → Nat → ℚ → ℚ → Int
  | [], _, _, _ => -1
  | v :: rest, i, sum_so_far, choice =>
    if sum_so_far + v ≥ choice then (i : Int)
    else sampleScan rest (i + 1) (sum_so_far + v) choice

/-- Source: `GetAccumulativeSample`, with the value `u` of `rand.Float64()` as an argument. -/
def GetAccumulativeSample (distribution : Distribution) (u : ℚ) : Int :=
  let distribution_sum := distribution.foldl (fun acc v => acc + v) 0
  let choice := u * distribution_sum
  sampleScan distribution 0 0 choice

/-! ## document.go -/

structure Document where
  unique_words : List String
  wordtopics_indices : List Nat
  wordtopics : List Int
  topic_histogram : Histogram
deriving DecidableEq

abbrev Corpus := List Document

/-- The cursor; the document it points into is passed alongside. -/
structure WordIterator where
  unique_word_index : Nat
  word_topic_index : Nat
deriving DecidableEq

/-- Source: `Document.IsValid`. -/
def Document.IsValid (d : Document) : Bool :=
  decide (d.unique_words.length ≥ 1) &&
  decide (d.wordtopics_indices.length = d.unique_words.length) &&
  decide (d.wordtopics.length ≥ 2) &&
  decide (d.topic_histogram.length ≥ 2)

/-- Source: `Document.Length`. -/
def Document.Length (d : Document) : Nat := d.wordtopics.length

/-- Source: `NewWordIterator`; `none` is the error return (and a nil cursor). -/
def NewWordIterator (d : Document) : Option WordIterator :=
  if !d.IsValid then none else some ⟨0, 0⟩

/-- Source: `WordIterator.Done`; `none` is its panic. -/
def Done (d : Document) (iter : WordIterator) : Option Bool :=
  if iter.unique_word_index > d.unique_words.length then none
  else some (decide (iter.unique_word_index = d.unique_words.length))

/-- Source: `WordIterator.Next`. -/
def Next (d : Document) (iter : WordIterator) : Res WordIterator :=
  match Done d iter with
  | none => .panic iter
  | some true => .panic iter
  | some false =>
    let iter1 : WordIterator := { iter with word_topic_index := iter.word_topic_index + 1 }
    if iter1.word_topic_index ≥ d.wordtopics.length then
      .ok { iter1 with unique_word_index := iter1.unique_word_index + 1 }
    else
      match d.wordtopics_indices[iter1.unique_word_index + 1]? with
      | none => .panic iter1
      | some boundary =>
        if iter1.word_topic_index ≥ boundary then
          .ok { iter1 with unique_word_index := iter1.unique_word_index + 1 }
        else .ok iter1

/-- Source: `WordIterator.Topic`; `none` is a panic. -/
def Topic (d : Document) (iter : WordIterator) : Option Int :=
  match Done d iter with
  | some false => d.wordtopics[iter.word_topic_index]?
  | _ => none

/-- Source: `WordIterator.Word`; `none` is a panic. -/
def Word (d : Document) (iter : WordIterator) : Option String :=
  match Done d iter with
  | some false => d.unique_words[iter.unique_word_index]?
  | _ => none

/-- Source: `WordIterator.SetTopic`. -/
def SetTopic (d : Document) (iter : WordIterator) (new_topic : Int) : Res Document :=
  match Done d iter with
  | none => .panic d
  | some true => .panic d
  | some false =>
    if new_topic < 0 then .panic d
    else if new_topic ≥ (d.topic_histogram.length : Int) then .panic d
    else
      match Topic d iter with
      | none => .panic d
      | some old_topic =>
        match sliceGet d.topic_histogram old_topic with
        | none => .panic d
        | some c_old =>
          let d1 : Document :=
            { d with topic_histogram := d.topic_histogram.set old_topic.toNat (c_old - 1) }
          match sliceGet d1.topic_histogram new_topic with
          | none => .panic d1
          | some c_new =>
            let d2 : Document :=
              { d1 with topic_histogram := d1.topic_histogram.set new_topic.toNat (c_new + 1) }
            .ok { d2 with wordtopics := d2.wordtopics.set iter.word_topic_index new_topic }

/-- Go `unicode.IsSpace`, which `strings.Fields` splits on. -/
def isSpace (c : Char) : Bool :=
  let n := c.toNat
  (9 ≤ n && n ≤ 13) || n = 32 || n = 0x85 || n = 0xA0 || n = 0x1680 ||
  (0x2000 ≤ n && n ≤ 0x200A) || n = 0x2028 || n = 0x2029 || n = 0x202F ||
  n = 0x205F || n = 0x3000

/-- Splitting loop of `Fields`: `cur` is the current word, reversed. -/
def fieldsAux : List Char → List Char → List String
  | [], cur => if cur.isEmpty then [] else [String.mk cur.reverse]
  | c :: cs, cur =>
    if isSpace c then
      (if cur.isEmpty then fieldsAux cs [] else String.mk cur.reverse :: fieldsAux cs [])
    else fieldsAux cs (c :: cur)

/-- Go `strings.Fields`: the maximal runs of non-space characters. -/
def Fields (s : String) : List String := fieldsAux s.data []

/-- Lexicographic order on character sequences (Go string comparison). -/
def lessChars : List Char → List Char → Bool
  | [], [] => false
  | [], _ :: _ => true
  | _ :: _, [] => false
  | a :: as, b :: bs =>
    if a.toNat < b.toNat then true
    else if b.toNat < a.toNat then false
    else lessChars as bs

/-- Go `a < b` on strings. -/
def strLess (a b : String) : Bool := lessChars a.data b.data

/-- Go `a <= b` on strings. -/
def strLe (a b : String) : Prop := strLess b a = false

instance strLe_decidable : DecidableRel strLe :=
  fun a b => inferInstanceAs (Decidable (strLess b a = false))

/-- Go `sort.SortStrings`: the increasing rearrangement of the words. -/
def SortStrings (words : List String) : List String := List.insertionSort strLe words

/-- The loop of `NewDocument` over the sorted words, from position `i` on. -/
def scanWords : List String → Nat → String → Document → Document
  | [], _, _, doc => doc
  | w :: rest, i, prev_word, doc =>
    if w ≠ prev_word then
      scanWords rest (i + 1) w
        { doc with
          unique_words := doc.unique_words ++ [w]
          wordtopics_indices := doc.wordtopics_indices ++ [i] }
    else scanWords rest (i + 1) prev_word doc

/-- Source: `NewDocument`. -/
def NewDocument (text : String) (num_topics : Int) : Except String Document :=
  if num_topics ≤ 1 then .error "num_topics must be >= 2"
  else
    let words := Fields text
    if words.length ≤ 1 then .error ("Document less than 2 words:" ++ text)
    else
      let words := SortStrings words
      let doc : Document :=
        { wordtopics := List.replicate words.length 0
          unique_words := []
          wordtopics_indices := []
          topic_histogram := (List.replicate num_topics.toNat (0 : Int)).set 0 (words.length : Int) }
      let doc := scanWords words 0 "" doc
      if !doc.IsValid then .error "Document is invalid" else .ok doc

/-! ## model.go -/

structure Model where
  topic_histograms : List (String × Histogram)
  global_histogram : Histogram
  zero_histogram : Histogram
deriving DecidableEq

/-- Go map read `m[word]` with presence flag. -/
def mapGet : List (String × Histogram) → String → Option Histogram
  | [], _ => none
  | (w0, h0) :: rest, w => if w0 = w then some h0 else mapGet rest w

/-- Go map write `m[word] = h`. -/
def mapSet : List (String × Histogram) → String → Histogram → List (String × Histogram)
  | [], w, h => [(w, h)]
  | (w0, h0) :: rest, w, h =>
    if w0 = w then (w0, h) :: rest else (w0, h0) :: mapSet rest w h

/-- Source: `NewModel`. -/
def NewModel (num_topics : Nat) : Model :=
  { topic_histograms := []
    global_histogram := NewHistogram num_topics
    zero_histogram := NewHistogram num_topics }

/-- Source: `Model.NumTopics`. -/
def Model.NumTopics (model : Model) : Nat := model.global_histogram.length

/-- Source: `Model.NumWords`. -/
def Model.NumWords (model : Model) : Nat := model.topic_histograms.length

/-- The lazy creation `if !present { topic_histograms[word] = NewHistogram(...) }`. -/
def Model.ensureWord (model : Model) (word : String) : Model :=
  match mapGet model.topic_histograms word with
  | some _ => model
  | none =>
    { model with
      topic_histograms := mapSet model.topic_histograms word (NewHistogram model.NumTopics) }

/-- Source: `Model.IncrementTopic`. -/
def IncrementTopic (model : Model) (word : String) (topic : Int) (count : Int) : Res Model :=
  if topic ≥ (model.NumTopics : Int) then .panic model
  else
    let model1 := model.ensureWord word
    match mapGet model1.topic_histograms word with
    | none => .panic model1
    | some hist =>
      match sliceGet hist topic with
      | none => .panic model1
      | some c =>
        let model2 : Model :=
          { model1 with
            topic_histograms :=
              mapSet model1.topic_histograms word (hist.set topic.toNat (c + count)) }
        match sliceGet model2.global_histogram topic with
        | none => .panic model2
        | some g =>
          .ok { model2 with
                global_histogram := model2.global_histogram.set topic.toNat (g + count) }

/-- Source: `Model.ReassignTopic`. -/
def ReassignTopic (model : Model) (word : String) (old_topic new_topic : Int) : Res Model :=
  (IncrementTopic model word old_topic (-1)).bind
    (fun model1 => IncrementTopic model1 word new_topic 1)

/-- Source: `Model.GetWordTopicHistogram`: a Go map read, whose value for an
absent word is the nil slice. -/
def GetWordTopicHistogram (model : Model) (word : String) : Histogram :=
  (mapGet model.topic_histograms word).getD []

/-- Source: `Model.GetGlobalTopicHistogram`. -/
def GetGlobalTopicHistogram (model : Model) : Histogram := model.global_histogram

/-- Inner loop of `AccumulateModel`: `for topic, c := range v`, from `topic` on. -/
def accumulateCounts (word : String) : List Int → Nat → Model → Res Model
  | [], _, model => .ok model
  | c :: rest, topic, model =>
    (IncrementTopic model word (topic : Int) c).bind (accumulateCounts word rest (topic + 1))

/-- Outer loop of `AccumulateModel`: `for word, v := range m.topic_histograms`. -/
def accumulateWords : List (String × Histogram) → Model → Res Model
  | [], model => .ok model
  | (word, v) :: rest, model =>
    (accumulateCounts word v 0 (model.ensureWord word)).bind (accumulateWords rest)

/-- Source: `Model.AccumulateModel`. -/
def AccumulateModel (model m : Model) : Res Model :=
  if model.NumTopics ≠ m.NumTopics then .panic model
  else accumulateWords m.topic_histograms model

/-- Step budget of a cursor loop over `d`: every `Next` moves one of the two
positions forward, so the loop ends before the budget does. -/
def cursorBudget (d : Document) : Nat := d.wordtopics.length + d.unique_words.length + 1

/-- The cursor loop of `CreateModel` over one document. -/
def createLoop (d : Document) : Nat → WordIterator → Model → Res Model
  | 0, _, model => .timeout model
  | fuel + 1, iter, model =>
    match Done d iter with
    | none => .panic model
    | some true => .ok model
    | some false =>
      match Word d iter, Topic d iter with
      | some word, some topic =>
        match IncrementTopic model word topic 1 with
        | .ok model1 =>
          match Next d iter with
          | .ok iter1 => createLoop d fuel iter1 model1
          | _ => .panic model1
        | r => r
      | _, _ => .panic model

/-- Loop of `CreateModel` over the documents of the corpus. -/
def createDocs : List Document → Model → Res Model
  | [], model => .ok model
  | d :: rest, model =>
    match NewWordIterator d with
    | none => .panic model
    | some iter => (createLoop d (cursorBudget d) iter model).bind (createDocs rest)

/-- Source: `CreateModel`. -/
def CreateModel (num_topics : Nat) (corpus : Corpus) : Res Model :=
  createDocs corpus (NewModel num_topics)

/-- What the line reader of a file yields: the reads that carry no error,
each with its long-line flag, and whether the read that ends them is
`os.EOF`. -/
structure FileReads where
  reads : List (String × Bool)
  eof : Bool
deriving DecidableEq

/-- The conversion loop of `LoadModel` for one line: `hist[i] = Atoi(fields[i+1])`
and `global_histogram[i] += hist[i]`, from position `i` on. -/
def loadCounts (atoi : String → Option Int) :
    List String → Nat → Histogram → Histogram → Except String (Histogram × Histogram)
  | [], _, hist, global => .ok (hist, global)
  | f :: rest, i, hist, global =>
    match atoi f with
    | none => .error ("Failed conversion to int: " ++ f)
    | some v => loadCounts atoi rest (i + 1) (hist.set i v) (global.set i (global.getD i 0 + v))

/-- The line loop of `LoadModel`; `num_topics` is `0` until the first line is read. -/
def loadLines (atoi : String → Option Int) : List String → Nat → Model → Except String Model
  | [], _, model => .ok model
  | line :: rest, num_topics, model =>
    let fields := Fields line
    if fields.length < 3 then .error ("Invalid line: " ++ line)
    else
      let word := fields.headD ""
      if (mapGet model.topic_histograms word).isSome then
        .error ("Found duplicated word: " ++ word)
      else if num_topics ≠ 0 ∧ fields.length - 1 ≠ num_topics then
        .error ("Inconsistent num_topics: " ++ line)
      else
        let model1 : Model :=
          if num_topics = 0 then
            { model with
              global_histogram := NewHistogram (fields.length - 1)
              zero_histogram := NewHistogram (fields.length - 1) }
          else model
        let num_topics1 := if num_topics = 0 then fields.length - 1 else num_topics
        match loadCounts atoi fields.tail 0 (NewHistogram num_topics1) model1.global_histogram with
        | .error e => .error e
        | .ok (hist, global) =>
          loadLines atoi rest num_topics1
            { model1 with
              global_histogram := global
              topic_histograms := mapSet model1.topic_histograms word hist }

/-- Source: `LoadModel`, on what opening and reading the file yields (`none`:
the file cannot be opened); `atoi` is `strconv.Atoi`. -/
def LoadModel (atoi : String → Option Int) (file : Option FileReads) : Except String Model :=
  match file with
  | none => .error "Cannot open file"
  | some f =>
    if (f.reads.head?.map Prod.snd).getD false then .error "Encountered a long line"
    else
      match loadLines atoi (f.reads.map Prod.fst) 0 ⟨[], [], []⟩ with
      | .error e => .error e
      | .ok model =>
        if !f.eof then .error "Error reading"
        else if model.topic_histograms.length ≤ 0 then .error "No valid line in file"
        else .ok model

/-! ## sampler.go -/

structure Sampler where
  topic_prior : ℚ
  word_prior : ℚ
  model : Model
  accum_model : Option Model
deriving DecidableEq

/-- Source: `NewSampler`. -/
def NewSampler (topic_prior word_prior : ℚ) (model : Model) (accum_model : Option Model) :
    Sampler :=
  ⟨topic_prior, word_prior, model, accum_model⟩

/-- Body of the loop of `GenerateTopicDistributionForWord` for topic `k`;
`none` is an index-out-of-range panic. -/
def topicWeight (sampler : Sampler) (doc : Document) (word_histogram : Histogram)
    (num_words : Nat) (target_topic : Int) (update_model : Bool) (k : Nat) : Option ℚ :=
  let adjustment : Int := if update_model && decide ((k : Int) = target_topic) then -1 else 0
  match word_histogram[k]?, (GetGlobalTopicHistogram sampler.model)[k]?, doc.topic_histogram[k]? with
  | some wc, some gc, some dc =>
    let topic_word_factor : ℚ := ((wc + adjustment : Int) : ℚ)
    let global_topic_factor : ℚ := ((gc + adjustment : Int) : ℚ)
    let document_topic_factor : ℚ := ((dc + adjustment : Int) : ℚ)
    some ((topic_word_factor + sampler.word_prior) *
          (document_topic_factor + sampler.topic_prior) /
          (global_topic_factor + (num_words : ℚ) * sampler.word_prior))
  | _, _, _ => none

/-- The loop `for k := 0; k < num_topics; k++` over the topics in `ks`. -/
def weightLoop (f : Nat → Option ℚ) : List Nat → Option Distribution
  | [] => some []
  | k :: ks =>
    match f k with
    | none => none
    | some w =>
      match weightLoop f ks with
      | none => none
      | some ws => some (w :: ws)

/-- Source: `Sampler.GenerateTopicDistributionForWord`; `none` is a panic. -/
def GenerateTopicDistributionForWord (sampler : Sampler) (doc : Document) (word : String)
    (target_topic : Int) (update_model : Bool) : Option Distribution :=
  let num_topics := sampler.model.NumTopics
  let num_words := sampler.model.NumWords
  let word_histogram := GetWordTopicHistogram sampler.model word
  weightLoop (topicWeight sampler doc word_histogram num_words target_topic update_model)
    (List.range num_topics)

/-- State of a sweep over one document: the sampler (with the live model),
the document, and the number of random values drawn so far. -/
structure DocSweep where
  sampler : Sampler
  doc : Document
  draws : Nat
deriving DecidableEq

/-- Body of the loop of `DocumentGibbsSampling` at the cursor: compute the
distribution, draw the new topic, reassign it in the model when updating,
and set it in the document. -/
def gibbsStep (update_model : Bool) (rnd : Nat → ℚ) (iter : WordIterator) (st : DocSweep) :
    Res DocSweep :=
  match Word st.doc iter, Topic st.doc iter with
  | some word, some topic =>
    match GenerateTopicDistributionForWord st.sampler st.doc word topic update_model with
    | none => .panic st
    | some new_topic_distribution =>
      if GetAccumulativeSample new_topic_distribution (rnd st.draws) ≠ -1 then
        match (if update_model then
            ReassignTopic st.sampler.model word topic
              (GetAccumulativeSample new_topic_distribution (rnd st.draws))
          else .ok st.sampler.model) with
        | .ok model1 =>
          match SetTopic st.doc iter
              (GetAccumulativeSample new_topic_distribution (rnd st.draws)) with
          | .ok doc1 => .ok ⟨{ st.sampler with model := model1 }, doc1, st.draws + 1⟩
          | r => .panic ⟨{ st.sampler with model := model1 }, r.state, st.draws + 1⟩
        | r => .panic ⟨{ st.sampler with model := r.state }, st.doc, st.draws + 1⟩
      else .panic ⟨st.sampler, st.doc, st.draws + 1⟩
  | _, _ => .panic st

/-- The cursor loop of `DocumentGibbsSampling`. -/
def gibbsLoop (update_model : Bool) (rnd : Nat → ℚ) :
    Nat → WordIterator → DocSweep → Res DocSweep
  | 0, _, st => .timeout st
  | fuel + 1, iter, st =>
    match Done st.doc iter with
    | none => .panic st
    | some true => .ok st
    | some false =>
      match gibbsStep update_model rnd iter st with
      | .ok st1 =>
        match Next st1.doc iter with
        | .ok iter1 => gibbsLoop update_model rnd fuel iter1 st1
        | _ => .panic st1
      | r => .panic r.state

/-- Source: `Sampler.DocumentGibbsSampling`. -/
def DocumentGibbsSampling (update_model : Bool) (rnd : Nat → ℚ) (st : DocSweep) : Res DocSweep :=
  match NewWordIterator st.doc with
  | none => .panic st
  | some iter => gibbsLoop update_model rnd (cursorBudget st.doc) iter st

/-- State of a sweep over a corpus. -/
structure CorpusSweep where
  sampler : Sampler
  corpus : Corpus
  draws : Nat
deriving DecidableEq

/-- The loop `for _, doc := range *corpus` of `CorpusGibbsSampling`: `before`
holds the documents already swept. -/
def sweepDocs (update_model : Bool) (rnd : Nat → ℚ) :
    List Document → List Document → Sampler → Nat → Res CorpusSweep
  | before, [], sampler, draws => .ok ⟨sampler, before, draws⟩
  | before, doc :: rest, sampler, draws =>
    match DocumentGibbsSampling update_model rnd ⟨sampler, doc, draws⟩ with
    | .ok st => sweepDocs update_model rnd (before ++ [st.doc]) rest st.sampler st.draws
    | .panic st => .panic ⟨st.sampler, before ++ st.doc :: rest, st.draws⟩
    | .timeout st => .timeout ⟨st.sampler, before ++ st.doc :: rest, st.draws⟩

/-- Source: `Sampler.CorpusGibbsSampling`. -/
def CorpusGibbsSampling (update_model burn_in : Bool) (rnd : Nat → ℚ) (st : CorpusSweep) :
    Res CorpusSweep :=
  (sweepDocs update_model rnd [] st.corpus st.sampler st.draws).bind fun st1 =>
    match st1.sampler.accum_model with
    | some accum =>
      if update_model && !burn_in then
        match AccumulateModel accum st1.sampler.model with
        | .ok accum1 => .ok { st1 with sampler := { st1.sampler with accum_model := some accum1 } }
        | r => .panic { st1 with sampler := { st1.sampler with accum_model := some r.state } }
      else .ok st1
    | none => .ok st1

/-! ## Predicates on models -/

/-- Column sum: the total over the stored words of their count for topic `k`. -/
def histSum (hs : List (String × Histogram)) (k : Nat) : Int :=
  (hs.map (fun p => p.2.getD k 0)).sum

/-- Shape of a model: its words are distinct keys and every per-word
histogram has `NumTopics` entries. -/
def Model.Valid (m : Model) : Prop :=
  (m.topic_histograms.map Prod.fst).Nodup ∧
  ∀ p ∈ m.topic_histograms, p.2.length = m.NumTopics

/-- The column-sum invariant: `global_histogram[k]` is the sum over the known
words of `topic_histograms[w][k]`, for every topic `k` in `[0,K)`. -/
def Model.ColumnSum (m : Model) : Prop :=
  ∀ k, k < m.NumTopics → m.global_histogram.getD k 0 = histSum m.topic_histograms k

/-- A model of the right shape that satisfies the column-sum invariant. -/
def Model.Good (m : Model) : Prop := m.Valid ∧ m.ColumnSum

instance Model.Valid_decidable (m : Model) : Decidable m.Valid := by
  unfold Model.Valid; infer_instance

instance Model.ColumnSum_decidable (m : Model) : Decidable m.ColumnSum := by
  unfold Model.ColumnSum; infer_instance

instance Model.Good_decidable (m : Model) : Decidable m.Good := by
  unfold Model.Good; infer_instance

/-! ## Predicates on documents and cursors -/

/-- Number of occurrences currently labelled `k`. -/
def labelCount (labels : List Int) (k : Nat) : Int := ((labels.count (k : Int) : Nat) : Int)

/-- The histogram of a document counts its labels, and every label is a topic
of the document. -/
def Document.Counted (d : Document) : Prop :=
  (∀ k, k < d.topic_histogram.length → d.topic_histogram.getD k 0 = labelCount d.wordtopics k) ∧
  (∀ t ∈ d.wordtopics, 0 ≤ t ∧ t < (d.topic_histogram.length : Int))

/-- Shape of the range table: one start per unique word, strictly increasing,
each inside the occurrence sequence. -/
def Document.Structured (d : Document) : Prop :=
  d.wordtopics_indices.length = d.unique_words.length ∧
  d.wordtopics_indices.Pairwise (fun a b => a < b) ∧
  (∀ b ∈ d.wordtopics_indices, b < d.wordtopics.length)

/-- Documents built by `NewDocument` with `K` topics and then modified by
`SetTopic` calls that return normally, through any cursor value. -/
inductive Document.Reachable (K : Int) : Document → Prop where
  | new {s : String} {d : Document} : NewDocument s K = .ok d → Document.Reachable K d
  | set {d e : Document} {i : WordIterator} {t : Int} :
      Document.Reachable K d → SetTopic d i t = .ok e → Document.Reachable K e

/-- Cursors of a document: `NewWordIterator` followed by `Next` calls that return normally. -/
inductive CursorOf (d : Document) : WordIterator → Prop where
  | new {i : WordIterator} : NewWordIterator d = some i → CursorOf d i
  | next {i j : WordIterator} : CursorOf d i → Next d i = .ok j → CursorOf d j

/-- A cursor that is not done stands on an occurrence, before the start of the next range. -/
def CursorWithin (d : Document) (iter : WordIterator) : Prop :=
  iter.unique_word_index < d.unique_words.length →
    iter.word_topic_index < d.wordtopics.length ∧
    ∀ b, d.wordtopics_indices[iter.unique_word_index + 1]? = some b → iter.word_topic_index < b

/-! ## Counts read off a model -/

/-- Count of `word` for topic `k`, an unknown word or a missing entry counting as zero. -/
def wordCount (m : Model) (word : String) (k : Nat) : Int :=
  (GetWordTopicHistogram m word).getD k 0

/-- Entry `k` of the global histogram, a missing entry counting as zero. -/
def globalCount (m : Model) (k : Nat) : Int := m.global_histogram.getD k 0

/-- Whether `word` is a key of the model. -/
def Model.knows (m : Model) (word : String) : Bool := (mapGet m.topic_histograms word).isSome

/-- Number of distinct words known to the model. -/
def vocabularySize (m : Model) : Nat := (m.topic_histograms.map Prod.fst).toFinset.card

/-- The adjustment of the conditional distribution: `-1` exactly when
updating and `k` is the target topic. -/
def adjustmentOf (updating : Bool) (target_topic : Int) (k : Nat) : ℚ :=
  if updating = true ∧ (k : Int) = target_topic then -1 else 0

/-- Cumulative sum `w[0] + ... + w[i]`. -/
def prefixSum (w : Distribution) (i : Nat) : ℚ := (w.take (i + 1)).sum

/-- Models obtained from `NewModel`, `CreateModel` or a successful `LoadModel`
by `IncrementTopic`, `ReassignTopic` and `AccumulateModel` calls that return
normally. -/
inductive Model.Reachable : Model → Prop where
  | new (K : Nat) : Model.Reachable (NewModel K)
  | create {K : Nat} {corpus : Corpus} {m : Model} :
      CreateModel K corpus = .ok m → Model.Reachable m
  | load {atoi : String → Option Int} {file : Option FileReads} {m : Model} :
      LoadModel atoi file = .ok m → Model.Reachable m
  | increment {m n : Model} {w : String} {t c : Int} :
      Model.Reachable m → IncrementTopic m w t c = .ok n → Model.Reachable n
  | reassign {m n : Model} {w : String} {a b : Int} :
      Model.Reachable m → ReassignTopic m w a b = .ok n → Model.Reachable n
  | accumulate {m o n : Model} :
      Model.Reachable m → AccumulateModel m o = .ok n → Model.Reachable n

/-! ## Concrete inputs -/

/-- The document of `TestNewDocument`: "apple orange apple" with 3 topics. -/
def appleDoc : Document := ⟨["apple", "orange"], [0, 2], [0, 0, 0], [3, 0, 0]⟩

/-- The document that `NewDocument` builds from "apple orange orange" with 2
topics: its last unique word occurs twice. -/
def orangeDoc : Document := ⟨["apple", "orange"], [0, 1], [0, 0, 0], [3, 0]⟩

/-- The model of `TestReassignTopic` after the reassignment. -/
def fruitModel : Model := ⟨[("apple", [2, 1]), ("orange", [0, 5])], [2, 6], [0, 0]⟩

/-- A model that only knows "apple", with counts `[0, 1]`. -/
def appleModel : Model := ⟨[("apple", [0, 1])], [0, 1], [0, 0]⟩

/-- A sampler whose live model and accumulator are empty, with an empty corpus. -/
def idleSweep : CorpusSweep := ⟨⟨1, 1, NewModel 2, some (NewModel 2)⟩, [], 0⟩

/-- A stream of draws that is constantly zero. -/
def zeroDraws : Nat → ℚ := fun _ => 0

/-- A stream of draws that alternates between 9/10 and 1/10. -/
def mixedDraws : Nat → ℚ := fun n => if n % 2 = 0 then 9 / 10 else 1 / 10

/-- The documents of `TestCreateModel`: "apple orange apple" and "zebra cat" with 2 topics. -/
def fruitCorpus : Corpus :=
  [⟨["apple", "orange"], [0, 2], [0, 0, 0], [3, 0]⟩, ⟨["cat", "zebra"], [0, 1], [0, 0], [2, 0]⟩]

/-- A training sweep over `fruitCorpus`: the live model counts the corpus, the
accumulator is empty, both priors are 1. -/
def trainSweep : CorpusSweep :=
  ⟨⟨1, 1,
    ⟨[("apple", [2, 0]), ("orange", [1, 0]), ("cat", [1, 0]), ("zebra", [1, 0])], [5, 0], [0, 0]⟩,
    some (NewModel 2)⟩, fruitCorpus, 0⟩

/-- The document that `NewDocument` builds from "apple pear" with 2 topics. -/
def pearDoc : Document := ⟨["apple", "pear"], [0, 1], [0, 0], [2, 0]⟩

/-! ## Equality of models, and accumulation of several sources -/

/-- Two models hold the same map from words to histograms (same known words,
same histogram for each) and the same global histogram; the iteration order
of the map is not compared. -/
def Model.Same (m1 m2 : Model) : Prop :=
  (∀ w, mapGet m1.topic_histograms w = mapGet m2.topic_histograms w) ∧
  m1.global_histogram = m2.global_histogram

/-- Accumulating the sources into the target one after the other, in list order. -/
def accumulateAll : Model → List Model → Res Model
  | target, [] => .ok target
  | target, source :: rest => (AccumulateModel target source).bind (fun t => accumulateAll t rest)

/-- The histogram a word has before an update: its own, or the all-zero one
that the lazy creation gives an unseen word. -/
def histogramOrZero (m : Model) (word : String) : Histogram :=
  (mapGet m.topic_histograms word).getD (NewHistogram m.NumTopics)

/-! ## Words, and the state of the scan of `NewDocument` -/

/-- A word as `strings.Fields` yields them: not empty, and free of space characters. -/
def IsToken (w : String) : Prop := w.data ≠ [] ∧ ∀ c ∈ w.data, isSpace c = false

/-- State of the loop of `NewDocument` once the sorted words `done` are
scanned, `prev_word` being the variable of the loop: every scanned position
lies in the range of a unique word, which is the word at that position. -/
structure ScanState (done : List String) (prev_word : String) (doc : Document) : Prop where
  lengths : doc.wordtopics_indices.length = doc.unique_words.length
  last : (done = [] ∧ prev_word = "" ∧ doc.unique_words = []) ∨
    (done ≠ [] ∧ doc.unique_words.getLast? = some prev_word)
  covered : ∀ j w, done[j]? = some w →
    ∃ k p, doc.unique_words[k]? = some w ∧ doc.wordtopics_indices[k]? = some p ∧ p ≤ j ∧
      ∀ b, doc.wordtopics_indices[k + 1]? = some b → j < b
  increasing : doc.unique_words.Pairwise (fun a b => strLess a b = true)
  scanned : ∀ u ∈ doc.unique_words, u ∈ done
  starts : doc.wordtopics_indices.Pairwise (fun a b => a < b) ∧
    ∀ b ∈ doc.wordtopics_indices, b < done.length
  below : ∀ u ∈ doc.unique_words, strLe u prev_word

/-- End of range `k`: the start of the next range, or the number of occurrences. -/
def Document.rangeEnd (d : Document) (k : Nat) : Nat :=
  (d.wordtopics_indices[k + 1]?).getD d.wordtopics.length

/-! ## Saving a model, and loading a corpus -/

/-- One line of `SaveModel`: the word (`%s`), then each count after a blank
(`" %d"`); `fmtInt` is the `%d` verb. -/
def formatLine (fmtInt : Int → String) (word : String) (v : Histogram) : String :=
  v.foldl (fun line c => line ++ " " ++ fmtInt c) word

/-- The characters that `SaveModel` writes after the word of a line. -/
def countChars (fmtInt : Int → String) : List Int → List Char
  | [] => []
  | c :: rest => ' ' :: ((fmtInt c).data ++ countChars fmtInt rest)

/-- Source: `Model.SaveModel`, as the lines it writes, one per word in the
iteration order of the map; `file_opens` tells whether the file can be
opened for writing. -/
def SaveModel (fmtInt : Int → String) (file_opens : Bool) (model : Model) :
    Except String (List String) :=
  if !file_opens then .error "Cannot open file"
  else .ok (model.topic_histograms.map (fun p => formatLine fmtInt p.1 p.2))

/-- What the line reader yields on a file made of the given lines: each line
whole, then `os.EOF`. (The cap on the line length is not modelled.) -/
def readBack (lines : List String) : FileReads := ⟨lines.map (fun l => (l, false)), true⟩

/-- Go `len(l)` of a line: the number of bytes of its UTF-8 encoding. -/
def byteLen (s : String) : Nat := (s.data.map Char.utf8Size).sum

/-- The line loop of `LoadCorpus`. -/
def loadCorpusLines (num_topics : Int) : List String → Corpus → Res Corpus
  | [], corpus => .ok corpus
  | line :: rest, corpus =>
    if byteLen line > 1 then
      match NewDocument line num_topics with
      | .ok doc => loadCorpusLines num_topics rest (corpus ++ [doc])
      | .error _ => .panic corpus
    else loadCorpusLines num_topics rest corpus

/-- Source: `LoadCorpus`, on what opening and reading the file yields
(`none`: the file cannot be opened). A normal return carries the corpus or
the error; a panic carries the corpus built so far. -/
def LoadCorpus (file : Option FileReads) (num_topics : Int) : Res (Except String Corpus) :=
  match file with
  | none => .ok (.error "Cannot open file")
  | some f =>
    if (f.reads.head?.map Prod.snd).getD false then .ok (.error "Encountered a long line")
    else
      match loadCorpusLines num_topics (f.reads.map Prod.fst) [] with
      | .ok corpus => if !f.eof then .ok (.error "Error reading") else .ok (.ok corpus)
      | .panic corpus => .panic (.ok corpus)
      | .timeout corpus => .timeout (.ok corpus)

/-! ## Decimal numerals -/

/-- The decimal digit `d`. -/
def digitChar (d : Nat) : Char := Char.ofNat (48 + d)

/-- Decimal digits of `n`, most significant first, in front of `acc`. -/
def showDigits : Nat → Nat → List Char → List Char
  | 0, _, acc => acc
  | fuel + 1, n, acc =>
    if n < 10 then digitChar n :: acc
    else showDigits fuel (n / 10) (digitChar (n % 10) :: acc)

/-- The `%d` rendering of an integer: a minus sign for a negative number,
then its decimal digits. -/
def showInt (c : Int) : String :=
  if c < 0 then String.mk ('-' :: showDigits (c.natAbs + 1) c.natAbs [])
  else String.mk (showDigits (c.toNat + 1) c.toNat [])

/-- Value of a decimal digit, `none` for any other character. -/
def digitValue (c : Char) : Option Nat :=
  if 48 ≤ c.toNat ∧ c.toNat ≤ 57 then some (c.toNat - 48) else none

/-- Reading a run of decimal digits onto the value read so far. -/
def parseDigits : List Char → Nat → Option Nat
  | [], acc => some acc
  | c :: cs, acc =>
    match digitValue c with
    | none => none
    | some d => parseDigits cs (acc * 10 + d)

/-- A reading of decimal numerals as `strconv.Atoi` does: an optional sign and
at least one digit. -/
def Atoi (s : String) : Option Int :=
  match s.data with
  | [] => none
  | c :: cs =>
    if c = '-' then
      (if cs.isEmpty then none else (parseDigits cs 0).map (fun (n : Nat) => -(n : Int)))
    else if c = '+' then
      (if cs.isEmpty then none else (parseDigits cs 0).map (fun (n : Nat) => (n : Int)))
    else (parseDigits (c :: cs) 0).map (fun (n : Nat) => (n : Int))

/-- The lines of the model file of `TestLoadModel`. -/
def fruitFile : FileReads :=
  ⟨[("apple 0 1", false), ("orange 0 1", false), ("zebra 1 0", false)], true⟩

/-- The word of occurrence `p` of a document: the unique word of the last
range that starts at or before `p`. -/
def Document.wordAt (d : Document) (p : Nat) : Option String :=
  match d.wordtopics_indices.countP (fun b => decide (b ≤ p)) with
  | 0 => none
  | n + 1 => d.unique_words[n]?

/-- Number of occurrences of `word` labelled `k` among the first `n`
occurrences of the document. -/
def docWordCountBelow (d : Document) (n : Nat) (word : String) (k : Nat) : Int :=
  (((List.range n).countP (fun p =>
    decide (d.wordAt p = some word) && decide (d.wordtopics[p]? = some (k : Int))) : Nat) : Int)

/-- Number of occurrences of `word` in the document that are labelled `k`. -/
def docWordCount (d : Document) (word : String) (k : Nat) : Int :=
  docWordCountBelow d d.wordtopics.length word k

/-- Number of occurrences of `word` in the corpus that are labelled `k`. -/
def corpusWordCount (corpus : Corpus) (word : String) (k : Nat) : Int :=
  (corpus.map (fun d => docWordCount d word k)).sum

/-- Number of occurrences in the corpus that are labelled `k`. -/
def corpusTopicCount (corpus : Corpus) (k : Nat) : Int :=
  (corpus.map (fun d => labelCount d.wordtopics k)).sum

/-- The counts of the model are the label counts of the corpus: for every
word `w` and topic `k`, `topic_histograms[w][k]` is the number of occurrences
of `w` labelled `k`, and `global_histogram[k]` the number of occurrences
labelled `k`. -/
def Consistent (m : Model) (corpus : Corpus) : Prop :=
  (∀ w k, wordCount m w k = corpusWordCount corpus w k) ∧
  ∀ k, globalCount m k = corpusTopicCount corpus k

/-- Shape of the range table of a document whose first range starts at the
first occurrence. -/
def Document.Ranged (d : Document) : Prop :=
  d.Structured ∧ d.wordtopics_indices[0]? = some 0

/-- The cursor stands on an occurrence of the range of its unique word, or it
is past the last occurrence when it is past the last unique word. -/
def CursorAt (d : Document) (iter : WordIterator) : Prop :=
  (iter.unique_word_index < d.unique_words.length →
    ∃ s, d.wordtopics_indices[iter.unique_word_index]? = some s ∧ s ≤ iter.word_topic_index ∧
      iter.word_topic_index < d.wordtopics.length ∧
      ∀ b, d.wordtopics_indices[iter.unique_word_index + 1]? = some b →
        iter.word_topic_index < b) ∧
  (d.unique_words.length ≤ iter.unique_word_index →
    iter.unique_word_index = d.unique_words.length ∧
    iter.word_topic_index = d.wordtopics.length)

/-- State of an updating sweep that stands in the document `st.doc`, between
the documents `before` and `rest` of the corpus: the live model has the right
shape and `K` topics, the document is one built with `K` topics, and the
model counts the labels of the corpus. -/
def DocSweep.Tracks (K : Int) (before rest : List Document) (st : DocSweep) : Prop :=
  st.sampler.model.Valid ∧ (st.sampler.model.NumTopics : Int) = K ∧
  Document.Reachable K st.doc ∧ Consistent st.sampler.model (before ++ st.doc :: rest)

/-- State between two sweeps: the live model has the right shape and `K`
topics, every document is one built with `K` topics, and the model counts
the labels of the corpus. -/
def CorpusSweep.Tracks (K : Int) (st : CorpusSweep) : Prop :=
  st.sampler.model.Valid ∧ (st.sampler.model.NumTopics : Int) = K ∧
  (∀ d ∈ st.corpus, Document.Reachable K d) ∧ Consistent st.sampler.model st.corpus

/-! ## sampler.go: log-likelihood -/

/-- The first loop of `DocumentLogLikelihood`, from position `i` on:
`prob_topic_given_document[i] = (float64(v) + topic_prior) / smoothed_doc_length`
for `i, v := range doc.topic_histogram`; `none` is an index-out-of-range panic. -/
def topicGivenDocument (topic_prior smoothed_doc_length : ℚ) :
    List Int → Nat → Distribution → Option Distribution
  | [], _, prob => some prob
  | v :: rest, i, prob =>
    if i < prob.length then
      topicGivenDocument topic_prior smoothed_doc_length rest (i + 1)
        (prob.set i ((((v : Int) : ℚ) + topic_prior) / smoothed_doc_length))
    else none

/-- Body of the loop that computes `P(w|z)` for topic `t`; `none` is an
index-out-of-range panic. -/
def wordGivenTopic (sampler : Sampler) (doc : Document) (word_topic_histogram : Histogram)
    (t : Nat) : Option ℚ :=
  match word_topic_histogram[t]?, (GetGlobalTopicHistogram sampler.model)[t]? with
  | some wc, some gc =>
    some ((((wc : Int) : ℚ) + sampler.word_prior) /
      (((gc : Int) : ℚ) + (doc.Length : ℚ) * sampler.word_prior))
  | _, _ => none

/-- The sum `P(w) = sum_z P(w|z) P(z|d)` over the topics. -/
def probWord (prob_word_given_topic prob_topic_given_document : Distribution) : ℚ :=
  (List.zipWith (fun a b => a * b) prob_word_given_topic prob_topic_given_document).foldl
    (fun acc v => acc + v) 0

/-- The cursor loop of `DocumentLogLikelihood`; `log` is `math.Log`, and the
state is the log-likelihood summed so far. -/
def likelihoodLoop (log : ℚ → ℚ) (sampler : Sampler) (doc : Document)
    (prob_topic_given_document : Distribution) : Nat → WordIterator → ℚ → Res ℚ
  | 0, _, log_likelihood => .timeout log_likelihood
  | fuel + 1, iter, log_likelihood =>
    match Done doc iter with
    | none => .panic log_likelihood
    | some true => .ok log_likelihood
    | some false =>
      match Word doc iter with
      | none => .panic log_likelihood
      | some word =>
        match weightLoop (wordGivenTopic sampler doc (GetWordTopicHistogram sampler.model word))
            (List.range sampler.model.NumTopics) with
        | none => .panic log_likelihood
        | some prob_word_given_topic =>
          match Next doc iter with
          | .ok iter1 =>
            likelihoodLoop log sampler doc prob_topic_given_document fuel iter1
              (log_likelihood + log (probWord prob_word_given_topic prob_topic_given_document))
          | _ =>
            .panic
              (log_likelihood + log (probWord prob_word_given_topic prob_topic_given_document))

/-- Source: `Sampler.DocumentLogLikelihood`. -/
def DocumentLogLikelihood (log : ℚ → ℚ) (sampler : Sampler) (doc : Document) : Res ℚ :=
  let num_topics := sampler.model.NumTopics
  let smoothed_doc_length : ℚ := (doc.Length : ℚ) + sampler.topic_prior * (num_topics : ℚ)
  match topicGivenDocument sampler.topic_prior smoothed_doc_length doc.topic_histogram 0
      (NewDistribution num_topics) with
  | none => .panic 0
  | some prob_topic_given_document =>
    match NewWordIterator doc with
    | none => .panic 0
    | some iter =>
      likelihoodLoop log sampler doc prob_topic_given_document (cursorBudget doc) iter 0

/-- Source: `Sampler.CorpusLogLikelihood`, from the total summed so far. -/
def CorpusLogLikelihood (log : ℚ → ℚ) (sampler : Sampler) : List Document → ℚ → Res ℚ
  | [], total_log_likelihood => .ok total_log_likelihood
  | v :: rest, total_log_likelihood =>
    match DocumentLogLikelihood log sampler v with
    | .ok l => CorpusLogLikelihood log sampler rest (total_log_likelihood + l)
    | .panic _ => .panic total_log_likelihood
    | .timeout _ => .timeout total_log_likelihood

/-! ## train.go -/

/-- The command-line flags of the training driver. -/
structure Flags where
  num_topics : Int
  topic_prior : ℚ
  word_prior : ℚ
  corpus_file : String
  model_file : String
  burn_in_iterations : Int
  accumulate_iterations : Int
  compute_loglikelihood : Bool

/-- Source: `CheckFlagsValid`. -/
def CheckFlagsValid (flags : Flags) : Bool :=
  !(decide (flags.num_topics < 2) || decide (flags.topic_prior ≤ 0) ||
    decide (flags.word_prior ≤ 0) || decide (flags.corpus_file.length = 0) ||
    decide (flags.model_file.length = 0) || decide (flags.burn_in_iterations ≤ 0) ||
    decide (flags.accumulate_iterations ≤ 0))

/-- The iteration loop of `main`, with `remaining` iterations to go from iteration
`iter` on. What the loop prints is not part of the state. -/
def trainLoop (log : ℚ → ℚ) (rnd : Nat → ℚ) (flags : Flags) :
    Nat → Int → CorpusSweep → Res CorpusSweep
  | 0, _, st => .ok st
  | remaining + 1, iter, st =>
    match (if flags.compute_loglikelihood then CorpusLogLikelihood log st.sampler st.corpus 0
        else .ok 0) with
    | .ok _ =>
      (CorpusGibbsSampling true (decide (iter < flags.burn_in_iterations)) rnd st).bind
        (trainLoop log rnd flags remaining (iter + 1))
    | .panic _ => .panic st
    | .timeout _ => .timeout st

/-- What a run of the driver leaves behind: the sampler and the corpus, once
they exist, and the lines of the model file, once written. -/
structure Training where
  sweep : Option CorpusSweep
  written : Option (List String)

/-- Source: `main`. The files are given by what reading `corpus_file` yields
and by whether `model_file` can be opened for writing; `log` is `math.Log`,
`fmtInt` the `%d` verb and `rnd` the seeded random stream. -/
def main (log : ℚ → ℚ) (fmtInt : Int → String) (rnd : Nat → ℚ)
    (corpus_reads : Option FileReads) (model_file_opens : Bool) (flags : Flags) : Res Training :=
  if !CheckFlagsValid flags then .ok ⟨none, none⟩
  else
    match LoadCorpus corpus_reads 2 with
    | .ok (.error _) => .ok ⟨none, none⟩
    | .ok (.ok corpus) =>
      match CreateModel flags.num_topics.toNat corpus with
      | .ok model =>
        let accum_model := NewModel flags.num_topics.toNat
        let sampler := NewSampler flags.topic_prior flags.word_prior model (some accum_model)
        match trainLoop log rnd flags
            (flags.burn_in_iterations + flags.accumulate_iterations).toNat 0
            ⟨sampler, corpus, 0⟩ with
        | .ok st =>
          match st.sampler.accum_model with
          | some accum =>
            match SaveModel fmtInt model_file_opens accum with
            | .ok lines => .ok ⟨some st, some lines⟩
            | .error _ => .ok ⟨some st, none⟩
          | none => .panic ⟨some st, none⟩
        | .panic st => .panic ⟨some st, none⟩
        | .timeout st => .timeout ⟨some st, none⟩
      | .panic _ => .panic ⟨none, none⟩
      | .timeout _ => .timeout ⟨none, none⟩
    | .panic _ => .panic ⟨none, none⟩
    | .timeout _ => .timeout ⟨none, none⟩

/-- Flags that ask for three topics; the other flags have their default
values, the two file names are given, and the log-likelihood is not computed. -/
def threeTopicFlags : Flags := ⟨3, 1 / 10, 1 / 100, "corpus.txt", "model.txt", 50, 10, false⟩

/-- A corpus file that holds the document of `TestNewDocument`. -/
def appleFile : FileReads := ⟨[("apple orange apple", false)], true⟩

/-! # Lemmas -/

/-! ## Association lists as Go maps -/

theorem mapGet_eq_none_iff (l : List (String × Histogram)) (w : String) :
    mapGet l w = none ↔ w ∉ l.map Prod.fst := by
  induction l with
  | nil => simp [mapGet]
  | cons p rest ih =>
    obtain ⟨w0, h0⟩ := p
    by_cases hw : w0 = w
    · simp [mapGet, hw]
    · have hw2 : ¬ w = w0 := fun e => hw e.symm
      simp [mapGet, hw, hw2, ih]

theorem mapGet_mem {l : List (String × Histogram)} {w : String} {h : Histogram}
    (hg : mapGet l w = some h) : (w, h) ∈ l := by
  induction l with
  | nil => simp [mapGet] at hg
  | cons p rest ih =>
    obtain ⟨w0, h0⟩ := p
    by_cases hw : w0 = w
    · simp [mapGet, hw] at hg
      simp [hw, hg]
    · simp [mapGet, hw] at hg
      exact List.mem_cons_of_mem _ (ih hg)

theorem mapGet_mapSet (l : List (String × Histogram)) (w w1 : String) (h : Histogram) :
    mapGet (mapSet l w h) w1 = if w1 = w then some h else mapGet l w1 := by
  induction l with
  | nil =>
    by_cases e : w1 = w
    · simp [mapSet, mapGet, e]
    · have e2 : ¬ w = w1 := fun x => e x.symm
      simp [mapSet, mapGet, e, e2]
  | cons p rest ih =>
    obtain ⟨w0, h0⟩ := p
    by_cases hw : w0 = w
    · subst hw
      by_cases e : w1 = w0
      · simp [mapSet, mapGet, e]
      · have e2 : ¬ w0 = w1 := fun x => e x.symm
        simp [mapSet, mapGet, e, e2]
    · by_cases e0 : w0 = w1
      · subst e0
        simp [mapSet, mapGet, hw]
      · simp [mapSet, mapGet, hw, e0, ih]

theorem mapSet_of_none {l : List (String × Histogram)} {w : String} (h : Histogram)
    (hg : mapGet l w = none) : mapSet l w h = l ++ [(w, h)] := by
  induction l with
  | nil => simp [mapSet]
  | cons p rest ih =>
    obtain ⟨w0, h0⟩ := p
    by_cases hw : w0 = w
    · simp [mapGet, hw] at hg
    · simp [mapGet, hw] at hg
      simp [mapSet, hw, ih hg]

theorem mapSet_keys_of_some {l : List (String × Histogram)} {w : String} {h0 : Histogram}
    (h : Histogram) (hg : mapGet l w = some h0) :
    (mapSet l w h).map Prod.fst = l.map Prod.fst := by
  induction l with
  | nil => simp [mapGet] at hg
  | cons p rest ih =>
    obtain ⟨w1, h1⟩ := p
    by_cases hw : w1 = w
    · simp [mapSet, hw]
    · simp [mapGet, hw] at hg
      simp [mapSet, hw, ih hg]

theorem mem_mapSet {l : List (String × Histogram)} {w : String} {h : Histogram}
    {p : String × Histogram} (hp : p ∈ mapSet l w h) : p = (w, h) ∨ p ∈ l := by
  induction l with
  | nil => simp [mapSet] at hp; exact Or.inl hp
  | cons q rest ih =>
    obtain ⟨w1, h1⟩ := q
    by_cases hw : w1 = w
    · simp [mapSet, hw] at hp
      rcases hp with hp | hp
      · exact Or.inl hp
      · exact Or.inr (List.mem_cons_of_mem _ hp)
    · simp [mapSet, hw] at hp
      rcases hp with hp | hp
      · right; simp [hp]
      · rcases ih hp with h2 | h2
        · exact Or.inl h2
        · exact Or.inr (List.mem_cons_of_mem _ h2)

theorem histSum_mapSet_of_some {l : List (String × Histogram)} {w : String} {h0 : Histogram}
    (h : Histogram) (k : Nat) (hg : mapGet l w = some h0) :
    histSum (mapSet l w h) k = histSum l k - h0.getD k 0 + h.getD k 0 := by
  induction l with
  | nil => simp [mapGet] at hg
  | cons p rest ih =>
    obtain ⟨w1, h1⟩ := p
    by_cases hw : w1 = w
    · simp [mapGet, hw] at hg
      subst hg
      simp [mapSet, hw, histSum]
      ring
    · simp [mapGet, hw] at hg
      have := ih hg
      simp [histSum] at this
      simp [mapSet, hw, histSum, this]
      ring

theorem histSum_append (l1 l2 : List (String × Histogram)) (k : Nat) :
    histSum (l1 ++ l2) k = histSum l1 k + histSum l2 k := by
  simp [histSum]

theorem getD_set_int (hist : List Int) (t k : Nat) (v : Int) :
    (hist.set t v).getD k 0 = if k = t ∧ t < hist.length then v else hist.getD k 0 := by
  simp only [List.getD_eq_getElem?_getD, List.getElem?_set]
  by_cases e : t = k
  · subst e
    by_cases hl : t < hist.length
    · simp [hl]
    · simp [hl]
      have : hist[t]? = none := List.getElem?_eq_none (by omega)
      simp [this]
  · have e2 : ¬ k = t := fun x => e x.symm
    simp [e, e2]

/-! ## IncrementTopic -/

theorem ensureWord_global (m : Model) (w : String) :
    (m.ensureWord w).global_histogram = m.global_histogram := by
  unfold Model.ensureWord; split <;> rfl

theorem ensureWord_zero (m : Model) (w : String) :
    (m.ensureWord w).zero_histogram = m.zero_histogram := by
  unfold Model.ensureWord; split <;> rfl

theorem ensureWord_NumTopics (m : Model) (w : String) :
    (m.ensureWord w).NumTopics = m.NumTopics := by
  simp [Model.NumTopics, ensureWord_global]

theorem ensureWord_get (m : Model) (w w1 : String) :
    mapGet (m.ensureWord w).topic_histograms w1 =
      if w1 = w ∧ mapGet m.topic_histograms w = none then some (NewHistogram m.NumTopics)
      else mapGet m.topic_histograms w1 := by
  unfold Model.ensureWord
  cases hg : mapGet m.topic_histograms w with
  | none =>
    simp only [mapGet_mapSet]
    by_cases e : w1 = w <;> simp [e]
  | some h0 => simp

theorem ensureWord_histSum (m : Model) (w : String) (k : Nat) :
    histSum (m.ensureWord w).topic_histograms k = histSum m.topic_histograms k := by
  unfold Model.ensureWord
  cases hg : mapGet m.topic_histograms w with
  | none =>
    simp only [mapSet_of_none _ hg, histSum_append]
    simp [histSum, NewHistogram, List.getD_eq_getElem?_getD, List.getElem?_replicate]
    split <;> rfl
  | some h0 => simp

theorem ensureWord_valid {m : Model} (w : String) (hv : m.Valid) : (m.ensureWord w).Valid := by
  unfold Model.ensureWord
  cases hg : mapGet m.topic_histograms w with
  | none =>
    simp only [mapSet_of_none _ hg]
    refine ⟨?_, ?_⟩
    · simp only [List.map_append, List.map_cons, List.map_nil]
      rw [List.nodup_append]
      refine ⟨hv.1, by simp, ?_⟩
      intro a ha hb
      simp at hb
      subst hb
      exact (mapGet_eq_none_iff _ _).1 hg ha
    · intro p hp
      simp only [List.mem_append, List.mem_singleton] at hp
      rcases hp with hp | hp
      · exact hv.2 p hp
      · subst hp
        simp [NewHistogram, Model.NumTopics]
  | some h0 => simpa using hv

theorem ensureWord_good {m : Model} (w : String) (hg : m.Good) : (m.ensureWord w).Good := by
  refine ⟨ensureWord_valid w hg.1, ?_⟩
  intro k hk
  rw [ensureWord_NumTopics] at hk
  rw [ensureWord_global, ensureWord_histSum]
  exact hg.2 k hk

theorem ensureWord_present (m : Model) (w : String) :
    ∃ hist, mapGet (m.ensureWord w).topic_histograms w = some hist := by
  rw [ensureWord_get]
  cases hg : mapGet m.topic_histograms w with
  | none => exact ⟨NewHistogram m.NumTopics, by simp⟩
  | some h0 => exact ⟨h0, by simp⟩

theorem sliceGet_eq_some {α : Type} {s : List α} {i : Int} {v : α} (h : sliceGet s i = some v) :
    0 ≤ i ∧ i.toNat < s.length ∧ s[i.toNat]? = some v := by
  unfold sliceGet at h
  split at h
  · simp at h
  · refine ⟨by omega, ?_, h⟩
    exact (List.getElem?_eq_some_iff.1 h).1

/-- Normal return of `IncrementTopic`: the topic is in range and the result is
the model with the two counts raised. -/
theorem IncrementTopic_ok {m m1 : Model} {w : String} {t c : Int}
    (h : IncrementTopic m w t c = .ok m1) :
    0 ≤ t ∧ t < (m.NumTopics : Int) ∧
    ∃ hist cnt g, mapGet (m.ensureWord w).topic_histograms w = some hist ∧
      hist[t.toNat]? = some cnt ∧ t.toNat < hist.length ∧
      m.global_histogram[t.toNat]? = some g ∧
      m1 = ⟨mapSet (m.ensureWord w).topic_histograms w (hist.set t.toNat (cnt + c)),
            m.global_histogram.set t.toNat (g + c), m.zero_histogram⟩ := by
  unfold IncrementTopic at h
  split at h
  · simp at h
  · rename_i hlt
    simp only at h
    split at h
    · simp at h
    · rename_i hist hh
      split at h
      · simp at h
      · rename_i cnt hc
        split at h
        · simp at h
        · rename_i g hgl
          have h1 := sliceGet_eq_some hc
          have h2 := sliceGet_eq_some hgl
          simp only [ensureWord_global] at h2
          refine ⟨h1.1, by omega, hist, cnt, g, hh, h1.2.2, h1.2.1, h2.2.2, ?_⟩
          simp only [Res.ok.injEq] at h
          rw [← h]
          simp [ensureWord_global, ensureWord_zero]

theorem IncrementTopic_good {m m1 : Model} {w : String} {t c : Int} (hg : m.Good)
    (h : IncrementTopic m w t c = .ok m1) : m1.Good := by
  obtain ⟨h0, hK, hist, cnt, g, hh, hc, hlen, hgl, rfl⟩ := IncrementTopic_ok h
  have hgood := ensureWord_good w hg
  have hlenK : hist.length = m.NumTopics := by
    have := hgood.1.2 _ (mapGet_mem hh)
    simpa [ensureWord_NumTopics] using this
  refine ⟨⟨?_, ?_⟩, ?_⟩
  · simp only [mapSet_keys_of_some _ hh]
    exact hgood.1.1
  · intro p hp
    simp only [Model.NumTopics, List.length_set]
    rcases mem_mapSet hp with hp | hp
    · subst hp
      simpa [Model.NumTopics] using hlenK
    · have := hgood.1.2 p hp
      simpa [Model.NumTopics, ensureWord_global] using this
  · intro k hk
    simp only [Model.NumTopics, List.length_set] at hk
    have hk2 : k < (m.ensureWord w).NumTopics := by simpa [ensureWord_NumTopics] using hk
    have hcs := hgood.2 k hk2
    rw [ensureWord_global] at hcs
    simp only [histSum_mapSet_of_some _ k hh, getD_set_int]
    have hg1 : m.global_histogram.getD t.toNat 0 = g := by
      simp [List.getD_eq_getElem?_getD, hgl]
    have hc1 : hist.getD t.toNat 0 = cnt := by
      simp [List.getD_eq_getElem?_getD, hc]
    have htK : t.toNat < m.global_histogram.length := (List.getElem?_eq_some_iff.1 hgl).1
    by_cases e : k = t.toNat
    · subst e
      simp only [true_and, htK, hlen, if_true]
      rw [← hcs, hg1, hc1]; ring
    · simp only [e, false_and, if_false]
      rw [← hcs]; ring

theorem Res.bind_ok {σ : Type} {r : Res σ} {f : σ → Res σ} {s : σ}
    (h : r.bind f = .ok s) : ∃ s1, r = .ok s1 ∧ f s1 = .ok s := by
  cases r with
  | ok s1 => exact ⟨s1, rfl, h⟩
  | panic s1 => simp [Res.bind] at h
  | timeout s1 => simp [Res.bind] at h

theorem ReassignTopic_good {m m1 : Model} {w : String} {a b : Int} (hg : m.Good)
    (h : ReassignTopic m w a b = .ok m1) : m1.Good := by
  obtain ⟨m2, h1, h2⟩ := Res.bind_ok h
  exact IncrementTopic_good (IncrementTopic_good hg h1) h2

theorem accumulateCounts_good {w : String} (v : List Int) (t : Nat) {m m1 : Model} (hg : m.Good)
    (h : accumulateCounts w v t m = .ok m1) : m1.Good := by
  induction v generalizing t m with
  | nil => simp [accumulateCounts] at h; subst h; exact hg
  | cons c rest ih =>
    obtain ⟨m2, h1, h2⟩ := Res.bind_ok h
    exact ih (t + 1) (IncrementTopic_good hg h1) h2

theorem accumulateWords_good (hs : List (String × Histogram)) {m m1 : Model} (hg : m.Good)
    (h : accumulateWords hs m = .ok m1) : m1.Good := by
  induction hs generalizing m with
  | nil => simp [accumulateWords] at h; subst h; exact hg
  | cons p rest ih =>
    obtain ⟨w, v⟩ := p
    obtain ⟨m2, h1, h2⟩ := Res.bind_ok h
    exact ih (accumulateCounts_good v 0 (ensureWord_good w hg) h1) h2

theorem AccumulateModel_good {m o m1 : Model} (hg : m.Good)
    (h : AccumulateModel m o = .ok m1) : m1.Good := by
  unfold AccumulateModel at h
  split at h
  · simp at h
  · exact accumulateWords_good _ hg h

theorem NewModel_good (K : Nat) : (NewModel K).Good := by
  refine ⟨⟨by simp [NewModel], by simp [NewModel]⟩, ?_⟩
  intro k hk
  simp [NewModel, histSum, NewHistogram, Model.NumTopics] at *

/-! ## CreateModel and LoadModel establish the invariant -/

theorem createLoop_good (d : Document) (fuel : Nat) (iter : WordIterator) {m m1 : Model}
    (hg : m.Good) (h : createLoop d fuel iter m = .ok m1) : m1.Good := by
  induction fuel generalizing iter m with
  | zero => simp [createLoop] at h
  | succ n ih =>
    rw [createLoop] at h
    split at h
    · simp at h
    · simp at h; subst h; exact hg
    · split at h
      · rename_i word topic hw ht
        split at h
        · rename_i m2 hinc
          split at h
          · rename_i iter1 hn
            exact ih iter1 (IncrementTopic_good hg hinc) h
          · simp at h
        · rename_i r hr
          exact absurd h (hr m1)
      · simp at h

theorem createDocs_good (corpus : List Document) {m m1 : Model} (hg : m.Good)
    (h : createDocs corpus m = .ok m1) : m1.Good := by
  induction corpus generalizing m with
  | nil => simp [createDocs] at h; subst h; exact hg
  | cons d rest ih =>
    rw [createDocs] at h
    split at h
    · simp at h
    · obtain ⟨m2, h1, h2⟩ := Res.bind_ok h
      exact ih (createLoop_good d _ _ hg h1) h2

theorem CreateModel_good {K : Nat} {corpus : Corpus} {m : Model}
    (h : CreateModel K corpus = .ok m) : m.Good :=
  createDocs_good corpus (NewModel_good K) h

theorem loadCounts_spec (atoi : String → Option Int) (fs : List String) (i : Nat)
    {hist global hist1 global1 : Histogram}
    (hz : ∀ k, i ≤ k → hist.getD k 0 = 0) (hl : hist.length = global.length)
    (h : loadCounts atoi fs i hist global = .ok (hist1, global1)) :
    hist1.length = hist.length ∧ global1.length = global.length ∧
    ∀ k, global1.getD k 0 - hist1.getD k 0 = global.getD k 0 - hist.getD k 0 := by
  induction fs generalizing i hist global with
  | nil =>
    simp [loadCounts] at h
    obtain ⟨rfl, rfl⟩ := h
    simp
  | cons f rest ih =>
    rw [loadCounts] at h
    split at h
    · simp at h
    · rename_i v hv
      have hz1 : ∀ k, i + 1 ≤ k → (hist.set i v).getD k 0 = 0 := by
        intro k hk
        rw [getD_set_int, if_neg (by omega)]
        exact hz k (by omega)
      have := ih (i + 1) hz1 (by simp [hl]) h
      obtain ⟨h1, h2, h3⟩ := this
      refine ⟨by simpa using h1, by simpa using h2, ?_⟩
      intro k
      rw [h3 k, getD_set_int, getD_set_int]
      by_cases e : k = i
      · subst e
        have hzk := hz k (le_refl k)
        by_cases hlt : k < hist.length
        · have hlt2 : k < global.length := by omega
          rw [if_pos ⟨rfl, hlt2⟩, if_pos ⟨rfl, hlt⟩, hzk]; ring
        · have hlt2 : ¬ k < global.length := by omega
          rw [if_neg (fun x => hlt2 x.2), if_neg (fun x => hlt x.2)]
      · rw [if_neg (fun x => e x.1), if_neg (fun x => e x.1)]

theorem insert_word_good {hs : List (String × Histogram)} {g hist global zero : Histogram}
    {w : String} (hgood : Model.Good ⟨hs, g, zero⟩) (hnone : mapGet hs w = none)
    (hl1 : hist.length = g.length) (hl2 : global.length = g.length)
    (hd : ∀ k, global.getD k 0 - hist.getD k 0 = g.getD k 0) :
    Model.Good ⟨mapSet hs w hist, global, zero⟩ := by
  obtain ⟨⟨hnd, hlen⟩, hcs⟩ := hgood
  simp only [Model.NumTopics] at hlen hcs
  rw [mapSet_of_none _ hnone]
  refine ⟨⟨?_, ?_⟩, ?_⟩
  · simp only [List.map_append, List.map_cons, List.map_nil]
    rw [List.nodup_append]
    refine ⟨hnd, by simp, ?_⟩
    intro a ha hb
    simp at hb
    subst hb
    exact (mapGet_eq_none_iff _ _).1 hnone ha
  · intro p hp
    simp only [List.mem_append, List.mem_singleton, Model.NumTopics] at hp ⊢
    rcases hp with hp | hp
    · rw [hlen p hp, hl2]
    · subst hp; simp only; rw [hl1, hl2]
  · intro k hk
    simp only [Model.NumTopics] at hk ⊢
    rw [histSum_append, ← hcs k (by simp only [Model.NumTopics]; omega)]
    have := hd k
    simp only [histSum, List.map_cons, List.map_nil, List.sum_cons, List.sum_nil]
    omega

theorem zeros_getD (n k : Nat) : (NewHistogram n).getD k 0 = 0 := by
  simp only [NewHistogram, List.getD_eq_getElem?_getD, List.getElem?_replicate]
  split <;> rfl

theorem loadLines_good (atoi : String → Option Int) (lines : List String) (n : Nat)
    {m m1 : Model} (hg : m.Good) (hn : n ≠ 0 → m.NumTopics = n)
    (hn0 : n = 0 → m.topic_histograms = [])
    (h : loadLines atoi lines n m = .ok m1) : m1.Good := by
  induction lines generalizing n m with
  | nil => simp [loadLines] at h; subst h; exact hg
  | cons line rest ih =>
    rw [loadLines] at h
    simp only at h
    split at h
    · simp at h
    · rename_i hlen
      split at h
      · simp at h
      · rename_i habs
        split at h
        · simp at h
        · rename_i hcons
          split at h
          · simp at h
          · rename_i hist global hlc
            have hnone : mapGet m.topic_histograms ((Fields line).headD "") = none := by
              cases hq : mapGet m.topic_histograms ((Fields line).headD "") with
              | none => rfl
              | some x => rw [hq] at habs; simp at habs
            by_cases h0 : n = 0
            · subst h0
              simp only [if_true] at hlc h
              have hsp := loadCounts_spec atoi _ 0
                (fun k _ => zeros_getD _ k) rfl hlc
              obtain ⟨hl1, hl2, hd⟩ := hsp
              have hm : m.topic_histograms = [] := hn0 rfl
              refine ih _ ?_ ?_ ?_ h
              · apply insert_word_good (g := NewHistogram ((Fields line).length - 1))
                · rw [hm]
                  have := NewModel_good ((Fields line).length - 1)
                  refine ⟨⟨by simp, by simp⟩, ?_⟩
                  intro k hk
                  simp only [histSum, List.map_nil, List.sum_nil]
                  exact zeros_getD _ k
                · exact hnone
                · exact hl1
                · exact hl2
                · intro k
                  rw [hd k, zeros_getD]; ring
              · intro _
                simp only [Model.NumTopics, hl2]
                simp [NewHistogram]
              · intro e
                omega
            · simp only [if_neg h0] at hlc h
              have hK := hn h0
              have hsp := loadCounts_spec atoi _ 0
                (fun k _ => zeros_getD _ k) (by simp [NewHistogram]; exact hK.symm) hlc
              obtain ⟨hl1, hl2, hd⟩ := hsp
              refine ih _ ?_ ?_ ?_ h
              · apply insert_word_good (g := m.global_histogram) hg hnone
                · rw [hl1]; simp [NewHistogram]; exact hK.symm
                · exact hl2
                · intro k
                  rw [hd k, zeros_getD]; ring
              · intro _
                simp only [Model.NumTopics, hl2]
                exact hK
              · intro e
                exact absurd e h0

theorem LoadModel_good {atoi : String → Option Int} {file : Option FileReads} {m : Model}
    (h : LoadModel atoi file = .ok m) : m.Good := by
  unfold LoadModel at h
  split at h
  · simp at h
  · split at h
    · simp at h
    · split at h
      · simp at h
      · rename_i m0 hm0
        split at h
        · simp at h
        · split at h
          · simp at h
          · simp only [Except.ok.injEq] at h
            subst h
            refine loadLines_good atoi _ 0 ?_ (fun x => absurd rfl x) (fun _ => rfl) hm0
            refine ⟨⟨by simp, by simp⟩, ?_⟩
            intro k hk
            simp [Model.NumTopics] at hk

/-! ## Documents -/

theorem scanWords_spec (ws : List String) (i : Nat) (prev : String) (doc : Document)
    (hp : doc.wordtopics_indices.Pairwise (fun a b => a < b))
    (hb : ∀ b ∈ doc.wordtopics_indices, b < i)
    (hl : doc.wordtopics_indices.length = doc.unique_words.length) :
    (scanWords ws i prev doc).wordtopics = doc.wordtopics ∧
    (scanWords ws i prev doc).topic_histogram = doc.topic_histogram ∧
    (scanWords ws i prev doc).wordtopics_indices.Pairwise (fun a b => a < b) ∧
    (∀ b ∈ (scanWords ws i prev doc).wordtopics_indices, b < i + ws.length) ∧
    (scanWords ws i prev doc).wordtopics_indices.length =
      (scanWords ws i prev doc).unique_words.length := by
  induction ws generalizing i prev doc with
  | nil =>
    simp only [scanWords, List.length_nil, Nat.add_zero]
    exact ⟨trivial, trivial, hp, hb, hl⟩
  | cons w rest ih =>
    rw [scanWords]
    split
    · have := ih (i + 1) w
        { doc with
          unique_words := doc.unique_words ++ [w]
          wordtopics_indices := doc.wordtopics_indices ++ [i] }
        (by
          simp only
          rw [List.pairwise_append]
          refine ⟨hp, by simp, ?_⟩
          intro a ha b hb2
          simp at hb2
          subst hb2
          exact hb a ha)
        (by
          intro b hb2
          simp only [List.mem_append, List.mem_singleton] at hb2
          rcases hb2 with hb2 | hb2
          · have := hb b hb2; omega
          · omega)
        (by simp [hl])
      obtain ⟨h1, h2, h3, h4, h5⟩ := this
      refine ⟨h1, h2, h3, ?_, h5⟩
      intro b hb2
      have := h4 b hb2
      simp only [List.length_cons]; omega
    · have := ih (i + 1) prev doc hp (fun b hb2 => by have := hb b hb2; omega) hl
      obtain ⟨h1, h2, h3, h4, h5⟩ := this
      refine ⟨h1, h2, h3, ?_, h5⟩
      intro b hb2
      have := h4 b hb2
      simp only [List.length_cons]; omega

/-- Normal return of `NewDocument`: what the document holds. -/
theorem NewDocument_ok {text : String} {K : Int} {d : Document}
    (h : NewDocument text K = .ok d) :
    2 ≤ K ∧ 2 ≤ (Fields text).length ∧
    d.wordtopics = List.replicate (Fields text).length 0 ∧
    d.topic_histogram = (List.replicate K.toNat (0 : Int)).set 0 ((Fields text).length : Int) ∧
    d.Structured ∧ d.IsValid = true := by
  unfold NewDocument at h
  split at h
  · simp at h
  · rename_i hK
    simp only at h
    split at h
    · simp at h
    · rename_i hn
      split at h
      · simp at h
      · rename_i hv
        simp only [Except.ok.injEq] at h
        have hs := scanWords_spec (SortStrings (Fields text)) 0 ""
          { wordtopics := List.replicate (SortStrings (Fields text)).length 0
            unique_words := []
            wordtopics_indices := []
            topic_histogram := (List.replicate K.toNat (0 : Int)).set 0
              ((SortStrings (Fields text)).length : Int) }
          (by simp) (by simp) (by simp)
        rw [h] at hs hv
        have hlen : (SortStrings (Fields text)).length = (Fields text).length := by
          simp [SortStrings, List.length_insertionSort]
        obtain ⟨h1, h2, h3, h4, h5⟩ := hs
        simp only [hlen] at h1 h2 h4
        refine ⟨by omega, by omega, h1, h2, ⟨h5, h3, ?_⟩, by simpa using hv⟩
        intro b hb
        have := h4 b hb
        rw [h1]
        simpa using this

theorem labelCount_cons (t : Int) (rest : List Int) (k : Nat) :
    labelCount (t :: rest) k = labelCount rest k + (if t = (k : Int) then 1 else 0) := by
  simp only [labelCount, List.count_cons]
  by_cases e : t = (k : Int)
  · simp [e]
  · simp [e]

theorem labelCount_set (labels : List Int) (i : Nat) (t old : Int) (k : Nat)
    (h : labels[i]? = some old) :
    labelCount (labels.set i t) k =
      labelCount labels k - (if old = (k : Int) then 1 else 0) + (if t = (k : Int) then 1 else 0) := by
  induction labels generalizing i with
  | nil => simp at h
  | cons a rest ih =>
    cases i with
    | zero =>
      simp at h
      subst h
      simp only [List.set_cons_zero, labelCount_cons]
      ring
    | succ j =>
      simp at h
      simp only [List.set_cons_succ, labelCount_cons, ih j h]
      ring

theorem NewDocument_counted {text : String} {K : Int} {d : Document}
    (h : NewDocument text K = .ok d) : d.Counted := by
  obtain ⟨hK, hn, hw, hh, _, _⟩ := NewDocument_ok h
  refine ⟨?_, ?_⟩
  · intro k hk
    rw [hw, hh, getD_set_int]
    simp only [labelCount, List.count_replicate, List.length_replicate]
    by_cases e : k = 0
    · subst e
      have : 0 < K.toNat := by omega
      simp [this]
    · have e2 : ¬ (0 : Int) = (k : Int) := by omega
      simp [e, e2, List.getD_eq_getElem?_getD, List.getElem?_replicate]
      split <;> rfl
  · intro t ht
    rw [hw] at ht
    have := List.eq_of_mem_replicate ht
    subst this
    rw [hh]
    simp only [List.length_set, List.length_replicate]
    omega

theorem Done_eq_false {d : Document} {iter : WordIterator} (h : Done d iter = some false) :
    iter.unique_word_index < d.unique_words.length := by
  unfold Done at h
  split at h
  · simp at h
  · simp at h; omega

/-- Normal return of `SetTopic`: the checks that passed and the document it leaves. -/
theorem SetTopic_ok {d d1 : Document} {iter : WordIterator} {t : Int}
    (h : SetTopic d iter t = .ok d1) :
    Done d iter = some false ∧ 0 ≤ t ∧ t < (d.topic_histogram.length : Int) ∧
    ∃ old c_old c_new, d.wordtopics[iter.word_topic_index]? = some old ∧
      0 ≤ old ∧ old.toNat < d.topic_histogram.length ∧
      d.topic_histogram[old.toNat]? = some c_old ∧
      (d.topic_histogram.set old.toNat (c_old - 1))[t.toNat]? = some c_new ∧
      d1 = { d with
             topic_histogram :=
               (d.topic_histogram.set old.toNat (c_old - 1)).set t.toNat (c_new + 1)
             wordtopics := d.wordtopics.set iter.word_topic_index t } := by
  unfold SetTopic at h
  split at h
  · simp at h
  · simp at h
  · rename_i hdone
    split at h
    · simp at h
    · rename_i ht0
      split at h
      · simp at h
      · rename_i htK
        split at h
        · simp at h
        · rename_i old hold
          split at h
          · simp at h
          · rename_i c_old hco
            simp only at h
            split at h
            · simp at h
            · rename_i c_new hcn
              simp only [Res.ok.injEq] at h
              have h1 := sliceGet_eq_some hco
              have h2 := sliceGet_eq_some hcn
              have h3 : d.wordtopics[iter.word_topic_index]? = some old := by
                simpa [Topic, hdone] using hold
              exact ⟨hdone, by omega, by omega, old, c_old, c_new, h3, h1.1, h1.2.1, h1.2.2,
                h2.2.2, h.symm⟩

theorem SetTopic_counted {d d1 : Document} {iter : WordIterator} {t : Int}
    (hc : d.Counted) (h : SetTopic d iter t = .ok d1) : d1.Counted := by
  obtain ⟨_, ht0, htK, old, c_old, c_new, hold, ho0, hoK, hco, hcn, rfl⟩ := SetTopic_ok h
  have htn : t.toNat < d.topic_histogram.length := by omega
  refine ⟨?_, ?_⟩
  · intro k hk
    simp only [List.length_set] at hk
    simp only [labelCount_set _ _ _ _ _ hold, getD_set_int, List.length_set]
    have hck := hc.1 k hk
    have e1 : c_old = d.topic_histogram.getD old.toNat 0 := by
      simp [List.getD_eq_getElem?_getD, hco]
    have e2 : c_new = (d.topic_histogram.set old.toNat (c_old - 1)).getD t.toNat 0 := by
      simp only [List.getD_eq_getElem?_getD, hcn, Option.getD_some]
    rw [getD_set_int] at e2
    by_cases a1 : k = t.toNat
    · by_cases a2 : k = old.toNat
      · have b1 : t = (k : Int) := by omega
        have b2 : old = (k : Int) := by omega
        have b3 : t.toNat = old.toNat := by omega
        simp only [a1, b3, true_and, hoK, if_true] at e2 ⊢
        rw [if_pos (by omega), if_pos (by omega), e2]
        ring_nf
        rw [e1, ← a2, hck]
      · have b1 : t = (k : Int) := by omega
        have b2 : ¬ old = (k : Int) := by omega
        rw [if_pos ⟨a1, htn⟩, if_neg b2, if_pos b1, e2, if_neg (by omega), ← a1, hck]
        ring
    · by_cases a2 : k = old.toNat
      · have b1 : ¬ t = (k : Int) := by omega
        have b2 : old = (k : Int) := by omega
        rw [if_neg (by omega), if_pos ⟨a2, hoK⟩, if_pos b2, if_neg b1, e1, ← a2, hck]
        ring
      · have b1 : ¬ t = (k : Int) := by omega
        have b2 : ¬ old = (k : Int) := by omega
        rw [if_neg (by omega), if_neg (by omega), if_neg b2, if_neg b1, hck]
        ring
  · intro x hx
    simp only [List.length_set]
    rcases List.mem_or_eq_of_mem_set hx with hx | hx
    · exact hc.2 x hx
    · subst hx; exact ⟨ht0, htK⟩

theorem SetTopic_structured {d d1 : Document} {iter : WordIterator} {t : Int}
    (hs : d.Structured) (h : SetTopic d iter t = .ok d1) : d1.Structured := by
  obtain ⟨_, _, _, old, c_old, c_new, _, _, _, _, _, rfl⟩ := SetTopic_ok h
  simpa [Document.Structured] using hs

theorem Reachable_facts {K : Int} {d : Document} (h : Document.Reachable K d) :
    d.Counted ∧ d.Structured ∧ (d.topic_histogram.length : Int) = K ∧ d.IsValid = true := by
  induction h with
  | new hnew =>
    obtain ⟨hK, hn, hw, hh, hs, hv⟩ := NewDocument_ok hnew
    refine ⟨NewDocument_counted hnew, hs, ?_, hv⟩
    rw [hh]; simp only [List.length_set, List.length_replicate]; omega
  | set _ hset ih =>
    obtain ⟨h1, h2, h3, h4⟩ := ih
    refine ⟨SetTopic_counted h1 hset, SetTopic_structured h2 hset, ?_, ?_⟩
    · obtain ⟨_, _, _, old, c_old, c_new, _, _, _, _, _, rfl⟩ := SetTopic_ok hset
      simpa using h3
    · obtain ⟨_, _, _, old, c_old, c_new, _, _, _, _, _, rfl⟩ := SetTopic_ok hset
      simpa [Document.IsValid] using h4

theorem sum_indicator (t : Int) (K : Nat) :
    ((List.range K).map (fun k : Nat => if t = (k : Int) then (1 : Int) else 0)).sum =
      if 0 ≤ t ∧ t < (K : Int) then 1 else 0 := by
  induction K with
  | zero =>
    have : ¬ (0 ≤ t ∧ t < ((0 : Nat) : Int)) := by omega
    rw [if_neg this]; rfl
  | succ n ih =>
    rw [List.range_succ, List.map_append, List.sum_append, ih]
    simp only [List.map_cons, List.map_nil, List.sum_cons, List.sum_nil]
    by_cases e : t = (n : Int)
    · have a1 : ¬ (0 ≤ t ∧ t < (n : Int)) := by omega
      have a2 : 0 ≤ t ∧ t < ((n + 1 : Nat) : Int) := by omega
      rw [if_neg a1, if_pos e, if_pos a2]; rfl
    · by_cases a1 : 0 ≤ t ∧ t < (n : Int)
      · have a2 : 0 ≤ t ∧ t < ((n + 1 : Nat) : Int) := by omega
        rw [if_pos a1, if_neg e, if_pos a2]; rfl
      · have a2 : ¬ (0 ≤ t ∧ t < ((n + 1 : Nat) : Int)) := by omega
        rw [if_neg a1, if_neg e, if_neg a2]; rfl

theorem sum_labelCount (labels : List Int) (K : Nat)
    (h : ∀ t ∈ labels, 0 ≤ t ∧ t < (K : Int)) :
    ((List.range K).map (fun k => labelCount labels k)).sum = (labels.length : Int) := by
  induction labels with
  | nil => simp [labelCount]
  | cons t rest ih =>
    have h1 := ih (fun x hx => h x (List.mem_cons_of_mem _ hx))
    have h2 := h t (List.mem_cons_self _ _)
    simp only [labelCount_cons, List.sum_map_add, h1, sum_indicator, if_pos h2,
      List.length_cons]
    push_cast; ring

theorem histogram_eq_map_range (hist : List Int) :
    hist = (List.range hist.length).map (fun k => hist.getD k 0) := by
  apply List.ext_getElem
  · simp
  · intro n h1 h2
    simp [List.getD_eq_getElem?_getD, List.getElem?_eq_getElem h1]

theorem Counted_sum {d : Document} (hc : d.Counted) :
    d.topic_histogram.sum = (d.Length : Int) ∧ ∀ c ∈ d.topic_histogram, 0 ≤ c := by
  refine ⟨?_, ?_⟩
  · rw [histogram_eq_map_range d.topic_histogram]
    have : (List.range d.topic_histogram.length).map (fun k => d.topic_histogram.getD k 0) =
        (List.range d.topic_histogram.length).map (fun k => labelCount d.wordtopics k) := by
      apply List.map_congr_left
      intro k hk
      exact hc.1 k (List.mem_range.1 hk)
    rw [this, sum_labelCount _ _ hc.2]
    rfl
  · intro c hcm
    obtain ⟨k, hk, rfl⟩ := List.getElem_of_mem hcm
    have := hc.1 k hk
    simp only [List.getD_eq_getElem?_getD, List.getElem?_eq_getElem hk, Option.getD_some] at this
    rw [this]
    simp [labelCount]

/-! ## Cursors -/

theorem NewWordIterator_eq {d : Document} {iter : WordIterator}
    (h : NewWordIterator d = some iter) : d.IsValid = true ∧ iter = ⟨0, 0⟩ := by
  unfold NewWordIterator at h
  split at h
  · simp at h
  · rename_i hv
    simp at h hv
    exact ⟨hv, h.symm⟩

theorem IsValid_facts {d : Document} (h : d.IsValid = true) :
    1 ≤ d.unique_words.length ∧ d.wordtopics_indices.length = d.unique_words.length ∧
    2 ≤ d.wordtopics.length ∧ 2 ≤ d.topic_histogram.length := by
  simpa [Document.IsValid, and_assoc] using h

/-- Normal return of `Next`: the three ways the cursor moves. -/
theorem Next_ok {d : Document} {iter iter1 : WordIterator} (h : Next d iter = .ok iter1) :
    iter.unique_word_index < d.unique_words.length ∧
    iter1.word_topic_index = iter.word_topic_index + 1 ∧
    ((d.wordtopics.length ≤ iter.word_topic_index + 1 ∧
        iter1.unique_word_index = iter.unique_word_index + 1) ∨
     (iter.word_topic_index + 1 < d.wordtopics.length ∧
        ∃ b, d.wordtopics_indices[iter.unique_word_index + 1]? = some b ∧
          ((b ≤ iter.word_topic_index + 1 ∧
              iter1.unique_word_index = iter.unique_word_index + 1) ∨
           (iter.word_topic_index + 1 < b ∧
              iter1.unique_word_index = iter.unique_word_index)))) := by
  unfold Next at h
  split at h
  · simp at h
  · simp at h
  · rename_i hd
    refine ⟨Done_eq_false hd, ?_⟩
    simp only at h
    split at h
    · rename_i hge
      simp only [Res.ok.injEq] at h
      subst h
      exact ⟨rfl, Or.inl ⟨hge, rfl⟩⟩
    · rename_i hlt
      split at h
      · simp at h
      · rename_i b hb
        split at h
        · rename_i hge
          simp only [Res.ok.injEq] at h
          subst h
          exact ⟨rfl, Or.inr ⟨by omega, b, hb, Or.inl ⟨hge, rfl⟩⟩⟩
        · rename_i hnge
          simp only [Res.ok.injEq] at h
          subst h
          exact ⟨rfl, Or.inr ⟨by omega, b, hb, Or.inr ⟨by omega, rfl⟩⟩⟩

theorem CursorOf_within {d : Document} {iter : WordIterator} (hs : d.Structured)
    (hc : CursorOf d iter) : CursorWithin d iter := by
  obtain ⟨hlen, hpw, hbd⟩ := hs
  rw [List.pairwise_iff_getElem] at hpw
  induction hc with
  | new hnew =>
    obtain ⟨hv, rfl⟩ := NewWordIterator_eq hnew
    obtain ⟨h1, h2, h3, h4⟩ := IsValid_facts hv
    intro _
    refine ⟨by simp only; omega, ?_⟩
    intro b hb
    show 0 < b
    have hb0 : d.wordtopics_indices[1]? = some b := hb
    obtain ⟨hb1, hb2⟩ := List.getElem?_eq_some_iff.1 hb0
    have := hpw 0 1 (by omega) hb1 (by omega)
    omega
  | next hprev hnext ih =>
    rename_i it it1
    obtain ⟨hu, hw, hcase⟩ := Next_ok hnext
    obtain ⟨ih1, ih2⟩ := ih hu
    intro hu1
    rcases hcase with ⟨hge, he⟩ | ⟨hlt, b, hb, hcase2⟩
    · -- the occurrences are exhausted: the cursor was in the last range
      exfalso
      have hidx : it.unique_word_index + 1 < d.wordtopics_indices.length := by omega
      have h1 := ih2 _ (List.getElem?_eq_getElem hidx)
      have h2 := hbd _ (List.getElem_mem hidx)
      omega
    · rcases hcase2 with ⟨hge, he⟩ | ⟨hlt2, he⟩
      · refine ⟨by omega, ?_⟩
        intro b2 hb2
        rw [he] at hb2
        obtain ⟨i1, e1⟩ := List.getElem?_eq_some_iff.1 hb
        obtain ⟨i2, e2⟩ := List.getElem?_eq_some_iff.1 hb2
        have := hpw (it.unique_word_index + 1) (it.unique_word_index + 1 + 1) i1 i2 (by omega)
        have := ih2 b hb
        omega
      · refine ⟨by omega, ?_⟩
        intro b2 hb2
        rw [he, hb] at hb2
        simp at hb2
        omega

/-! ## SetTopic returns normally exactly on in-range topics -/

theorem SetTopic_in_range {d : Document} {iter : WordIterator} {t : Int} (hc : d.Counted)
    (hd : Done d iter = some false) (hw : iter.word_topic_index < d.wordtopics.length)
    (h0 : 0 ≤ t) (hK : t < (d.topic_histogram.length : Int)) :
    ∃ d1, SetTopic d iter t = .ok d1 := by
  have hold := hc.2 _ (List.getElem_mem hw)
  have hoK : (d.wordtopics[iter.word_topic_index]).toNat < d.topic_histogram.length := by omega
  have htK : t.toNat < (d.topic_histogram.set (d.wordtopics[iter.word_topic_index]).toNat
      (d.topic_histogram[(d.wordtopics[iter.word_topic_index]).toNat] - 1)).length := by
    simp only [List.length_set]; omega
  have hT : Topic d iter = some (d.wordtopics[iter.word_topic_index]) := by
    simp [Topic, hd, List.getElem?_eq_getElem hw]
  have hS1 : sliceGet d.topic_histogram (d.wordtopics[iter.word_topic_index]) =
      some (d.topic_histogram[(d.wordtopics[iter.word_topic_index]).toNat]) := by
    unfold sliceGet
    rw [if_neg (by omega), List.getElem?_eq_getElem hoK]
  have hS2 : sliceGet (d.topic_histogram.set (d.wordtopics[iter.word_topic_index]).toNat
      (d.topic_histogram[(d.wordtopics[iter.word_topic_index]).toNat] - 1)) t =
      some ((d.topic_histogram.set (d.wordtopics[iter.word_topic_index]).toNat
        (d.topic_histogram[(d.wordtopics[iter.word_topic_index]).toNat] - 1))[t.toNat]) := by
    unfold sliceGet
    rw [if_neg (by omega), List.getElem?_eq_getElem htK]
  unfold SetTopic
  simp only [hd]
  rw [if_neg (by omega), if_neg (by omega)]
  simp only [hT, hS1, hS2]
  exact ⟨_, rfl⟩

theorem SetTopic_out_of_range {d : Document} {iter : WordIterator} {t : Int}
    (h : t < 0 ∨ t ≥ (d.topic_histogram.length : Int)) : SetTopic d iter t = .panic d := by
  unfold SetTopic
  split
  · rfl
  · rfl
  · by_cases h0 : t < 0
    · rw [if_pos h0]
    · rw [if_neg h0, if_pos (by omega)]

/-! ## The sweeps end, and leave the sampler configuration alone -/

theorem SetTopic_lengths {d d1 : Document} {iter : WordIterator} {t : Int}
    (h : SetTopic d iter t = .ok d1) :
    d1.unique_words = d.unique_words ∧ d1.wordtopics_indices = d.wordtopics_indices ∧
    d1.wordtopics.length = d.wordtopics.length ∧
    d1.topic_histogram.length = d.topic_histogram.length := by
  obtain ⟨_, _, _, old, c_old, c_new, _, _, _, _, _, rfl⟩ := SetTopic_ok h
  simp

/-- Each `Next` that returns moves the cursor closer to the end. -/
theorem Next_measure {d : Document} {iter iter1 : WordIterator} (h : Next d iter = .ok iter1) :
    (d.wordtopics.length - iter1.word_topic_index) +
        (d.unique_words.length - iter1.unique_word_index) <
      (d.wordtopics.length - iter.word_topic_index) +
        (d.unique_words.length - iter.unique_word_index) := by
  obtain ⟨hu, hw, hcase⟩ := Next_ok h
  rcases hcase with ⟨hge, he⟩ | ⟨hlt, b, _, hcase2⟩
  · omega
  · rcases hcase2 with ⟨_, he⟩ | ⟨_, he⟩ <;> omega

/-- Normal return of the loop body: the calls that returned and the state they leave. -/
theorem gibbsStep_ok {update_model : Bool} {rnd : Nat → ℚ} {iter : WordIterator}
    {st st1 : DocSweep} (h : gibbsStep update_model rnd iter st = .ok st1) :
    ∃ word topic dist model1 doc1,
      Word st.doc iter = some word ∧ Topic st.doc iter = some topic ∧
      GenerateTopicDistributionForWord st.sampler st.doc word topic update_model = some dist ∧
      GetAccumulativeSample dist (rnd st.draws) ≠ -1 ∧
      (if update_model then
          ReassignTopic st.sampler.model word topic (GetAccumulativeSample dist (rnd st.draws))
        else .ok st.sampler.model) = .ok model1 ∧
      SetTopic st.doc iter (GetAccumulativeSample dist (rnd st.draws)) = .ok doc1 ∧
      st1 = ⟨{ st.sampler with model := model1 }, doc1, st.draws + 1⟩ := by
  unfold gibbsStep at h
  split at h
  · rename_i word topic hw ht
    split at h
    · simp at h
    · rename_i dist hdist
      split at h
      · rename_i hne
        split at h
        · rename_i model1 hre
          split at h
          · rename_i doc1 hset
            simp only [Res.ok.injEq] at h
            exact ⟨word, topic, dist, model1, doc1, hw, ht, hdist, hne, hre, hset, h.symm⟩
          · simp at h
        · simp at h
      · simp at h
  · simp at h

/-- The loop body never touches the priors or the accumulator, whatever its outcome. -/
theorem gibbsStep_config (update_model : Bool) (rnd : Nat → ℚ) (iter : WordIterator)
    (st : DocSweep) :
    (gibbsStep update_model rnd iter st).state.sampler.accum_model = st.sampler.accum_model ∧
    (gibbsStep update_model rnd iter st).state.sampler.topic_prior = st.sampler.topic_prior ∧
    (gibbsStep update_model rnd iter st).state.sampler.word_prior = st.sampler.word_prior := by
  unfold gibbsStep
  repeat' split
  all_goals exact ⟨rfl, rfl, rfl⟩

/-- Without updating, the loop body leaves the whole sampler as it was, whatever its outcome. -/
theorem gibbsStep_frame (rnd : Nat → ℚ) (iter : WordIterator) (st : DocSweep) :
    (gibbsStep false rnd iter st).state.sampler = st.sampler := by
  unfold gibbsStep
  split
  · split
    · rfl
    · split
      · simp only [Bool.false_eq_true, if_false]
        split <;> rfl
      · rfl
  · rfl

theorem gibbsLoop_total (update_model : Bool) (rnd : Nat → ℚ) (fuel : Nat)
    (iter : WordIterator) (st : DocSweep)
    (hf : (st.doc.wordtopics.length - iter.word_topic_index) +
        (st.doc.unique_words.length - iter.unique_word_index) < fuel) :
    (gibbsLoop update_model rnd fuel iter st).isTimeout = false := by
  induction fuel generalizing iter st with
  | zero => omega
  | succ n ih =>
    rw [gibbsLoop]
    split
    · rfl
    · rfl
    · split
      · rename_i st1 hstep
        split
        · rename_i iter1 hnext
          apply ih
          have hm := Next_measure hnext
          obtain ⟨_, _, _, _, doc1, _, _, _, _, _, hset, rfl⟩ := gibbsStep_ok hstep
          obtain ⟨h1, h2, h3, h4⟩ := SetTopic_lengths hset
          simp only [h1, h3] at hm ⊢
          omega
        · rfl
      · rfl

theorem DocumentGibbsSampling_total (update_model : Bool) (rnd : Nat → ℚ) (st : DocSweep) :
    (DocumentGibbsSampling update_model rnd st).isTimeout = false := by
  unfold DocumentGibbsSampling
  split
  · rfl
  · rename_i iter hnew
    obtain ⟨_, rfl⟩ := NewWordIterator_eq hnew
    apply gibbsLoop_total
    simp only [cursorBudget]
    omega

theorem createLoop_total (d : Document) (fuel : Nat) (iter : WordIterator) (m : Model)
    (hf : (d.wordtopics.length - iter.word_topic_index) +
        (d.unique_words.length - iter.unique_word_index) < fuel) :
    (createLoop d fuel iter m).isTimeout = false := by
  induction fuel generalizing iter m with
  | zero => omega
  | succ n ih =>
    rw [createLoop]
    split
    · rfl
    · rfl
    · split
      · split
        · split
          · rename_i iter1 hnext
            apply ih
            have hm := Next_measure hnext
            omega
          · rfl
        · rename_i r hr hinc
          unfold IncrementTopic
          split
          · rfl
          · simp only
            split
            · rfl
            · split
              · rfl
              · split <;> rfl
      · rfl

theorem createDocs_total (corpus : List Document) (m : Model) :
    (createDocs corpus m).isTimeout = false := by
  induction corpus generalizing m with
  | nil => rfl
  | cons d rest ih =>
    rw [createDocs]
    split
    · rfl
    · rename_i iter hnew
      obtain ⟨_, rfl⟩ := NewWordIterator_eq hnew
      have h1 := createLoop_total d (cursorBudget d) ⟨0, 0⟩ m (by simp only [cursorBudget]; omega)
      cases hc : createLoop d (cursorBudget d) ⟨0, 0⟩ m with
      | ok m1 => simpa [Res.bind] using ih m1
      | panic m1 => rfl
      | timeout m1 => rw [hc] at h1; simp [Res.isTimeout] at h1

theorem CreateModel_total (K : Nat) (corpus : Corpus) :
    (CreateModel K corpus).isTimeout = false :=
  createDocs_total corpus (NewModel K)

/-! ## What IncrementTopic and AccumulateModel do to the counts -/

theorem ensureWord_wordCount (m : Model) (w w1 : String) (k : Nat) :
    wordCount (m.ensureWord w) w1 k = wordCount m w1 k := by
  simp only [wordCount, GetWordTopicHistogram, ensureWord_get]
  split
  · rename_i h
    rw [h.1, h.2]
    simp only [Option.getD_some, Option.getD_none, zeros_getD]
    rfl
  · rfl

theorem ensureWord_knows (m : Model) (w w1 : String) :
    (m.ensureWord w).knows w1 = (m.knows w1 || decide (w1 = w)) := by
  simp only [Model.knows, ensureWord_get]
  by_cases e : w1 = w
  · subst e
    cases hg : mapGet m.topic_histograms w1 <;> simp
  · simp [e]

theorem IncrementTopic_counts {m m1 : Model} {w : String} {t c : Int}
    (h : IncrementTopic m w t c = .ok m1) :
    (∀ w1 k, wordCount m1 w1 k =
      wordCount m w1 k + (if w1 = w ∧ (k : Int) = t then c else 0)) ∧
    (∀ k, globalCount m1 k = globalCount m k + (if (k : Int) = t then c else 0)) ∧
    (∀ w1, m1.knows w1 = (m.knows w1 || decide (w1 = w))) := by
  obtain ⟨h0, hK, hist, cnt, g, hh, hc, hlen, hgl, rfl⟩ := IncrementTopic_ok h
  have hgK : t.toNat < m.global_histogram.length := (List.getElem?_eq_some_iff.1 hgl).1
  refine ⟨?_, ?_, ?_⟩
  · intro w1 k
    rw [← ensureWord_wordCount m w w1 k]
    simp only [wordCount, GetWordTopicHistogram, mapGet_mapSet]
    by_cases e : w1 = w
    · subst e
      simp only [if_true, Option.getD_some, hh, getD_set_int, true_and]
      by_cases e2 : k = t.toNat
      · have e3 : (k : Int) = t := by omega
        rw [if_pos ⟨e2, hlen⟩, if_pos e3, e2]
        simp [List.getD_eq_getElem?_getD, hc]
      · have e3 : ¬ (k : Int) = t := by omega
        rw [if_neg (fun x => e2 x.1), if_neg e3]; ring
    · simp only [e, if_false, false_and]; ring
  · intro k
    simp only [globalCount, getD_set_int]
    by_cases e2 : k = t.toNat
    · have e3 : (k : Int) = t := by omega
      rw [if_pos ⟨e2, hgK⟩, if_pos e3, e2]
      simp [List.getD_eq_getElem?_getD, hgl]
    · have e3 : ¬ (k : Int) = t := by omega
      rw [if_neg (fun x => e2 x.1), if_neg e3]; ring
  · intro w1
    rw [← ensureWord_knows]
    simp only [Model.knows, mapGet_mapSet]
    by_cases e : w1 = w
    · subst e; simp [hh]
    · simp [e]

theorem getD_cons_shift (c : Int) (rest : List Int) (t k : Nat) (h : t ≤ k) :
    (c :: rest).getD (k - t) 0 = if k = t then c else rest.getD (k - (t + 1)) 0 := by
  by_cases e : k = t
  · subst e; simp
  · obtain ⟨j, hj⟩ : ∃ j, k - t = j + 1 := ⟨k - t - 1, by omega⟩
    have : k - (t + 1) = j := by omega
    rw [hj, this, if_neg e]
    simp

theorem accumulateCounts_counts {w : String} (v : List Int) (t : Nat) {m m1 : Model}
    (h : accumulateCounts w v t m = .ok m1) :
    (∀ w1 k, wordCount m1 w1 k =
      wordCount m w1 k + (if w1 = w ∧ t ≤ k then v.getD (k - t) 0 else 0)) ∧
    (∀ k, globalCount m1 k = globalCount m k + (if t ≤ k then v.getD (k - t) 0 else 0)) ∧
    (m.knows w = true → ∀ w1, m1.knows w1 = m.knows w1) := by
  induction v generalizing t m with
  | nil =>
    simp [accumulateCounts] at h
    subst h
    simp
  | cons c rest ih =>
    obtain ⟨m2, h1, h2⟩ := Res.bind_ok h
    obtain ⟨a1, a2, a3⟩ := IncrementTopic_counts h1
    obtain ⟨b1, b2, b3⟩ := ih (t + 1) h2
    refine ⟨?_, ?_, ?_⟩
    · intro w1 k
      rw [b1, a1]
      by_cases e : w1 = w
      · simp only [e, true_and]
        by_cases e2 : t ≤ k
        · rw [getD_cons_shift _ _ _ _ e2]
          split_ifs <;> first | (exfalso; omega) | ring1
        · split_ifs <;> first | (exfalso; omega) | ring1
      · simp only [e, false_and, if_false]; ring
    · intro k
      rw [b2, a2]
      by_cases e2 : t ≤ k
      · rw [getD_cons_shift _ _ _ _ e2]
        split_ifs <;> first | (exfalso; omega) | ring1
      · split_ifs <;> first | (exfalso; omega) | ring1
    · intro hk w1
      have hk2 : m2.knows w = true := by rw [a3]; simp [hk]
      rw [b3 hk2, a3]
      by_cases e : w1 = w
      · subst e; simp [hk]
      · simp [e]

theorem accumulateWords_counts (hs : List (String × Histogram)) {m m1 : Model}
    (hnd : (hs.map Prod.fst).Nodup) (h : accumulateWords hs m = .ok m1) :
    (∀ w1 k, wordCount m1 w1 k = wordCount m w1 k + ((mapGet hs w1).getD []).getD k 0) ∧
    (∀ k, globalCount m1 k = globalCount m k + histSum hs k) ∧
    (∀ w1, m1.knows w1 = (m.knows w1 || (mapGet hs w1).isSome)) := by
  induction hs generalizing m with
  | nil =>
    simp [accumulateWords] at h
    subst h
    simp [mapGet, histSum]
  | cons p rest ih =>
    obtain ⟨w, v⟩ := p
    simp only [List.map_cons, List.nodup_cons] at hnd
    obtain ⟨m2, h1, h2⟩ := Res.bind_ok h
    obtain ⟨a1, a2, a3⟩ := accumulateCounts_counts v 0 h1
    obtain ⟨b1, b2, b3⟩ := ih hnd.2 h2
    have hnone : mapGet rest w = none := (mapGet_eq_none_iff _ _).2 hnd.1
    have hkn : (m.ensureWord w).knows w = true := by rw [ensureWord_knows]; simp
    refine ⟨?_, ?_, ?_⟩
    · intro w1 k
      rw [b1, a1, ensureWord_wordCount]
      simp only [mapGet, Nat.zero_le, and_true, Nat.sub_zero]
      by_cases e : w1 = w
      · subst e
        simp [hnone]
      · have e2 : ¬ w = w1 := fun x => e x.symm
        simp [e, e2]
    · intro k
      rw [b2, a2]
      simp only [globalCount, ensureWord_global, Nat.zero_le, if_true, Nat.sub_zero, histSum,
        List.map_cons, List.sum_cons]
      ring
    · intro w1
      rw [b3, a3 hkn, ensureWord_knows]
      simp only [mapGet]
      by_cases e : w1 = w
      · subst e; simp
      · have e2 : ¬ w = w1 := fun x => e x.symm
        simp [e, e2]

theorem histSum_beyond (hs : List (String × Histogram)) (K k : Nat)
    (hl : ∀ p ∈ hs, p.2.length = K) (hk : K ≤ k) : histSum hs k = 0 := by
  induction hs with
  | nil => simp [histSum]
  | cons p rest ih =>
    have h1 := ih (fun q hq => hl q (List.mem_cons_of_mem _ hq))
    have h2 := hl p (List.mem_cons_self _ _)
    simp only [histSum, List.map_cons, List.sum_cons] at h1 ⊢
    rw [h1]
    have : p.2[k]? = none := List.getElem?_eq_none (by omega)
    simp [List.getD_eq_getElem?_getD, this]

/-- Accumulation is a pointwise sum: per word and topic, in the global
histogram, and the known words are the union. -/
theorem AccumulateModel_counts {m o m1 : Model} (ho : o.Good)
    (h : AccumulateModel m o = .ok m1) :
    (∀ w k, wordCount m1 w k = wordCount m w k + wordCount o w k) ∧
    (∀ k, globalCount m1 k = globalCount m k + globalCount o k) ∧
    (∀ w, m1.knows w = (m.knows w || o.knows w)) := by
  unfold AccumulateModel at h
  split at h
  · simp at h
  · obtain ⟨a1, a2, a3⟩ := accumulateWords_counts _ ho.1.1 h
    refine ⟨fun w k => a1 w k, ?_, fun w => a3 w⟩
    intro k
    rw [a2]
    by_cases hk : k < o.NumTopics
    · rw [← ho.2 k hk]; rfl
    · rw [histSum_beyond _ o.NumTopics k ho.1.2 (by omega)]
      have : o.global_histogram[k]? = none :=
        List.getElem?_eq_none (by simp only [Model.NumTopics] at hk; omega)
      simp [globalCount, List.getD_eq_getElem?_getD, this]

/-! ## Sweeps: what they leave alone and what they keep -/

theorem gibbsStep_good {update_model : Bool} {rnd : Nat → ℚ} {iter : WordIterator}
    {st st1 : DocSweep} (hg : st.sampler.model.Good)
    (h : gibbsStep update_model rnd iter st = .ok st1) : st1.sampler.model.Good := by
  obtain ⟨word, topic, dist, model1, doc1, _, _, _, _, hre, _, rfl⟩ := gibbsStep_ok h
  simp only
  cases update_model with
  | false =>
    simp only [Bool.false_eq_true, if_false, Res.ok.injEq] at hre
    rw [← hre]; exact hg
  | true =>
    simp only [if_true] at hre
    exact ReassignTopic_good hg hre

theorem gibbsLoop_config (update_model : Bool) (rnd : Nat → ℚ) (fuel : Nat)
    (iter : WordIterator) (st : DocSweep) :
    (gibbsLoop update_model rnd fuel iter st).state.sampler.accum_model =
      st.sampler.accum_model := by
  induction fuel generalizing iter st with
  | zero => rfl
  | succ n ih =>
    rw [gibbsLoop]
    split
    · rfl
    · rfl
    · have hc := (gibbsStep_config update_model rnd iter st).1
      split
      · rename_i st1 hstep
        rw [hstep] at hc
        split
        · rw [ih]; exact hc
        · exact hc
      · exact hc

theorem gibbsLoop_frame (rnd : Nat → ℚ) (fuel : Nat) (iter : WordIterator) (st : DocSweep) :
    (gibbsLoop false rnd fuel iter st).state.sampler = st.sampler := by
  induction fuel generalizing iter st with
  | zero => rfl
  | succ n ih =>
    rw [gibbsLoop]
    split
    · rfl
    · rfl
    · have hc := gibbsStep_frame rnd iter st
      split
      · rename_i st1 hstep
        rw [hstep] at hc
        split
        · rw [ih]; exact hc
        · exact hc
      · exact hc

theorem gibbsLoop_good (update_model : Bool) (rnd : Nat → ℚ) (fuel : Nat)
    (iter : WordIterator) {st st1 : DocSweep} (hg : st.sampler.model.Good)
    (h : gibbsLoop update_model rnd fuel iter st = .ok st1) : st1.sampler.model.Good := by
  induction fuel generalizing iter st with
  | zero => simp [gibbsLoop] at h
  | succ n ih =>
    rw [gibbsLoop] at h
    split at h
    · simp at h
    · simp only [Res.ok.injEq] at h; subst h; exact hg
    · split at h
      · rename_i st2 hstep
        split at h
        · exact ih _ (gibbsStep_good hg hstep) h
        · simp at h
      · simp at h

theorem DocumentGibbsSampling_config (update_model : Bool) (rnd : Nat → ℚ) (st : DocSweep) :
    (DocumentGibbsSampling update_model rnd st).state.sampler.accum_model =
      st.sampler.accum_model := by
  unfold DocumentGibbsSampling
  split
  · rfl
  · exact gibbsLoop_config _ _ _ _ _

theorem DocumentGibbsSampling_frame (rnd : Nat → ℚ) (st : DocSweep) :
    (DocumentGibbsSampling false rnd st).state.sampler = st.sampler := by
  unfold DocumentGibbsSampling
  split
  · rfl
  · exact gibbsLoop_frame _ _ _ _

theorem DocumentGibbsSampling_good {update_model : Bool} {rnd : Nat → ℚ} {st st1 : DocSweep}
    (hg : st.sampler.model.Good) (h : DocumentGibbsSampling update_model rnd st = .ok st1) :
    st1.sampler.model.Good := by
  unfold DocumentGibbsSampling at h
  split at h
  · simp at h
  · exact gibbsLoop_good _ _ _ _ hg h

theorem sweepDocs_config (update_model : Bool) (rnd : Nat → ℚ) (before rest : List Document)
    (sampler : Sampler) (draws : Nat) :
    (sweepDocs update_model rnd before rest sampler draws).state.sampler.accum_model =
      sampler.accum_model := by
  induction rest generalizing before sampler draws with
  | nil => rfl
  | cons doc rest ih =>
    rw [sweepDocs]
    have hc := DocumentGibbsSampling_config update_model rnd ⟨sampler, doc, draws⟩
    split
    · rename_i st hst
      rw [hst] at hc
      rw [ih]; exact hc
    · rename_i st hst
      rw [hst] at hc
      exact hc
    · rename_i st hst
      rw [hst] at hc
      exact hc

theorem sweepDocs_frame (rnd : Nat → ℚ) (before rest : List Document)
    (sampler : Sampler) (draws : Nat) :
    (sweepDocs false rnd before rest sampler draws).state.sampler = sampler := by
  induction rest generalizing before sampler draws with
  | nil => rfl
  | cons doc rest ih =>
    rw [sweepDocs]
    have hc := DocumentGibbsSampling_frame rnd ⟨sampler, doc, draws⟩
    split
    · rename_i st hst
      rw [hst] at hc
      rw [ih]; exact hc
    · rename_i st hst
      rw [hst] at hc
      exact hc
    · rename_i st hst
      rw [hst] at hc
      exact hc

theorem sweepDocs_good (update_model : Bool) (rnd : Nat → ℚ) (before rest : List Document)
    (sampler : Sampler) (draws : Nat) {st1 : CorpusSweep} (hg : sampler.model.Good)
    (h : sweepDocs update_model rnd before rest sampler draws = .ok st1) :
    st1.sampler.model.Good := by
  induction rest generalizing before sampler draws with
  | nil => simp only [sweepDocs, Res.ok.injEq] at h; subst h; exact hg
  | cons doc rest ih =>
    rw [sweepDocs] at h
    split at h
    · rename_i st hst
      exact ih _ _ _ (DocumentGibbsSampling_good hg hst) h
    · simp at h
    · simp at h

theorem sweepDocs_total (update_model : Bool) (rnd : Nat → ℚ) (before rest : List Document)
    (sampler : Sampler) (draws : Nat) :
    (sweepDocs update_model rnd before rest sampler draws).isTimeout = false := by
  induction rest generalizing before sampler draws with
  | nil => rfl
  | cons doc rest ih =>
    rw [sweepDocs]
    have hc := DocumentGibbsSampling_total update_model rnd ⟨sampler, doc, draws⟩
    split
    · exact ih _ _ _
    · rfl
    · rename_i st hst
      rw [hst] at hc
      simp [Res.isTimeout] at hc

theorem CorpusGibbsSampling_total (update_model burn_in : Bool) (rnd : Nat → ℚ)
    (st : CorpusSweep) :
    (CorpusGibbsSampling update_model burn_in rnd st).isTimeout = false := by
  unfold CorpusGibbsSampling
  have ht := sweepDocs_total update_model rnd [] st.corpus st.sampler st.draws
  cases hs : sweepDocs update_model rnd [] st.corpus st.sampler st.draws with
  | ok st1 =>
    simp only [Res.bind]
    repeat' split
    all_goals rfl
  | panic st1 => rfl
  | timeout st1 => rw [hs] at ht; simp [Res.isTimeout] at ht

/-! ## The conditional distribution -/

theorem weightLoop_eq_map (f : Nat → Option ℚ) (g : Nat → ℚ) (ks : List Nat)
    (h : ∀ k ∈ ks, f k = some (g k)) : weightLoop f ks = some (ks.map g) := by
  induction ks with
  | nil => rfl
  | cons k rest ih =>
    rw [weightLoop, h k (List.mem_cons_self _ _),
      ih (fun j hj => h j (List.mem_cons_of_mem _ hj))]
    rfl

theorem weightLoop_none (f : Nat → Option ℚ) (ks : List Nat) (k : Nat) (hk : k ∈ ks)
    (h : f k = none) : weightLoop f ks = none := by
  induction ks with
  | nil => simp at hk
  | cons j rest ih =>
    rw [weightLoop]
    rcases List.mem_cons.1 hk with e | e
    · subst e; rw [h]
    · cases f j with
      | none => rfl
      | some w => simp only; rw [ih e]

theorem vocabularySize_eq {m : Model} (hv : m.Valid) : vocabularySize m = m.NumWords := by
  unfold vocabularySize Model.NumWords
  rw [List.toFinset_card_of_nodup hv.1, List.length_map]

theorem topicWeight_eq (sampler : Sampler) (doc : Document) (word : String)
    (target_topic : Int) (updating : Bool) (k : Nat)
    (h1 : k < (GetWordTopicHistogram sampler.model word).length)
    (h2 : k < sampler.model.global_histogram.length) (h3 : k < doc.topic_histogram.length) :
    topicWeight sampler doc (GetWordTopicHistogram sampler.model word) sampler.model.NumWords
        target_topic updating k =
      some ((((wordCount sampler.model word k : Int) : ℚ) + adjustmentOf updating target_topic k +
              sampler.word_prior) *
            (((doc.topic_histogram.getD k 0 : Int) : ℚ) + adjustmentOf updating target_topic k +
              sampler.topic_prior) /
            (((globalCount sampler.model k : Int) : ℚ) + adjustmentOf updating target_topic k +
              (sampler.model.NumWords : ℚ) * sampler.word_prior)) := by
  unfold topicWeight
  simp only [GetGlobalTopicHistogram, List.getElem?_eq_getElem h1, List.getElem?_eq_getElem h2,
    List.getElem?_eq_getElem h3, wordCount, globalCount, List.getD_eq_getElem?_getD,
    Option.getD_some, adjustmentOf, Option.some.injEq]
  by_cases e : updating = true ∧ (k : Int) = target_topic
  · have e2 : (updating && decide ((k : Int) = target_topic)) = true := by simp [e.1, e.2]
    rw [if_pos e, if_pos e2]
    push_cast
    ring
  · have e2 : ¬ (updating && decide ((k : Int) = target_topic)) = true := by
      simpa using e
    rw [if_neg e, if_neg e2]
    push_cast
    ring

/-! ## The inverse-CDF draw -/

theorem foldl_add_eq_sum (w : List ℚ) (a : ℚ) :
    w.foldl (fun acc v => acc + v) a = a + w.sum := by
  induction w generalizing a with
  | nil => simp
  | cons v rest ih => simp only [List.foldl_cons, ih, List.sum_cons]; ring

theorem prefixSum_cons_zero (v : ℚ) (rest : List ℚ) : prefixSum (v :: rest) 0 = v := by
  simp [prefixSum]

theorem prefixSum_cons_succ (v : ℚ) (rest : List ℚ) (j : Nat) :
    prefixSum (v :: rest) (j + 1) = v + prefixSum rest j := by
  simp [prefixSum]

theorem prefixSum_last (w : List ℚ) (h : w ≠ []) : prefixSum w (w.length - 1) = w.sum := by
  have : w.length - 1 + 1 = w.length := by
    have := List.length_pos.2 h
    omega
  simp [prefixSum, this]

/-- The scan returns the first position whose cumulative sum reaches the
draw, or `-1` when none does. -/
theorem sampleScan_spec (w : List ℚ) (i0 : Nat) (s c : ℚ) :
    (sampleScan w i0 s c = -1 ∧ ∀ j, j < w.length → s + prefixSum w j < c) ∨
    (∃ j, j < w.length ∧ sampleScan w i0 s c = ((i0 + j : Nat) : Int) ∧
      c ≤ s + prefixSum w j ∧ ∀ j1, j1 < j → s + prefixSum w j1 < c) := by
  induction w generalizing i0 s with
  | nil => left; simp [sampleScan]
  | cons v rest ih =>
    rw [sampleScan]
    by_cases hge : s + v ≥ c
    · right
      refine ⟨0, by simp, ?_, ?_, ?_⟩
      · rw [if_pos hge]; rfl
      · rw [prefixSum_cons_zero]; exact hge
      · intro j1 hj1; omega
    · rw [if_neg hge]
      have hlt : s + v < c := not_le.1 hge
      rcases ih (i0 + 1) (s + v) with ⟨h1, h2⟩ | ⟨j, hj, h1, h2, h3⟩
      · left
        refine ⟨h1, ?_⟩
        intro j hj
        cases j with
        | zero => rw [prefixSum_cons_zero]; exact hlt
        | succ j2 =>
          rw [prefixSum_cons_succ, ← add_assoc]
          exact h2 j2 (by simpa using hj)
      · right
        refine ⟨j + 1, by simpa using hj, ?_, ?_, ?_⟩
        · rw [h1]; congr 1; omega
        · rw [prefixSum_cons_succ, ← add_assoc]; exact h2
        · intro j1 hj1
          cases j1 with
          | zero => rw [prefixSum_cons_zero]; exact hlt
          | succ j2 =>
            rw [prefixSum_cons_succ, ← add_assoc]
            exact h3 j2 (by omega)

theorem GetAccumulativeSample_spec (w : Distribution) (u : ℚ) :
    (GetAccumulativeSample w u = -1 ∧ ∀ j, j < w.length → prefixSum w j < u * w.sum) ∨
    (∃ j, j < w.length ∧ GetAccumulativeSample w u = (j : Int) ∧
      u * w.sum ≤ prefixSum w j ∧ ∀ j1, j1 < j → prefixSum w j1 < u * w.sum) := by
  have h := sampleScan_spec w 0 0 (u * w.sum)
  simp only [zero_add, Nat.zero_add] at h
  unfold GetAccumulativeSample
  simp only [foldl_add_eq_sum, zero_add]
  exact h

theorem sum_pos_of_pos (w : List ℚ) (h : w ≠ []) (hp : ∀ x ∈ w, 0 < x) : 0 < w.sum := by
  induction w with
  | nil => exact absurd rfl h
  | cons v rest ih =>
    rw [List.sum_cons]
    have hv := hp v (List.mem_cons_self _ _)
    by_cases hr : rest = []
    · subst hr; simpa using hv
    · have := ih hr (fun x hx => hp x (List.mem_cons_of_mem _ hx))
      linarith

/-- Effect of `SetTopic` on the histogram: one count leaves the old topic and
one enters the new one. -/
theorem SetTopic_histogram {d d1 : Document} {iter : WordIterator} {t old : Int}
    (hold : d.wordtopics[iter.word_topic_index]? = some old)
    (h : SetTopic d iter t = .ok d1) (k : Nat) :
    d1.topic_histogram.getD k 0 =
      d.topic_histogram.getD k 0 - (if (k : Int) = old then 1 else 0) +
        (if (k : Int) = t then 1 else 0) := by
  obtain ⟨_, ht0, htK, old1, c_old, c_new, hold1, ho0, hoK, hco, hcn, rfl⟩ := SetTopic_ok h
  rw [hold] at hold1
  simp only [Option.some.injEq] at hold1
  subst hold1
  have htn : t.toNat < d.topic_histogram.length := by omega
  have e1 : c_old = d.topic_histogram.getD old.toNat 0 := by
    simp [List.getD_eq_getElem?_getD, hco]
  have e2 : c_new = (d.topic_histogram.set old.toNat (c_old - 1)).getD t.toNat 0 := by
    simp only [List.getD_eq_getElem?_getD, hcn, Option.getD_some]
  rw [getD_set_int] at e2
  simp only [getD_set_int, List.length_set]
  by_cases a1 : k = t.toNat
  · by_cases a2 : k = old.toNat
    · have b3 : t.toNat = old.toNat := by omega
      rw [if_pos ⟨a1, htn⟩, if_pos (by omega), if_pos (by omega), e2, if_pos ⟨b3, hoK⟩, e1, a2]
    · rw [if_pos ⟨a1, htn⟩, if_neg (by omega), if_pos (by omega), e2, if_neg (by omega), a1]
      ring
  · by_cases a2 : k = old.toNat
    · rw [if_neg (by omega), if_pos ⟨a2, hoK⟩, if_pos (by omega), if_neg (by omega), e1, a2]
      ring
    · rw [if_neg (by omega), if_neg (by omega), if_neg (by omega), if_neg (by omega)]
      ring

/-! ## IncrementTopic on models of the right shape -/

theorem list_eq_of_getD {l1 l2 : List Int} (hl : l1.length = l2.length)
    (h : ∀ k, l1.getD k 0 = l2.getD k 0) : l1 = l2 := by
  apply List.ext_getElem hl
  intro n h1 h2
  have := h n
  simpa [List.getD_eq_getElem?_getD, List.getElem?_eq_getElem h1,
    List.getElem?_eq_getElem h2] using this

theorem IncrementTopic_valid {m m1 : Model} {w : String} {t c : Int} (hv : m.Valid)
    (h : IncrementTopic m w t c = .ok m1) : m1.Valid ∧ m1.NumTopics = m.NumTopics := by
  obtain ⟨h0, hK, hist, cnt, g, hh, hc, hlen, hgl, rfl⟩ := IncrementTopic_ok h
  have hve := ensureWord_valid w hv
  have hlenK : hist.length = m.NumTopics := by
    have := hve.2 _ (mapGet_mem hh)
    simpa [ensureWord_NumTopics] using this
  refine ⟨⟨?_, ?_⟩, by simp [Model.NumTopics]⟩
  · simp only [mapSet_keys_of_some _ hh]
    exact hve.1
  · intro p hp
    simp only [Model.NumTopics, List.length_set]
    rcases mem_mapSet hp with hp | hp
    · subst hp
      simpa [Model.NumTopics] using hlenK
    · have := hve.2 p hp
      simpa [Model.NumTopics, ensureWord_global] using this

/-- On a model of the right shape, `IncrementTopic` returns for every topic in `[0,K)`. -/
theorem IncrementTopic_succeeds {m : Model} (w : String) {t : Int} (c : Int) (hv : m.Valid)
    (h0 : 0 ≤ t) (hK : t < (m.NumTopics : Int)) : ∃ m1, IncrementTopic m w t c = .ok m1 := by
  obtain ⟨hist, hh⟩ := ensureWord_present m w
  have hve := ensureWord_valid w hv
  have hlenK : hist.length = m.NumTopics := by
    have := hve.2 _ (mapGet_mem hh)
    simpa [ensureWord_NumTopics] using this
  have ht1 : t.toNat < hist.length := by omega
  have ht2 : t.toNat < m.global_histogram.length := by
    simp only [Model.NumTopics] at hK; omega
  have hS1 : sliceGet hist t = some hist[t.toNat] := by
    unfold sliceGet
    rw [if_neg (by omega), List.getElem?_eq_getElem ht1]
  have hS2 : sliceGet m.global_histogram t = some m.global_histogram[t.toNat] := by
    unfold sliceGet
    rw [if_neg (by omega), List.getElem?_eq_getElem ht2]
  unfold IncrementTopic
  rw [if_neg (by omega)]
  simp only [hh, hS1, ensureWord_global, hS2]
  exact ⟨_, rfl⟩

theorem IncrementTopic_too_large {m : Model} (w : String) {t : Int} (c : Int)
    (hK : t ≥ (m.NumTopics : Int)) : IncrementTopic m w t c = .panic m := by
  unfold IncrementTopic
  rw [if_pos hK]

theorem histogramOrZero_length {m : Model} (w : String) (hv : m.Valid) :
    (histogramOrZero m w).length = m.NumTopics := by
  unfold histogramOrZero
  cases hg : mapGet m.topic_histograms w with
  | none => simp [NewHistogram]
  | some h0 => simpa using hv.2 _ (mapGet_mem hg)

theorem histogramOrZero_getD (m : Model) (w : String) (k : Nat) :
    (histogramOrZero m w).getD k 0 = wordCount m w k := by
  unfold histogramOrZero wordCount GetWordTopicHistogram
  cases hg : mapGet m.topic_histograms w with
  | none =>
    simp only [Option.getD_none, zeros_getD]
    rfl
  | some h0 => rfl

theorem ensureWord_eq_histogramOrZero (m : Model) (w : String) :
    mapGet (m.ensureWord w).topic_histograms w = some (histogramOrZero m w) := by
  rw [ensureWord_get]
  unfold histogramOrZero
  cases hg : mapGet m.topic_histograms w with
  | none => simp
  | some h0 => simp

/-- The model that a returning `IncrementTopic` leaves, entry by entry. -/
theorem IncrementTopic_result {m m1 : Model} {w : String} {t c : Int}
    (h : IncrementTopic m w t c = .ok m1) :
    mapGet m1.topic_histograms w =
      some ((histogramOrZero m w).set t.toNat ((histogramOrZero m w).getD t.toNat 0 + c)) ∧
    (∀ w1, w1 ≠ w → mapGet m1.topic_histograms w1 = mapGet m.topic_histograms w1) ∧
    m1.global_histogram =
      m.global_histogram.set t.toNat (m.global_histogram.getD t.toNat 0 + c) ∧
    m1.zero_histogram = m.zero_histogram := by
  obtain ⟨h0, hK, hist, cnt, g, hh, hc, hlen, hgl, rfl⟩ := IncrementTopic_ok h
  rw [ensureWord_eq_histogramOrZero] at hh
  simp only [Option.some.injEq] at hh
  subst hh
  refine ⟨?_, ?_, ?_, rfl⟩
  · simp only [mapGet_mapSet, if_true]
    simp [List.getD_eq_getElem?_getD, hc]
  · intro w1 hw1
    simp only [mapGet_mapSet, if_neg hw1, ensureWord_get]
    rw [if_neg (fun x => hw1 x.1)]
  · simp [List.getD_eq_getElem?_getD, hgl]

theorem knows_eq_of_mapGet {m1 m2 : Model} {w : String}
    (h : mapGet m1.topic_histograms w = mapGet m2.topic_histograms w) :
    m1.knows w = m2.knows w := by
  simp [Model.knows, h]

/-- Models of the right shape with the same known words and the same counts
hold the same map and the same global histogram. -/
theorem Same_of_counts {m1 m2 : Model} (h1 : m1.Valid) (h2 : m2.Valid)
    (hK : m1.NumTopics = m2.NumTopics) (hk : ∀ w, m1.knows w = m2.knows w)
    (hw : ∀ w k, wordCount m1 w k = wordCount m2 w k)
    (hg : ∀ k, globalCount m1 k = globalCount m2 k) : m1.Same m2 := by
  refine ⟨?_, list_eq_of_getD hK hg⟩
  intro w
  have hkw := hk w
  cases e1 : mapGet m1.topic_histograms w with
  | none =>
    cases e2 : mapGet m2.topic_histograms w with
    | none => rfl
    | some b => simp [Model.knows, e1, e2] at hkw
  | some a =>
    cases e2 : mapGet m2.topic_histograms w with
    | none => simp [Model.knows, e1, e2] at hkw
    | some b =>
      have la := h1.2 _ (mapGet_mem e1)
      have lb := h2.2 _ (mapGet_mem e2)
      simp only at la lb
      have : a = b := by
        apply list_eq_of_getD (by omega)
        intro k
        have := hw w k
        simpa [wordCount, GetWordTopicHistogram, e1, e2] using this
      rw [this]

theorem Same_counts {m1 m2 : Model} (h : m1.Same m2) :
    (∀ w, m1.knows w = m2.knows w) ∧ (∀ w k, wordCount m1 w k = wordCount m2 w k) ∧
    (∀ k, globalCount m1 k = globalCount m2 k) ∧ m1.NumTopics = m2.NumTopics := by
  refine ⟨fun w => knows_eq_of_mapGet (h.1 w), ?_, ?_, ?_⟩
  · intro w k
    simp [wordCount, GetWordTopicHistogram, h.1 w]
  · intro k
    simp [globalCount, h.2]
  · simp [Model.NumTopics, h.2]

/-! ## AccumulateModel on models of the right shape -/

theorem accumulateCounts_succeeds (w : String) (v : List Int) (t : Nat) {m : Model}
    (hv : m.Valid) (ht : t + v.length ≤ m.NumTopics) :
    ∃ m1, accumulateCounts w v t m = .ok m1 ∧ m1.Valid ∧ m1.NumTopics = m.NumTopics := by
  induction v generalizing t m with
  | nil => exact ⟨m, rfl, hv, rfl⟩
  | cons c rest ih =>
    simp only [List.length_cons] at ht
    obtain ⟨m2, h2⟩ := IncrementTopic_succeeds w c hv (t := (t : Int)) (by omega) (by omega)
    obtain ⟨hv2, hK2⟩ := IncrementTopic_valid hv h2
    obtain ⟨m1, h1, hv1, hK1⟩ := ih (t + 1) hv2 (by omega)
    refine ⟨m1, ?_, hv1, by omega⟩
    rw [accumulateCounts, h2]
    exact h1

theorem accumulateWords_succeeds (hs : List (String × Histogram)) {m : Model} (hv : m.Valid)
    (hl : ∀ p ∈ hs, p.2.length = m.NumTopics) :
    ∃ m1, accumulateWords hs m = .ok m1 ∧ m1.Valid ∧ m1.NumTopics = m.NumTopics := by
  induction hs generalizing m with
  | nil => exact ⟨m, rfl, hv, rfl⟩
  | cons p rest ih =>
    obtain ⟨w, v⟩ := p
    have hlv := hl (w, v) (List.mem_cons_self _ _)
    simp only at hlv
    obtain ⟨m2, h2, hv2, hK2⟩ := accumulateCounts_succeeds w v 0 (ensureWord_valid w hv)
      (by rw [ensureWord_NumTopics]; omega)
    rw [ensureWord_NumTopics] at hK2
    obtain ⟨m1, h1, hv1, hK1⟩ := ih hv2
      (fun q hq => by rw [hK2]; exact hl q (List.mem_cons_of_mem _ hq))
    refine ⟨m1, ?_, hv1, by omega⟩
    rw [accumulateWords, h2]
    exact h1

/-- Accumulation between models of the right shape and equal topic count returns. -/
theorem AccumulateModel_succeeds {m o : Model} (hv : m.Valid) (ho : o.Valid)
    (hK : m.NumTopics = o.NumTopics) :
    ∃ m1, AccumulateModel m o = .ok m1 ∧ m1.Valid ∧ m1.NumTopics = m.NumTopics := by
  unfold AccumulateModel
  rw [if_neg (by simpa using hK)]
  exact accumulateWords_succeeds _ hv (fun p hp => by rw [hK]; exact ho.2 p hp)

theorem AccumulateModel_mismatch {m o : Model} (hK : m.NumTopics ≠ o.NumTopics) :
    AccumulateModel m o = .panic m := by
  unfold AccumulateModel
  rw [if_pos hK]

theorem globalCount_sum (m : Model) :
    m.global_histogram.sum = ((List.range m.NumTopics).map (fun k => globalCount m k)).sum := by
  conv_lhs => rw [histogram_eq_map_range m.global_histogram]
  rfl

theorem ReassignTopic_succeeds {m : Model} (w : String) {a b : Int} (hv : m.Valid)
    (ha : 0 ≤ a ∧ a < (m.NumTopics : Int)) (hb : 0 ≤ b ∧ b < (m.NumTopics : Int)) :
    ∃ m1 m2, IncrementTopic m w a (-1) = .ok m1 ∧ IncrementTopic m1 w b 1 = .ok m2 ∧
      ReassignTopic m w a b = .ok m2 ∧ m2.Valid ∧ m2.NumTopics = m.NumTopics := by
  obtain ⟨m1, h1⟩ := IncrementTopic_succeeds w (-1) hv ha.1 ha.2
  obtain ⟨hv1, hK1⟩ := IncrementTopic_valid hv h1
  obtain ⟨m2, h2⟩ := IncrementTopic_succeeds w 1 hv1 hb.1 (by rw [hK1]; exact hb.2)
  obtain ⟨hv2, hK2⟩ := IncrementTopic_valid hv1 h2
  refine ⟨m1, m2, h1, h2, ?_, hv2, by omega⟩
  unfold ReassignTopic
  rw [h1]
  exact h2

/-- The counts that a returning `ReassignTopic` leaves. -/
theorem ReassignTopic_counts {m m2 : Model} {w : String} {a b : Int}
    (h : ReassignTopic m w a b = .ok m2) :
    (∀ w1 k, wordCount m2 w1 k =
      wordCount m w1 k - (if w1 = w ∧ (k : Int) = a then 1 else 0) +
        (if w1 = w ∧ (k : Int) = b then 1 else 0)) ∧
    (∀ k, globalCount m2 k =
      globalCount m k - (if (k : Int) = a then 1 else 0) + (if (k : Int) = b then 1 else 0)) ∧
    (∀ w1, m2.knows w1 = (m.knows w1 || decide (w1 = w))) ∧
    (∀ w1, w1 ≠ w → mapGet m2.topic_histograms w1 = mapGet m.topic_histograms w1) := by
  obtain ⟨m1, h1, h2⟩ := Res.bind_ok h
  obtain ⟨a1, a2, a3⟩ := IncrementTopic_counts h1
  obtain ⟨b1, b2, b3⟩ := IncrementTopic_counts h2
  obtain ⟨_, c1, _, _⟩ := IncrementTopic_result h1
  obtain ⟨_, c2, _, _⟩ := IncrementTopic_result h2
  refine ⟨?_, ?_, ?_, ?_⟩
  · intro w1 k
    rw [b1, a1]
    split_ifs <;> ring
  · intro k
    rw [b2, a2]
    split_ifs <;> ring
  · intro w1
    rw [b3, a3]
    cases m.knows w1 <;> simp
  · intro w1 hw1
    rw [c2 w1 hw1, c1 w1 hw1]

theorem sum_map_sub_add (f g h : Nat → Int) (l : List Nat) :
    (l.map (fun k => f k - g k + h k)).sum =
      (l.map f).sum - (l.map g).sum + (l.map h).sum := by
  induction l with
  | nil => simp
  | cons x rest ih => simp only [List.map_cons, List.sum_cons, ih]; ring

theorem sum_indicator_nat (t : Int) (K : Nat) :
    ((List.range K).map (fun k : Nat => if (k : Int) = t then (1 : Int) else 0)).sum =
      if 0 ≤ t ∧ t < (K : Int) then 1 else 0 := by
  rw [← sum_indicator t K]
  congr 1
  apply List.map_congr_left
  intro k _
  by_cases e : (k : Int) = t
  · rw [if_pos e, if_pos e.symm]
  · rw [if_neg e, if_neg (fun x => e x.symm)]

/-! ## Accumulating several sources -/

theorem NewModel_counts (K : Nat) :
    (∀ w k, wordCount (NewModel K) w k = 0) ∧ (∀ k, globalCount (NewModel K) k = 0) ∧
    (∀ w, (NewModel K).knows w = false) ∧ (NewModel K).NumTopics = K := by
  refine ⟨?_, ?_, ?_, ?_⟩
  · intro w k
    simp [wordCount, GetWordTopicHistogram, NewModel, mapGet]
  · intro k
    exact zeros_getD K k
  · intro w
    simp [Model.knows, NewModel, mapGet]
  · simp [Model.NumTopics, NewModel, NewHistogram]

/-- Accumulating a list of sources adds up their counts and unites their words. -/
theorem accumulateAll_counts (sources : List Model) {target : Model} (hv : target.Valid)
    (hs : ∀ s ∈ sources, s.Good ∧ s.NumTopics = target.NumTopics) :
    ∃ x, accumulateAll target sources = .ok x ∧ x.Valid ∧ x.NumTopics = target.NumTopics ∧
      (∀ w k, wordCount x w k =
        wordCount target w k + (sources.map (fun s => wordCount s w k)).sum) ∧
      (∀ k, globalCount x k =
        globalCount target k + (sources.map (fun s => globalCount s k)).sum) ∧
      (∀ w, x.knows w = true ↔ (target.knows w = true ∨ ∃ s ∈ sources, s.knows w = true)) := by
  induction sources generalizing target with
  | nil =>
    refine ⟨target, rfl, hv, rfl, ?_, ?_, ?_⟩
    · intro w k; simp
    · intro k; simp
    · intro w; simp
  | cons s rest ih =>
    obtain ⟨hsg, hsK⟩ := hs s (List.mem_cons_self _ _)
    obtain ⟨t, ht, hvt, hKt⟩ := AccumulateModel_succeeds hv hsg.1 hsK.symm
    obtain ⟨a1, a2, a3⟩ := AccumulateModel_counts hsg ht
    obtain ⟨x, hx, hvx, hKx, b1, b2, b3⟩ := ih hvt
      (fun r hr => by
        obtain ⟨h1, h2⟩ := hs r (List.mem_cons_of_mem _ hr)
        exact ⟨h1, by omega⟩)
    refine ⟨x, ?_, hvx, by omega, ?_, ?_, ?_⟩
    · rw [accumulateAll, ht]
      exact hx
    · intro w k
      rw [b1, a1]
      simp only [List.map_cons, List.sum_cons]
      ring
    · intro k
      rw [b2, a2]
      simp only [List.map_cons, List.sum_cons]
      ring
    · intro w
      rw [b3, a3]
      simp only [Bool.or_eq_true, List.mem_cons, exists_eq_or_imp]
      tauto

/-! ## The order on strings -/

theorem Char_eq_of_toNat_eq {a b : Char} (h : a.toNat = b.toNat) : a = b := by
  apply Char.ext
  apply UInt32.ext
  exact h

theorem lessChars_nil_right (a : List Char) : lessChars a [] = false := by
  cases a <;> rfl

theorem lessChars_irrefl (a : List Char) : lessChars a a = false := by
  induction a with
  | nil => rfl
  | cons x rest ih => simp [lessChars, ih]

theorem lessChars_asymm {a b : List Char} (h : lessChars a b = true) : lessChars b a = false := by
  induction a generalizing b with
  | nil => cases b <;> simp [lessChars] at h ⊢
  | cons x xs ih =>
    cases b with
    | nil => simp [lessChars] at h
    | cons y ys =>
      rw [lessChars] at h ⊢
      by_cases h1 : x.toNat < y.toNat
      · have h2 : ¬ y.toNat < x.toNat := by omega
        rw [if_neg h2, if_pos h1]
      · rw [if_neg h1] at h
        by_cases h2 : y.toNat < x.toNat
        · rw [if_pos h2] at h; simp at h
        · rw [if_neg h2] at h
          rw [if_neg h2, if_neg h1]
          exact ih h

theorem lessChars_eq_of_not {a b : List Char} (h1 : lessChars a b = false)
    (h2 : lessChars b a = false) : a = b := by
  induction a generalizing b with
  | nil =>
    cases b with
    | nil => rfl
    | cons y ys => simp [lessChars] at h1
  | cons x xs ih =>
    cases b with
    | nil => simp [lessChars] at h2
    | cons y ys =>
      rw [lessChars] at h1 h2
      by_cases c1 : x.toNat < y.toNat
      · rw [if_pos c1] at h1; simp at h1
      · rw [if_neg c1] at h1 h2
        by_cases c2 : y.toNat < x.toNat
        · rw [if_pos c2] at h2; simp at h2
        · rw [if_neg c2] at h1 h2
          have hxy : x = y := Char_eq_of_toNat_eq (by omega)
          rw [hxy, ih h1 h2]

/-- Negative transitivity: what is below `c` is below `b`, or `b` is below `c`. -/
theorem lessChars_cotrans {a c : List Char} (b : List Char) (h : lessChars a c = true) :
    lessChars a b = true ∨ lessChars b c = true := by
  induction a generalizing b c with
  | nil =>
    cases c with
    | nil => simp [lessChars] at h
    | cons z zs =>
      cases b with
      | nil => right; rfl
      | cons y ys => left; rfl
  | cons x xs ih =>
    cases c with
    | nil => simp [lessChars] at h
    | cons z zs =>
      cases b with
      | nil => right; rfl
      | cons y ys =>
        rw [lessChars] at h
        simp only [lessChars]
        by_cases c1 : x.toNat < z.toNat
        · by_cases c2 : x.toNat < y.toNat
          · left; rw [if_pos c2]
          · right
            rw [if_pos (by omega)]
        · rw [if_neg c1] at h
          by_cases c3 : z.toNat < x.toNat
          · rw [if_pos c3] at h; simp at h
          · rw [if_neg c3] at h
            have hxz : x.toNat = z.toNat := by omega
            by_cases c2 : x.toNat < y.toNat
            · left; rw [if_pos c2]
            · by_cases c4 : y.toNat < x.toNat
              · right; rw [if_pos (by omega)]
              · rcases ih ys h with h3 | h3
                · left; rw [if_neg c2, if_neg c4]; exact h3
                · right; rw [if_neg (by omega), if_neg (by omega)]; exact h3

theorem strLe_refl (a : String) : strLe a a := lessChars_irrefl a.data

theorem strLe_total (a b : String) : strLe a b ∨ strLe b a := by
  unfold strLe strLess
  cases h : lessChars b.data a.data with
  | false => exact Or.inl rfl
  | true => exact Or.inr (lessChars_asymm h)

theorem strLe_trans {a b c : String} (h1 : strLe a b) (h2 : strLe b c) : strLe a c := by
  unfold strLe strLess at *
  cases h : lessChars c.data a.data with
  | false => rfl
  | true =>
    rcases lessChars_cotrans b.data h with h3 | h3
    · rw [h3] at h2; simp at h2
    · rw [h3] at h1; simp at h1

theorem strLe_antisymm {a b : String} (h1 : strLe a b) (h2 : strLe b a) : a = b :=
  String.ext (lessChars_eq_of_not h2 h1)

theorem strLess_of_le_of_ne {a b : String} (h1 : strLe a b) (h2 : a ≠ b) :
    strLess a b = true := by
  cases h : strLess a b with
  | true => rfl
  | false => exact absurd (strLe_antisymm h1 h) h2

theorem strLess_of_le_of_less {a b c : String} (h1 : strLe a b) (h2 : strLess b c = true) :
    strLess a c = true := by
  unfold strLe strLess at *
  rcases lessChars_cotrans a.data h2 with h3 | h3
  · rw [h3] at h1; simp at h1
  · exact h3

theorem strLess_ne {a b : String} (h : strLess a b = true) : a ≠ b := by
  intro e
  subst e
  have := strLe_refl a
  unfold strLe at this
  rw [this] at h
  simp at h

theorem strLe_of_less {a b : String} (h : strLess a b = true) : strLe a b :=
  lessChars_asymm h

theorem empty_strLe (a : String) : strLe "" a := lessChars_nil_right a.data

/-- `SortStrings` yields the increasing rearrangement of its argument. -/
theorem SortStrings_sorted (ws : List String) :
    (SortStrings ws).Sorted strLe ∧ (SortStrings ws).Perm ws := by
  refine ⟨?_, List.perm_insertionSort strLe ws⟩
  exact @List.sorted_insertionSort String strLe _ ⟨strLe_total⟩ ⟨fun _ _ _ => strLe_trans⟩ ws

/-! ## Words of a text -/

theorem fieldsAux_tokens (cs cur : List Char) (hcur : ∀ c ∈ cur, isSpace c = false) :
    ∀ w ∈ fieldsAux cs cur, IsToken w := by
  induction cs generalizing cur with
  | nil =>
    intro w hw
    rw [fieldsAux] at hw
    split at hw
    · simp at hw
    · rename_i hne
      simp only [List.mem_singleton] at hw
      subst hw
      refine ⟨?_, ?_⟩
      · simpa using hne
      · intro c hc
        exact hcur c (by simpa using hc)
  | cons c rest ih =>
    intro w hw
    rw [fieldsAux] at hw
    split at hw
    · split at hw
      · exact ih [] (by simp) w hw
      · rename_i hne
        rcases List.mem_cons.1 hw with hw | hw
        · subst hw
          refine ⟨?_, ?_⟩
          · simpa using hne
          · intro c1 hc1
            exact hcur c1 (by simpa using hc1)
        · exact ih [] (by simp) w hw
    · rename_i hsp
      apply ih (c :: cur) _ w hw
      intro c1 hc1
      rcases List.mem_cons.1 hc1 with e | e
      · subst e; simpa using hsp
      · exact hcur c1 e

/-- Every word of `Fields` is a non-empty run of non-space characters. -/
theorem Fields_tokens (s : String) : ∀ w ∈ Fields s, IsToken w :=
  fieldsAux_tokens s.data [] (by simp)

theorem IsToken_ne_empty {w : String} (h : IsToken w) : w ≠ "" := by
  intro e
  subst e
  exact h.1 rfl

/-! ## The scan of `NewDocument` -/

theorem getLast?_append_singleton {α : Type} (l : List α) (a : α) :
    (l ++ [a]).getLast? = some a := by
  simp

/-- One turn of the loop keeps the scan state. -/
theorem ScanState_step {done : List String} {prev_word : String} {doc : Document}
    (w : String) (hs : ScanState done prev_word doc) (hw : w ≠ "")
    (hle : strLe prev_word w) :
    ScanState (done ++ [w]) w
      (if w ≠ prev_word then
        { doc with
          unique_words := doc.unique_words ++ [w]
          wordtopics_indices := doc.wordtopics_indices ++ [done.length] }
      else doc) := by
  by_cases hne : w ≠ prev_word
  · rw [if_pos hne]
    have hlt : strLess prev_word w = true := strLess_of_le_of_ne hle (fun e => hne e.symm)
    refine ⟨?_, ?_, ?_, ?_, ?_, ?_, ?_⟩
    · simp [hs.lengths]
    · right
      exact ⟨by simp, by simp⟩
    · intro j x hj
      by_cases hjl : j < done.length
      · rw [List.getElem?_append_left hjl] at hj
        obtain ⟨k, p, h1, h2, h3, h4⟩ := hs.covered j x hj
        have hk1 : k < doc.unique_words.length := (List.getElem?_eq_some_iff.1 h1).1
        have hk2 : k < doc.wordtopics_indices.length := (List.getElem?_eq_some_iff.1 h2).1
        refine ⟨k, p, ?_, ?_, h3, ?_⟩
        · simp only; rw [List.getElem?_append_left hk1]; exact h1
        · simp only; rw [List.getElem?_append_left hk2]; exact h2
        · intro b hb
          simp only at hb
          by_cases hk3 : k + 1 < doc.wordtopics_indices.length
          · rw [List.getElem?_append_left hk3] at hb
            exact h4 b hb
          · rw [List.getElem?_append_right (by omega)] at hb
            have : k + 1 - doc.wordtopics_indices.length = 0 := by omega
            rw [this] at hb
            simp at hb
            omega
      · have hjl2 : j = done.length := by
          have := (List.getElem?_eq_some_iff.1 hj).1
          simp at this
          omega
        subst hjl2
        simp at hj
        subst hj
        refine ⟨doc.unique_words.length, done.length, ?_, ?_, le_refl _, ?_⟩
        · simp
        · simp only; rw [← hs.lengths]; simp
        · intro b hb
          simp only at hb
          rw [List.getElem?_eq_none (by simp [hs.lengths])] at hb
          simp at hb
    · simp only
      rw [List.pairwise_append]
      refine ⟨hs.increasing, by simp, ?_⟩
      intro a ha b hb
      simp at hb
      subst hb
      exact strLess_of_le_of_less (hs.below a ha) hlt
    · intro u hu
      simp only [List.mem_append, List.mem_singleton] at hu ⊢
      rcases hu with hu | hu
      · exact Or.inl (hs.scanned u hu)
      · exact Or.inr hu
    · refine ⟨?_, ?_⟩
      · simp only
        rw [List.pairwise_append]
        refine ⟨hs.starts.1, by simp, ?_⟩
        intro a ha b hb
        simp at hb
        subst hb
        exact hs.starts.2 a ha
      · intro b hb
        simp only [List.mem_append, List.mem_singleton] at hb
        simp only [List.length_append, List.length_singleton]
        rcases hb with hb | hb
        · have := hs.starts.2 b hb; omega
        · omega
    · intro u hu
      simp only [List.mem_append, List.mem_singleton] at hu
      rcases hu with hu | hu
      · exact strLe_of_less (strLess_of_le_of_less (hs.below u hu) hlt)
      · subst hu; exact strLe_refl u
  · rw [if_neg hne]
    have he : w = prev_word := by
      by_contra h; exact hne h
    subst he
    have hlast : done ≠ [] ∧ doc.unique_words.getLast? = some w := by
      rcases hs.last with ⟨_, h2, _⟩ | h
      · exact absurd h2 hw
      · exact h
    refine ⟨hs.lengths, ?_, ?_, hs.increasing, ?_, ?_, hs.below⟩
    · right
      exact ⟨by simp, hlast.2⟩
    · intro j x hj
      by_cases hjl : j < done.length
      · rw [List.getElem?_append_left hjl] at hj
        exact hs.covered j x hj
      · have hjl2 : j = done.length := by
          have := (List.getElem?_eq_some_iff.1 hj).1
          simp at this
          omega
        subst hjl2
        simp at hj
        subst hj
        have hne2 : doc.unique_words ≠ [] := by
          intro e
          rw [e] at hlast
          simp at hlast
        have hpos : 0 < doc.unique_words.length := List.length_pos.2 hne2
        have hl := hlast.2
        rw [List.getLast?_eq_getElem?] at hl
        have hidx : doc.unique_words.length - 1 < doc.wordtopics_indices.length := by
          rw [hs.lengths]; omega
        refine ⟨doc.unique_words.length - 1, doc.wordtopics_indices[doc.unique_words.length - 1],
          hl, List.getElem?_eq_getElem hidx, ?_, ?_⟩
        · have := hs.starts.2 _ (List.getElem_mem hidx)
          omega
        · intro b hb
          rw [List.getElem?_eq_none (by rw [hs.lengths]; omega)] at hb
          simp at hb
    · intro u hu
      simp only [List.mem_append, List.mem_singleton]
      exact Or.inl (hs.scanned u hu)
    · refine ⟨hs.starts.1, ?_⟩
      intro b hb
      have := hs.starts.2 b hb
      simp only [List.length_append, List.length_singleton]
      omega

/-- The loop of `NewDocument` keeps the scan state over a chain of non-empty words. -/
theorem scanWords_state (rest : List String) (done : List String) (prev_word : String)
    (doc : Document) (hs : ScanState done prev_word doc)
    (hc : List.Chain strLe prev_word rest) (hne : ∀ w ∈ rest, w ≠ "") :
    ∃ last, ScanState (done ++ rest) last (scanWords rest done.length prev_word doc) := by
  induction rest generalizing done prev_word doc with
  | nil => exact ⟨prev_word, by simpa [scanWords] using hs⟩
  | cons w rest ih =>
    rw [List.chain_cons] at hc
    have hstep := ScanState_step w hs (hne w (List.mem_cons_self _ _)) hc.1
    have hlen : (done ++ [w]).length = done.length + 1 := by simp
    rw [scanWords]
    by_cases hw : w ≠ prev_word
    · rw [if_pos hw] at hstep ⊢
      have := ih (done ++ [w]) w _ hstep hc.2 (fun x hx => hne x (List.mem_cons_of_mem _ hx))
      rw [hlen] at this
      simpa using this
    · rw [if_neg hw] at hstep ⊢
      have he : w = prev_word := by
        by_contra h; exact hw h
      have := ih (done ++ [w]) w _ hstep hc.2 (fun x hx => hne x (List.mem_cons_of_mem _ hx))
      rw [hlen, he] at this
      simpa [he] using this

/-! ## What the scan state says about the finished document -/

theorem pairwise_lt_mono {l : List Nat} (h : l.Pairwise (fun a b => a < b)) {i j a b : Nat}
    (hi : l[i]? = some a) (hj : l[j]? = some b) (hij : i ≤ j) : a ≤ b := by
  rw [List.pairwise_iff_getElem] at h
  obtain ⟨h1, e1⟩ := List.getElem?_eq_some_iff.1 hi
  obtain ⟨h2, e2⟩ := List.getElem?_eq_some_iff.1 hj
  rcases Nat.lt_or_eq_of_le hij with hlt | heq
  · have := h i j h1 h2 hlt
    omega
  · subst heq
    omega

theorem pairwise_strLess_inj {l : List String}
    (h : l.Pairwise (fun a b => strLess a b = true)) {i j : Nat} {w : String}
    (hi : l[i]? = some w) (hj : l[j]? = some w) : i = j := by
  rw [List.pairwise_iff_getElem] at h
  obtain ⟨h1, e1⟩ := List.getElem?_eq_some_iff.1 hi
  obtain ⟨h2, e2⟩ := List.getElem?_eq_some_iff.1 hj
  rcases Nat.lt_trichotomy i j with hlt | heq | hgt
  · have := h i j h1 h2 hlt
    rw [e1, e2] at this
    exact absurd rfl (strLess_ne this)
  · exact heq
  · have := h j i h2 h1 hgt
    rw [e1, e2] at this
    exact absurd rfl (strLess_ne this)

/-- A position lies in one range only. -/
theorem range_unique {l : List Nat} (h : l.Pairwise (fun a b => a < b)) {k1 k2 p1 p2 j : Nat}
    (a1 : l[k1]? = some p1) (a2 : p1 ≤ j) (a3 : ∀ b, l[k1 + 1]? = some b → j < b)
    (b1 : l[k2]? = some p2) (b2 : p2 ≤ j) (b3 : ∀ b, l[k2 + 1]? = some b → j < b) :
    k1 = k2 := by
  have hk1 := (List.getElem?_eq_some_iff.1 a1).1
  have hk2 := (List.getElem?_eq_some_iff.1 b1).1
  rcases Nat.lt_trichotomy k1 k2 with hlt | heq | hgt
  · exfalso
    have hn : k1 + 1 < l.length := by omega
    have h1 := a3 _ (List.getElem?_eq_getElem hn)
    have h2 := pairwise_lt_mono h (List.getElem?_eq_getElem hn) b1 (by omega)
    omega
  · exact heq
  · exfalso
    have hn : k2 + 1 < l.length := by omega
    have h1 := b3 _ (List.getElem?_eq_getElem hn)
    have h2 := pairwise_lt_mono h (List.getElem?_eq_getElem hn) a1 (by omega)
    omega

theorem next_start_above {l : List Nat} (h : l.Pairwise (fun a b => a < b)) {k p : Nat}
    (a1 : l[k]? = some p) : ∀ b, l[k + 1]? = some b → p < b := by
  intro b hb
  rw [List.pairwise_iff_getElem] at h
  obtain ⟨h1, e1⟩ := List.getElem?_eq_some_iff.1 a1
  obtain ⟨h2, e2⟩ := List.getElem?_eq_some_iff.1 hb
  have := h k (k + 1) h1 h2 (by omega)
  omega

/-- Each range start is the first occurrence of its word. -/
theorem ScanState_first_occurrence {L : List String} {last : String} {d : Document}
    (hs : ScanState L last d) {k p : Nat} {w : String}
    (hu : d.unique_words[k]? = some w) (hi : d.wordtopics_indices[k]? = some p) :
    L[p]? = some w ∧ ∀ j, j < p → L[j]? ≠ some w := by
  have hp : p < L.length := hs.starts.2 p (List.getElem?_mem hi)
  refine ⟨?_, ?_⟩
  · obtain ⟨k2, p2, c1, c2, c3, c4⟩ := hs.covered p L[p] (List.getElem?_eq_getElem hp)
    have := range_unique hs.starts.1 hi (le_refl p) (next_start_above hs.starts.1 hi) c2 c3 c4
    subst this
    rw [List.getElem?_eq_getElem hp, ← c1, hu]
  · intro j hj hjw
    obtain ⟨k2, p2, c1, c2, c3, c4⟩ := hs.covered j w hjw
    have := pairwise_strLess_inj hs.increasing hu c1
    subst this
    rw [hi] at c2
    simp only [Option.some.injEq] at c2
    omega

/-- The ranges delimit exactly the occurrences of each unique word. -/
theorem ScanState_ranges {L : List String} {last : String} {d : Document}
    (hs : ScanState L last d) (hn : d.wordtopics.length = L.length) {k p j : Nat} {w : String}
    (hu : d.unique_words[k]? = some w) (hi : d.wordtopics_indices[k]? = some p)
    (hj : j < L.length) : L[j]? = some w ↔ (p ≤ j ∧ j < d.rangeEnd k) := by
  constructor
  · intro hjw
    obtain ⟨k2, p2, c1, c2, c3, c4⟩ := hs.covered j w hjw
    have := pairwise_strLess_inj hs.increasing hu c1
    subst this
    rw [hi] at c2
    simp only [Option.some.injEq] at c2
    subst c2
    refine ⟨c3, ?_⟩
    unfold Document.rangeEnd
    cases e : d.wordtopics_indices[k + 1]? with
    | none => simp only [Option.getD_none]; omega
    | some b => simp only [Option.getD_some]; exact c4 b e
  · rintro ⟨h1, h2⟩
    obtain ⟨k2, p2, c1, c2, c3, c4⟩ := hs.covered j L[j] (List.getElem?_eq_getElem hj)
    have h3 : ∀ b, d.wordtopics_indices[k + 1]? = some b → j < b := by
      intro b hb
      unfold Document.rangeEnd at h2
      rw [hb] at h2
      simpa using h2
    have := range_unique hs.starts.1 hi h1 h3 c2 c3 c4
    subst this
    rw [List.getElem?_eq_getElem hj, ← c1, hu]

theorem ScanState_first_start {L : List String} {last : String} {d : Document}
    (hs : ScanState L last d) (hL : L ≠ []) : d.wordtopics_indices[0]? = some 0 := by
  have hpos := List.length_pos.2 hL
  obtain ⟨k, p, c1, c2, c3, c4⟩ := hs.covered 0 L[0] (List.getElem?_eq_getElem hpos)
  have hp : p = 0 := by omega
  subst hp
  have hk := (List.getElem?_eq_some_iff.1 c2).1
  have h0 : 0 < d.wordtopics_indices.length := by omega
  have := pairwise_lt_mono hs.starts.1 (List.getElem?_eq_getElem h0) c2 (by omega)
  rw [List.getElem?_eq_getElem h0]
  congr 1
  omega

theorem ScanState_words {L : List String} {last : String} {d : Document}
    (hs : ScanState L last d) (w : String) : w ∈ d.unique_words ↔ w ∈ L := by
  constructor
  · exact hs.scanned w
  · intro hw
    obtain ⟨j, hj, e⟩ := List.getElem_of_mem hw
    obtain ⟨k, p, c1, _, _, _⟩ := hs.covered j w (by rw [List.getElem?_eq_getElem hj, e])
    exact List.getElem?_mem c1

/-- `NewDocument` returns for every text of at least two words and `K >= 2`,
and the scan state holds of the document over the sorted words. -/
theorem NewDocument_succeeds {text : String} {K : Int} (hK : 2 ≤ K)
    (hn : 2 ≤ (Fields text).length) :
    ∃ d last, NewDocument text K = .ok d ∧
      ScanState (SortStrings (Fields text)) last d ∧
      d.wordtopics = List.replicate (Fields text).length 0 ∧
      d.topic_histogram =
        (List.replicate K.toNat (0 : Int)).set 0 ((Fields text).length : Int) := by
  obtain ⟨hsorted, hperm⟩ := SortStrings_sorted (Fields text)
  have hlen : (SortStrings (Fields text)).length = (Fields text).length := hperm.length_eq
  have hne : ∀ w ∈ SortStrings (Fields text), w ≠ "" := by
    intro w hw
    exact IsToken_ne_empty (Fields_tokens text w (hperm.mem_iff.1 hw))
  have hchain : List.Chain strLe "" (SortStrings (Fields text)) := by
    cases e : SortStrings (Fields text) with
    | nil => exact List.Chain.nil
    | cons x xs =>
      rw [e] at hsorted
      exact List.Chain.cons (empty_strLe x) (List.Pairwise.chain' hsorted)
  have hinit : ScanState [] ""
      { wordtopics := List.replicate (SortStrings (Fields text)).length 0
        unique_words := []
        wordtopics_indices := []
        topic_histogram := (List.replicate K.toNat (0 : Int)).set 0
          ((SortStrings (Fields text)).length : Int) } :=
    ⟨rfl, Or.inl ⟨rfl, rfl, rfl⟩, by simp, by simp, by simp, by simp, by simp⟩
  obtain ⟨last, hfin⟩ := scanWords_state _ [] "" _ hinit hchain hne
  simp only [List.nil_append, List.length_nil] at hfin
  have hkeep := scanWords_spec (SortStrings (Fields text)) 0 ""
    { wordtopics := List.replicate (SortStrings (Fields text)).length 0
      unique_words := []
      wordtopics_indices := []
      topic_histogram := (List.replicate K.toNat (0 : Int)).set 0
        ((SortStrings (Fields text)).length : Int) }
    (by simp) (by simp) (by simp)
  obtain ⟨k1, k2, _, _, k5⟩ := hkeep
  have hLne : SortStrings (Fields text) ≠ [] := by
    intro e
    rw [e] at hlen
    simp at hlen
    omega
  have hfirst := ScanState_first_start hfin hLne
  have h0 := (List.getElem?_eq_some_iff.1 hfirst).1
  unfold NewDocument
  rw [if_neg (by omega)]
  simp only
  rw [if_neg (by omega)]
  generalize scanWords (SortStrings (Fields text)) 0 ""
    { wordtopics := List.replicate (SortStrings (Fields text)).length 0
      unique_words := []
      wordtopics_indices := []
      topic_histogram := (List.replicate K.toNat (0 : Int)).set 0
        ((SortStrings (Fields text)).length : Int) } = D at hfin k1 k2 k5 hfirst h0 ⊢
  have hvalid : D.IsValid = true := by
    simp only [Document.IsValid, k1, k2, Bool.and_eq_true, decide_eq_true_eq,
      List.length_replicate, List.length_set]
    refine ⟨⟨⟨by omega, k5⟩, by omega⟩, by omega⟩
  refine ⟨D, last, ?_, hfin, ?_, ?_⟩
  · simp only [hvalid, Bool.not_true, Bool.false_eq_true, if_false]
  · rw [k1, hlen]
  · rw [k2, hlen]

/-! ## Decimal numerals round-trip -/

theorem digitChar_facts (d : Nat) (h : d < 10) :
    digitValue (digitChar d) = some d ∧ isSpace (digitChar d) = false ∧
    digitChar d ≠ '-' ∧ digitChar d ≠ '+' := by
  interval_cases d <;> decide

theorem showDigits_append (fuel n : Nat) (acc : List Char) :
    showDigits fuel n acc = showDigits fuel n [] ++ acc := by
  induction fuel generalizing n acc with
  | zero => simp [showDigits]
  | succ f ih =>
    rw [showDigits, showDigits]
    by_cases h : n < 10
    · simp [h]
    · rw [if_neg h, if_neg h, ih (n / 10) (digitChar (n % 10) :: acc),
        ih (n / 10) [digitChar (n % 10)]]
      simp

theorem parseDigits_append (xs ys : List Char) (a : Nat) :
    parseDigits (xs ++ ys) a = (parseDigits xs a).bind (parseDigits ys) := by
  induction xs generalizing a with
  | nil => simp [parseDigits]
  | cons x rest ih =>
    simp only [List.cons_append, parseDigits]
    cases digitValue x with
    | none => rfl
    | some d => exact ih _

theorem parseDigits_showDigits (fuel n : Nat) (h : n < fuel) :
    parseDigits (showDigits fuel n []) 0 = some n := by
  induction fuel generalizing n with
  | zero => omega
  | succ f ih =>
    rw [showDigits]
    by_cases hn : n < 10
    · rw [if_pos hn]
      simp [parseDigits, (digitChar_facts n hn).1]
    · rw [if_neg hn, showDigits_append, parseDigits_append, ih (n / 10) (by omega)]
      simp only [Option.some_bind, parseDigits, (digitChar_facts (n % 10) (by omega)).1]
      congr 1
      omega

theorem showDigits_digits (fuel n : Nat) (acc : List Char) :
    ∀ x ∈ showDigits fuel n acc, x ∈ acc ∨ ∃ d, d < 10 ∧ x = digitChar d := by
  induction fuel generalizing n acc with
  | zero => intro x hx; exact Or.inl (by simpa [showDigits] using hx)
  | succ f ih =>
    intro x hx
    rw [showDigits] at hx
    by_cases hn : n < 10
    · rw [if_pos hn] at hx
      rcases List.mem_cons.1 hx with e | e
      · exact Or.inr ⟨n, hn, e⟩
      · exact Or.inl e
    · rw [if_neg hn] at hx
      rcases ih _ _ x hx with e | e
      · rcases List.mem_cons.1 e with e2 | e2
        · exact Or.inr ⟨n % 10, by omega, e2⟩
        · exact Or.inl e2
      · exact Or.inr e

theorem showDigits_ne_nil (fuel n : Nat) : showDigits (fuel + 1) n [] ≠ [] := by
  rw [showDigits]
  by_cases hn : n < 10
  · rw [if_pos hn]; simp
  · rw [if_neg hn, showDigits_append]; simp

/-- Reading the rendering of an integer gives the integer back. -/
theorem Atoi_showInt (c : Int) : Atoi (showInt c) = some c := by
  unfold showInt
  by_cases hc : c < 0
  · rw [if_pos hc]
    have hne := showDigits_ne_nil c.natAbs c.natAbs
    have hp := parseDigits_showDigits (c.natAbs + 1) c.natAbs (by omega)
    simp only [Atoi, if_true]
    cases e : showDigits (c.natAbs + 1) c.natAbs [] with
    | nil => exact absurd e hne
    | cons x xs =>
      rw [e] at hp
      simp only [List.isEmpty_cons, Bool.false_eq_true, if_false, hp, Option.map_some']
      congr 1
      omega
  · rw [if_neg hc]
    have hne := showDigits_ne_nil c.toNat c.toNat
    have hp := parseDigits_showDigits (c.toNat + 1) c.toNat (by omega)
    have hd := showDigits_digits (c.toNat + 1) c.toNat []
    simp only [Atoi]
    cases e : showDigits (c.toNat + 1) c.toNat [] with
    | nil => exact absurd e hne
    | cons x xs =>
      rw [e] at hp hd
      simp only
      have hx : ∃ d, d < 10 ∧ x = digitChar d := by
        rcases hd x (List.mem_cons_self _ _) with h | h
        · simp at h
        · exact h
      obtain ⟨d, hd1, hd2⟩ := hx
      have hf := digitChar_facts d hd1
      rw [if_neg (by rw [hd2]; exact hf.2.2.1), if_neg (by rw [hd2]; exact hf.2.2.2), hp]
      simp only [Option.map_some']
      congr 1
      omega

/-- The rendering of an integer is a word. -/
theorem showInt_token (c : Int) : IsToken (showInt c) := by
  unfold showInt IsToken
  by_cases hc : c < 0
  · rw [if_pos hc]
    refine ⟨by simp, ?_⟩
    intro x hx
    simp only [List.mem_cons] at hx
    rcases hx with e | e
    · subst e; decide
    · rcases showDigits_digits _ _ _ x e with h | ⟨d, hd1, hd2⟩
      · simp at h
      · rw [hd2]; exact (digitChar_facts d hd1).2.1
  · rw [if_neg hc]
    refine ⟨showDigits_ne_nil _ _, ?_⟩
    intro x hx
    rcases showDigits_digits _ _ _ x hx with h | ⟨d, hd1, hd2⟩
    · simp at h
    · rw [hd2]; exact (digitChar_facts d hd1).2.1

/-! ## Fields of a written line -/

theorem fieldsAux_run (t rest cur : List Char) (ht : ∀ c ∈ t, isSpace c = false) :
    fieldsAux (t ++ rest) cur = fieldsAux rest (t.reverse ++ cur) := by
  induction t generalizing cur with
  | nil => simp
  | cons c cs ih =>
    have hc : isSpace c = false := ht c (List.mem_cons_self _ _)
    have h2 := ih (c :: cur) (fun x hx => ht x (List.mem_cons_of_mem _ hx))
    rw [List.cons_append, fieldsAux]
    simp only [hc, Bool.false_eq_true, if_false]
    rw [h2]
    simp

theorem formatLine_data (fmtInt : Int → String) (word : String) (v : Histogram) :
    (formatLine fmtInt word v).data = word.data ++ countChars fmtInt v := by
  unfold formatLine
  induction v generalizing word with
  | nil => simp [countChars]
  | cons c rest ih =>
    simp only [List.foldl_cons, countChars]
    rw [ih]
    simp [String.data_append]

theorem fieldsAux_written (fmtInt : Int → String) (htok : ∀ c, IsToken (fmtInt c))
    (v : List Int) (t : List Char) (hne : t ≠ []) (ht : ∀ c ∈ t, isSpace c = false) :
    fieldsAux (t ++ countChars fmtInt v) [] = String.mk t :: v.map fmtInt := by
  induction v generalizing t with
  | nil =>
    rw [countChars, fieldsAux_run t [] [] ht]
    simp [fieldsAux, hne]
  | cons c rest ih =>
    rw [countChars, fieldsAux_run t _ [] ht]
    have hsp : isSpace ' ' = true := by decide
    simp only [fieldsAux, hsp, if_true, List.append_nil]
    have : t.reverse.isEmpty = false := by
      cases e : t.reverse with
      | nil => exact absurd (List.reverse_eq_nil_iff.mp e) hne
      | cons a b => rfl
    rw [this]
    simp only [Bool.false_eq_true, if_false, List.reverse_reverse, List.map_cons]
    rw [ih (fmtInt c).data (htok c).1 (htok c).2]

/-- The fields of a line written by `SaveModel` are the word and the counts. -/
theorem Fields_formatLine (fmtInt : Int → String) (htok : ∀ c, IsToken (fmtInt c))
    (word : String) (v : Histogram) (hw : IsToken word) :
    Fields (formatLine fmtInt word v) = word :: v.map fmtInt := by
  unfold Fields
  rw [formatLine_data, fieldsAux_written fmtInt htok v word.data hw.1 hw.2]

/-! ## What a loaded model holds -/

theorem loadLines_words (atoi : String → Option Int) (lines : List String) (n : Nat)
    {m m1 : Model} (hn : n ≠ 0 → m.NumTopics = n)
    (ht : ∀ p ∈ m.topic_histograms, IsToken p.1)
    (hk : m.topic_histograms ≠ [] → 2 ≤ m.NumTopics)
    (h : loadLines atoi lines n m = .ok m1) :
    (∀ p ∈ m1.topic_histograms, IsToken p.1) ∧ (m1.topic_histograms ≠ [] → 2 ≤ m1.NumTopics) := by
  induction lines generalizing n m with
  | nil => simp [loadLines] at h; subst h; exact ⟨ht, hk⟩
  | cons line rest ih =>
    rw [loadLines] at h
    simp only at h
    split at h
    · simp at h
    · rename_i hlen
      split at h
      · simp at h
      · split at h
        · simp at h
        · rename_i hcons
          split at h
          · simp at h
          · rename_i hist global hlc
            have hword : (Fields line).headD "" ∈ Fields line := by
              cases e : Fields line with
              | nil => rw [e] at hlen; simp at hlen
              | cons a b => simp
            have htokw : IsToken ((Fields line).headD "") := Fields_tokens line _ hword
            have hglen : global.length = (if n = 0 then (Fields line).length - 1 else n) := by
              by_cases h0 : n = 0
              · subst h0
                simp only [if_true] at hlc ⊢
                have := (loadCounts_spec atoi _ 0 (fun k _ => zeros_getD _ k) rfl hlc).2.1
                rw [this]; simp [NewHistogram]
              · simp only [if_neg h0] at hlc ⊢
                have hK := hn h0
                have := (loadCounts_spec atoi _ 0 (fun k _ => zeros_getD _ k)
                  (by simp [NewHistogram]; exact hK.symm) hlc).2.1
                rw [this]; exact hK
            refine ih _ ?_ ?_ ?_ h
            · intro _
              simp only [Model.NumTopics]
              exact hglen
            · intro p hp
              simp only at hp
              rcases mem_mapSet hp with e | e
              · rw [e]; exact htokw
              · by_cases h0 : n = 0
                · simp only [h0, if_true] at e
                  exact ht p e
                · simp only [if_neg h0] at e
                  exact ht p e
            · intro _
              simp only [Model.NumTopics, hglen]
              by_cases h0 : n = 0
              · rw [if_pos h0]; omega
              · rw [if_neg h0]
                have : ¬ (Fields line).length - 1 ≠ n := fun x => hcons ⟨h0, x⟩
                omega

/-- A loaded model has at least one word, words that are tokens, and at least two topics. -/
theorem LoadModel_words {atoi : String → Option Int} {file : Option FileReads} {m : Model}
    (h : LoadModel atoi file = .ok m) :
    m.topic_histograms ≠ [] ∧ (∀ p ∈ m.topic_histograms, IsToken p.1) ∧ 2 ≤ m.NumTopics := by
  unfold LoadModel at h
  split at h
  · simp at h
  · split at h
    · simp at h
    · split at h
      · simp at h
      · rename_i m0 hm0
        split at h
        · simp at h
        · split at h
          · simp at h
          · rename_i hlen
            simp only [Except.ok.injEq] at h
            subst h
            have hne : m0.topic_histograms ≠ [] := by
              intro e
              rw [e] at hlen
              simp at hlen
            obtain ⟨h1, h2⟩ := loadLines_words atoi _ 0 (fun x => absurd rfl x)
              (by simp) (by simp) hm0
            exact ⟨hne, h1, h2 hne⟩

/-! ## Loading the lines that were written -/

theorem loadCounts_written (atoi : String → Option Int) (fmtInt : Int → String)
    (hrt : ∀ c, atoi (fmtInt c) = some c) (cs : List Int) (pre post global : Histogram)
    (hl : cs.length ≤ post.length) :
    ∃ g, loadCounts atoi (cs.map fmtInt) pre.length (pre ++ post) global
      = .ok (pre ++ cs ++ post.drop cs.length, g) := by
  induction cs generalizing pre post global with
  | nil => exact ⟨global, by simp [loadCounts]⟩
  | cons c rest ih =>
    cases post with
    | nil => simp at hl
    | cons p ps =>
      simp only [List.length_cons, Nat.add_le_add_iff_right] at hl
      obtain ⟨g, hg⟩ := ih (pre ++ [c]) ps
        (global.set pre.length (global.getD pre.length 0 + c)) hl
      refine ⟨g, ?_⟩
      simp only [List.map_cons, loadCounts, hrt]
      have e1 : (pre ++ p :: ps).set pre.length c = (pre ++ [c]) ++ ps := by
        rw [List.set_append_right _ _ (le_refl _)]
        simp
      rw [e1]
      have e2 : (pre ++ [c]).length = pre.length + 1 := by simp
      rw [e2] at hg
      rw [hg]
      simp

theorem mapGet_append_none {l : List (String × Histogram)} {w w1 : String} {h : Histogram}
    (hg : mapGet l w1 = none) (hne : w1 ≠ w) : mapGet (l ++ [(w, h)]) w1 = none := by
  rw [mapGet_eq_none_iff] at hg ⊢
  simp only [List.map_append, List.map_cons, List.map_nil, List.mem_append, List.mem_singleton]
  rintro (x | x)
  · exact hg x
  · exact hne x

/-- Reloading written lines appends their entries, in the order written. -/
theorem loadLines_written (atoi : String → Option Int) (fmtInt : Int → String)
    (hrt : ∀ c, atoi (fmtInt c) = some c) (htok : ∀ c, IsToken (fmtInt c)) (K : Nat)
    (hK : 2 ≤ K) (entries : List (String × Histogram)) (n : Nat) (acc : Model)
    (hn : n = 0 ∨ n = K)
    (he : ∀ p ∈ entries, IsToken p.1 ∧ p.2.length = K)
    (hd : (entries.map Prod.fst).Nodup)
    (hnew : ∀ p ∈ entries, mapGet acc.topic_histograms p.1 = none) :
    ∃ m2, loadLines atoi (entries.map (fun p => formatLine fmtInt p.1 p.2)) n acc = .ok m2 ∧
      m2.topic_histograms = acc.topic_histograms ++ entries := by
  induction entries generalizing n acc with
  | nil => exact ⟨acc, by simp [loadLines]⟩
  | cons p rest ih =>
    obtain ⟨w, v⟩ := p
    have hp := he (w, v) (List.mem_cons_self _ _)
    have hw : IsToken w := hp.1
    have hv : v.length = K := hp.2
    have hF := Fields_formatLine fmtInt htok w v hw
    have hnone : mapGet acc.topic_histograms w = none := hnew (w, v) (List.mem_cons_self _ _)
    have hlen : (w :: v.map fmtInt).length - 1 = K := by simp [hv]
    have hn1 : (if n = 0 then K else n) = K := by
      rcases hn with h | h <;> simp [h]
    obtain ⟨g, hg⟩ := loadCounts_written atoi fmtInt hrt v [] (NewHistogram K)
      (if n = 0 then NewHistogram K else acc.global_histogram) (by simp [NewHistogram, hv])
    have hdrop : (NewHistogram K).drop v.length = [] := by simp [NewHistogram, hv]
    simp only [List.nil_append, List.length_nil, hdrop, List.append_nil] at hg
    rw [List.map_cons, loadLines]
    simp only [hF, hlen, List.headD_cons, hnone, Option.isSome_none, Bool.false_eq_true,
      if_false, List.tail_cons, hn1]
    have h3 : ¬ (w :: v.map fmtInt).length < 3 := by
      simp only [List.length_cons, List.length_map, hv]; omega
    rw [if_neg h3]
    have hc : ¬ (n ≠ 0 ∧ K ≠ n) := by
      rcases hn with h | h
      · exact fun x => x.1 h
      · exact fun x => x.2 h.symm
    rw [if_neg hc]
    have hglob : (if n = 0 then
        ({ acc with global_histogram := NewHistogram K, zero_histogram := NewHistogram K } : Model)
        else acc).global_histogram = (if n = 0 then NewHistogram K else acc.global_histogram) := by
      split <;> rfl
    have hmap : (if n = 0 then
        ({ acc with global_histogram := NewHistogram K, zero_histogram := NewHistogram K } : Model)
        else acc).topic_histograms = acc.topic_histograms := by
      split <;> rfl
    rw [hglob, hg]
    simp only [hmap]
    rw [mapSet_of_none v hnone]
    have hd2 : w ∉ rest.map Prod.fst ∧ (rest.map Prod.fst).Nodup := by
      have h := hd
      rw [List.map_cons, List.nodup_cons] at h
      exact h
    have hrec : ∀ z, ∃ m2, loadLines atoi (rest.map (fun p => formatLine fmtInt p.1 p.2)) K
        ⟨acc.topic_histograms ++ [(w, v)], g, z⟩ = .ok m2 ∧
        m2.topic_histograms = (acc.topic_histograms ++ [(w, v)]) ++ rest := by
      intro z
      apply ih K _ (Or.inr rfl) (fun q hq => he q (List.mem_cons_of_mem _ hq)) hd2.2
      intro q hq
      apply mapGet_append_none (hnew q (List.mem_cons_of_mem _ hq))
      intro e
      exact hd2.1 (e ▸ List.mem_map_of_mem Prod.fst hq)
    obtain ⟨m2, h1, h2⟩ := hrec _
    refine ⟨m2, h1, ?_⟩
    rw [h2]
    simp

theorem mapGet_of_mem_nodup {l : List (String × Histogram)} {w : String} {h : Histogram}
    (hd : (l.map Prod.fst).Nodup) (hm : (w, h) ∈ l) : mapGet l w = some h := by
  induction l with
  | nil => simp at hm
  | cons p rest ih =>
    obtain ⟨w0, h0⟩ := p
    simp only [List.map_cons, List.nodup_cons] at hd
    rcases List.mem_cons.mp hm with e | e
    · simp only [Prod.mk.injEq] at e
      simp [mapGet, e.1, e.2]
    · have hne : w0 ≠ w := by
        intro x
        exact hd.1 (x ▸ List.mem_map_of_mem Prod.fst e)
      simp [mapGet, hne, ih hd.2 e]

/-- A map read through `mapGet` does not depend on the order of its entries. -/
theorem mapGet_perm {l1 l2 : List (String × Histogram)} (hp : l1.Perm l2)
    (hd : (l2.map Prod.fst).Nodup) (w : String) : mapGet l1 w = mapGet l2 w := by
  have hd1 : (l1.map Prod.fst).Nodup := ((hp.map Prod.fst).nodup_iff).mpr hd
  cases e : mapGet l2 w with
  | none =>
    rw [mapGet_eq_none_iff] at e ⊢
    intro x
    exact e ((hp.map Prod.fst).subset x)
  | some h =>
    exact mapGet_of_mem_nodup hd1 (hp.symm.subset (mapGet_mem e))

theorem histSum_perm {l1 l2 : List (String × Histogram)} (hp : l1.Perm l2) (k : Nat) :
    histSum l1 k = histSum l2 k := by
  unfold histSum
  exact (hp.map _).sum_eq

/-- Two good models with the same entries up to order are the same model. -/
theorem Same_of_perm {m1 m2 : Model} (h1 : m1.Good) (h2 : m2.Good)
    (hp : m1.topic_histograms.Perm m2.topic_histograms) (hne : m2.topic_histograms ≠ []) :
    m1.Same m2 := by
  refine ⟨mapGet_perm hp h2.1.1, ?_⟩
  have hK : m1.NumTopics = m2.NumTopics := by
    cases e : m2.topic_histograms with
    | nil => exact absurd e hne
    | cons p rest =>
      have hm2 : p ∈ m2.topic_histograms := by rw [e]; exact List.mem_cons_self _ _
      have hm1 : p ∈ m1.topic_histograms := hp.symm.subset hm2
      rw [← h1.1.2 p hm1, ← h2.1.2 p hm2]
  apply list_eq_of_getD hK
  intro k
  by_cases hk : k < m1.NumTopics
  · rw [h1.2 k hk, h2.2 k (hK ▸ hk), histSum_perm hp]
  · have a1 : m1.global_histogram.length ≤ k := Nat.le_of_not_lt hk
    have a2 : m2.global_histogram.length ≤ k := by
      have : m2.global_histogram.length = m1.global_histogram.length := hK.symm
      omega
    rw [List.getD_eq_default _ _ a1, List.getD_eq_default _ _ a2]

/-! ## Lines of a corpus file -/

theorem countP_le_of_all_gt (l : List Nat) (j : Nat) (h : ∀ b ∈ l, j < b) :
    l.countP (fun b => decide (b ≤ j)) = 0 := by
  rw [List.countP_eq_zero]
  intro b hb
  have := h b hb
  simp only [decide_eq_true_eq]
  omega

theorem countP_le_sorted (l : List Nat) (hp : l.Pairwise (fun a b => a < b)) (i s j : Nat)
    (hs : l[i]? = some s) (hsj : s ≤ j) (hb : ∀ b, l[i + 1]? = some b → j < b) :
    l.countP (fun b => decide (b ≤ j)) = i + 1 := by
  induction l generalizing i with
  | nil => simp at hs
  | cons a rest ih =>
    rw [List.pairwise_cons] at hp
    cases i with
    | zero =>
      simp only [List.getElem?_cons_zero, Option.some.injEq] at hs
      subst hs
      rw [List.countP_cons_of_pos _ _ (by simpa using hsj)]
      rw [countP_le_of_all_gt rest j]
      intro b hbm
      cases rest with
      | nil => simp at hbm
      | cons r rs =>
        have h0 := hb r (by simp)
        rcases List.mem_cons.mp hbm with e | e
        · omega
        · have := (List.pairwise_cons.mp hp.2).1 b e
          omega
    | succ i1 =>
      simp only [List.getElem?_cons_succ] at hs hb
      have hmem : s ∈ rest := List.getElem?_mem hs
      have := hp.1 s hmem
      rw [List.countP_cons_of_pos _ _ (by simp only [decide_eq_true_eq]; omega)]
      rw [ih hp.2 i1 hs hb]

theorem wordAt_of_cursor {d : Document} {iter : WordIterator} (hs : d.Structured)
    (hc : CursorAt d iter) (hu : iter.unique_word_index < d.unique_words.length) :
    d.wordAt iter.word_topic_index = d.unique_words[iter.unique_word_index]? := by
  obtain ⟨s, h1, h2, _, h4⟩ := hc.1 hu
  unfold Document.wordAt
  rw [countP_le_sorted d.wordtopics_indices hs.2.1 _ s _ h1 h2 h4]

theorem CursorAt_new {d : Document} (hr : d.Ranged) (hv : d.IsValid = true) :
    CursorAt d ⟨0, 0⟩ := by
  obtain ⟨⟨hlen, hpw, hbd⟩, h0⟩ := hr
  obtain ⟨h1, h2, h3, h4⟩ := IsValid_facts hv
  rw [List.pairwise_iff_getElem] at hpw
  refine ⟨fun _ => ⟨0, h0, le_refl _, by simp only; omega, ?_⟩, fun h => ?_⟩
  · intro b hb
    show 0 < b
    have hb0 : d.wordtopics_indices[1]? = some b := hb
    obtain ⟨hb1, hb2⟩ := List.getElem?_eq_some_iff.1 hb0
    have := hpw 0 1 (by omega) hb1 (by omega)
    omega
  · simp only at h
    omega

theorem CursorAt_next {d : Document} {iter iter1 : WordIterator} (hs : d.Structured)
    (hc : CursorAt d iter) (hnext : Next d iter = .ok iter1) : CursorAt d iter1 := by
  obtain ⟨hlen, hpw, hbd⟩ := hs
  rw [List.pairwise_iff_getElem] at hpw
  obtain ⟨hu, hw, hcase⟩ := Next_ok hnext
  obtain ⟨s, i1, i2, i3, i4⟩ := hc.1 hu
  rcases hcase with ⟨hge, he⟩ | ⟨hlt, b, hb, hcase2⟩
  · have hlast : iter.unique_word_index + 1 = d.unique_words.length := by
      by_contra hne
      have hidx : iter.unique_word_index + 1 < d.wordtopics_indices.length := by omega
      have h1 := i4 _ (List.getElem?_eq_getElem hidx)
      have h2 := hbd _ (List.getElem_mem hidx)
      omega
    refine ⟨fun h => ?_, fun _ => ⟨by omega, by omega⟩⟩
    omega
  · obtain ⟨j1, e1⟩ := List.getElem?_eq_some_iff.1 hb
    rcases hcase2 with ⟨hge, he⟩ | ⟨hlt2, he⟩
    · refine ⟨fun _ => ⟨b, by rw [he]; exact hb, by have := i4 b hb; omega, by omega, ?_⟩,
        fun h => ?_⟩
      · intro b2 hb2
        rw [he] at hb2
        obtain ⟨j2, e2⟩ := List.getElem?_eq_some_iff.1 hb2
        have := hpw (iter.unique_word_index + 1) (iter.unique_word_index + 1 + 1) j1 j2 (by omega)
        have := i4 b hb
        omega
      · omega
    · refine ⟨fun _ => ⟨s, by rw [he]; exact i1, by omega, by omega, ?_⟩, fun h => ?_⟩
      · intro b2 hb2
        rw [he, hb] at hb2
        simp only [Option.some.injEq] at hb2
        omega
      · omega

theorem CursorAt_congr {d d1 : Document} {iter : WordIterator}
    (h1 : d1.unique_words = d.unique_words) (h2 : d1.wordtopics_indices = d.wordtopics_indices)
    (h3 : d1.wordtopics.length = d.wordtopics.length) (hc : CursorAt d iter) :
    CursorAt d1 iter := by
  unfold CursorAt at hc ⊢
  rw [h1, h2, h3]
  exact hc

theorem CursorOf_at {d : Document} {iter : WordIterator} (hr : d.Ranged)
    (hc : CursorOf d iter) : CursorAt d iter := by
  induction hc with
  | new hnew =>
    obtain ⟨hv, rfl⟩ := NewWordIterator_eq hnew
    exact CursorAt_new hr hv
  | next _ hnext ih => exact CursorAt_next hr.1 ih hnext

theorem Reachable_ranged {K : Int} {d : Document} (h : Document.Reachable K d) : d.Ranged := by
  refine ⟨(Reachable_facts h).2.1, ?_⟩
  induction h with
  | new hnew =>
    rename_i text d0
    obtain ⟨hK, hn, _⟩ := NewDocument_ok hnew
    obtain ⟨d2, last, hd, hs, _⟩ := @NewDocument_succeeds text K hK hn
    rw [hd] at hnew
    simp only [Except.ok.injEq] at hnew
    subst hnew
    apply ScanState_first_start hs
    intro e
    have := (SortStrings_sorted (Fields text)).2.length_eq
    rw [e] at this
    simp at this
    omega
  | set _ hset ih =>
    rw [(SetTopic_lengths hset).2.1]
    exact ih

/-! ## Counting the occurrences of a word -/

theorem countP_range_update (P1 P : Nat → Bool) (j : Nat) (h : ∀ p, p ≠ j → P1 p = P p)
    (n : Nat) :
    (((List.range n).countP P1 : Nat) : Int) =
      ((List.range n).countP P : Nat) +
        (if j < n then (if P1 j = true then 1 else 0) - (if P j = true then 1 else 0) else 0) := by
  induction n with
  | zero => simp
  | succ n ih =>
    rw [List.range_succ, List.countP_append, List.countP_append]
    push_cast
    rw [ih]
    simp only [List.countP_cons, List.countP_nil, Nat.zero_add]
    by_cases hj : j = n
    · subst hj
      simp only [lt_irrefl, if_false, Nat.lt_succ_self, if_true]
      split_ifs <;> simp
    · rw [h n (fun e => hj e.symm)]
      by_cases hlt : j < n
      · simp only [hlt, if_true, Nat.lt_succ_of_lt hlt]
        ring
      · have : ¬ j < n + 1 := by omega
        simp only [hlt, this, if_false]
        ring

theorem docWordCountBelow_succ (d : Document) (n : Nat) (word : String) (k : Nat) :
    docWordCountBelow d (n + 1) word k =
      docWordCountBelow d n word k +
        (if d.wordAt n = some word ∧ d.wordtopics[n]? = some (k : Int) then 1 else 0) := by
  unfold docWordCountBelow
  rw [List.range_succ, List.countP_append]
  push_cast
  congr 1
  simp only [List.countP_cons, List.countP_nil, Nat.zero_add, Bool.and_eq_true,
    decide_eq_true_eq]
  split_ifs <;> simp

theorem docWordCount_nonneg (d : Document) (word : String) (k : Nat) :
    0 ≤ docWordCount d word k := by
  unfold docWordCount docWordCountBelow
  exact Int.natCast_nonneg _

theorem docWordCount_pos {d : Document} {word : String} {k j : Nat}
    (hw : d.wordAt j = some word) (ht : d.wordtopics[j]? = some (k : Int)) :
    1 ≤ docWordCount d word k := by
  unfold docWordCount docWordCountBelow
  have hj : j < d.wordtopics.length := (List.getElem?_eq_some_iff.1 ht).1
  have : 0 < (List.range d.wordtopics.length).countP (fun p =>
      decide (d.wordAt p = some word) && decide (d.wordtopics[p]? = some (k : Int))) := by
    rw [List.countP_pos_iff]
    exact ⟨j, List.mem_range.2 hj, by simp [hw, ht]⟩
  omega

/-- Setting the label of occurrence `j`, which holds `word`, moves one count
of `word` from the old label to the new one. -/
theorem SetTopic_docWordCount {d d1 : Document} {iter : WordIterator} {t old : Int}
    {word : String} (hold : d.wordtopics[iter.word_topic_index]? = some old)
    (hword : d.wordAt iter.word_topic_index = some word)
    (h : SetTopic d iter t = .ok d1) (w1 : String) (k : Nat) :
    docWordCount d1 w1 k =
      docWordCount d w1 k - (if w1 = word ∧ (k : Int) = old then 1 else 0) +
        (if w1 = word ∧ (k : Int) = t then 1 else 0) := by
  obtain ⟨_, _, _, old1, c_old, c_new, h1, _, _, _, _, hd1⟩ := SetTopic_ok h
  rw [hold] at h1
  simp only [Option.some.injEq] at h1
  subst h1
  have hj : iter.word_topic_index < d.wordtopics.length := (List.getElem?_eq_some_iff.1 hold).1
  subst hd1
  unfold docWordCount docWordCountBelow
  simp only [List.length_set]
  have hwa : ∀ p, Document.wordAt
      { d with
        topic_histogram := (d.topic_histogram.set old.toNat (c_old - 1)).set t.toNat (c_new + 1)
        wordtopics := d.wordtopics.set iter.word_topic_index t } p = d.wordAt p := fun _ => rfl
  simp only [hwa]
  rw [countP_range_update _
    (fun p => decide (d.wordAt p = some w1) && decide (d.wordtopics[p]? = some (k : Int)))
    iter.word_topic_index _ d.wordtopics.length]
  · simp only [hj, if_true, hword, hold, Option.some.injEq, Bool.and_eq_true, decide_eq_true_eq,
      List.getElem?_set_self hj]
    have e1 : (word = w1 ∧ t = (k : Int)) ↔ (w1 = word ∧ (k : Int) = t) :=
      ⟨fun x => ⟨x.1.symm, x.2.symm⟩, fun x => ⟨x.1.symm, x.2.symm⟩⟩
    have e2 : (word = w1 ∧ old = (k : Int)) ↔ (w1 = word ∧ (k : Int) = old) :=
      ⟨fun x => ⟨x.1.symm, x.2.symm⟩, fun x => ⟨x.1.symm, x.2.symm⟩⟩
    simp only [e1, e2]
    ring
  · intro p hp
    simp only
    rw [List.getElem?_set_ne (fun e => hp e.symm)]

theorem SetTopic_labelCount {d d1 : Document} {iter : WordIterator} {t old : Int}
    (hold : d.wordtopics[iter.word_topic_index]? = some old)
    (h : SetTopic d iter t = .ok d1) (k : Nat) :
    labelCount d1.wordtopics k =
      labelCount d.wordtopics k - (if (k : Int) = old then 1 else 0) +
        (if (k : Int) = t then 1 else 0) := by
  obtain ⟨_, _, _, old1, c_old, c_new, h1, _, _, _, _, hd1⟩ := SetTopic_ok h
  subst hd1
  simp only
  rw [labelCount_set _ _ _ _ _ hold]
  have e1 : (old = (k : Int)) ↔ ((k : Int) = old) := ⟨Eq.symm, Eq.symm⟩
  have e2 : (t = (k : Int)) ↔ ((k : Int) = t) := ⟨Eq.symm, Eq.symm⟩
  simp only [e1, e2]

theorem corpusWordCount_split (before rest : List Document) (d : Document) (w : String)
    (k : Nat) :
    corpusWordCount (before ++ d :: rest) w k =
      corpusWordCount before w k + docWordCount d w k + corpusWordCount rest w k := by
  simp [corpusWordCount, add_assoc]

theorem corpusTopicCount_split (before rest : List Document) (d : Document) (k : Nat) :
    corpusTopicCount (before ++ d :: rest) k =
      corpusTopicCount before k + labelCount d.wordtopics k + corpusTopicCount rest k := by
  simp [corpusTopicCount, add_assoc]

theorem corpusWordCount_nonneg (corpus : Corpus) (w : String) (k : Nat) :
    0 ≤ corpusWordCount corpus w k := by
  unfold corpusWordCount
  apply List.sum_nonneg
  intro x hx
  obtain ⟨d, _, rfl⟩ := List.mem_map.1 hx
  exact docWordCount_nonneg d w k

theorem corpusTopicCount_nonneg (corpus : Corpus) (k : Nat) : 0 ≤ corpusTopicCount corpus k := by
  unfold corpusTopicCount
  apply List.sum_nonneg
  intro x hx
  obtain ⟨d, _, rfl⟩ := List.mem_map.1 hx
  exact Int.natCast_nonneg _

/-- A consistent model holds no negative count. -/
theorem Consistent_nonneg {m : Model} {corpus : Corpus} (h : Consistent m corpus) :
    (∀ w k, 0 ≤ wordCount m w k) ∧ ∀ k, 0 ≤ globalCount m k :=
  ⟨fun w k => h.1 w k ▸ corpusWordCount_nonneg corpus w k,
    fun k => h.2 k ▸ corpusTopicCount_nonneg corpus k⟩

/-! ## One update keeps the model consistent with the corpus -/

theorem Done_of_lt {d : Document} {iter : WordIterator}
    (hu : iter.unique_word_index < d.unique_words.length) : Done d iter = some false := by
  unfold Done
  rw [if_neg (by omega)]
  simp only [Option.some.injEq, decide_eq_false_iff_not]
  omega

/-- What the cursor reads at an occurrence. -/
theorem cursor_reads {K : Int} {d : Document} {iter : WordIterator}
    (hr : Document.Reachable K d) (hc : CursorAt d iter)
    (hu : iter.unique_word_index < d.unique_words.length) :
    ∃ word old, Word d iter = some word ∧ Topic d iter = some old ∧
      d.wordAt iter.word_topic_index = some word ∧
      d.wordtopics[iter.word_topic_index]? = some old ∧ 0 ≤ old ∧ old < K := by
  obtain ⟨hcount, hstruct, hlen, _⟩ := Reachable_facts hr
  obtain ⟨s, _, _, hj, _⟩ := hc.1 hu
  have hd := Done_of_lt hu
  refine ⟨d.unique_words[iter.unique_word_index], d.wordtopics[iter.word_topic_index], ?_, ?_,
    ?_, List.getElem?_eq_getElem hj, ?_⟩
  · simp only [Word, hd]
    exact List.getElem?_eq_getElem hu
  · simp only [Topic, hd]
    exact List.getElem?_eq_getElem hj
  · rw [wordAt_of_cursor hstruct hc hu]
    exact List.getElem?_eq_getElem hu
  · have := hcount.2 _ (List.getElem_mem hj)
    rw [hlen] at this
    exact this

/-- C21, the step: `ReassignTopic(word, old, new)` followed by `SetTopic(new)`
at the cursor returns and keeps the model consistent with the corpus. -/
theorem update_step {K : Int} {m : Model} {d : Document} {iter : WordIterator}
    {before rest : List Document} {word : String} {old new_topic : Int}
    (hv : m.Valid) (hK : (m.NumTopics : Int) = K) (hr : Document.Reachable K d)
    (hc : CursorAt d iter) (hu : iter.unique_word_index < d.unique_words.length)
    (hw : Word d iter = some word) (ht : Topic d iter = some old)
    (hn : 0 ≤ new_topic ∧ new_topic < K) (hcons : Consistent m (before ++ d :: rest)) :
    ∃ m1 d1, ReassignTopic m word old new_topic = .ok m1 ∧ SetTopic d iter new_topic = .ok d1 ∧
      m1.Valid ∧ m1.NumTopics = m.NumTopics ∧ Document.Reachable K d1 ∧
      Consistent m1 (before ++ d1 :: rest) := by
  obtain ⟨word1, old1, hw1, ht1, hwa, hold, ho0, hoK⟩ := cursor_reads hr hc hu
  rw [hw] at hw1
  rw [ht] at ht1
  simp only [Option.some.injEq] at hw1 ht1
  subst hw1 ht1
  obtain ⟨hcount, hstruct, hlen, _⟩ := Reachable_facts hr
  obtain ⟨s, _, _, hj, _⟩ := hc.1 hu
  obtain ⟨_, m1, _, _, hre, hv1, hK1⟩ :=
    ReassignTopic_succeeds word hv (a := old) (b := new_topic) ⟨ho0, hK ▸ hoK⟩ ⟨hn.1, hK ▸ hn.2⟩
  obtain ⟨d1, hset⟩ := SetTopic_in_range hcount (Done_of_lt hu) hj hn.1 (hlen ▸ hn.2)
  obtain ⟨c1, c2, _, _⟩ := ReassignTopic_counts hre
  refine ⟨m1, d1, hre, hset, hv1, hK1, Document.Reachable.set hr hset, ?_, ?_⟩
  · intro w k
    rw [c1 w k, hcons.1 w k, corpusWordCount_split, corpusWordCount_split,
      SetTopic_docWordCount hold hwa hset w k]
    ring
  · intro k
    rw [c2 k, hcons.2 k, corpusTopicCount_split, corpusTopicCount_split,
      SetTopic_labelCount hold hset k]
    ring

/-! ## An updating sweep keeps the model consistent with the corpus -/

theorem weightLoop_length (f : Nat → Option ℚ) (ks : List Nat) {ws : Distribution}
    (h : weightLoop f ks = some ws) : ws.length = ks.length := by
  induction ks generalizing ws with
  | nil => simp [weightLoop] at h; subst h; rfl
  | cons k rest ih =>
    rw [weightLoop] at h
    split at h
    · simp at h
    · split at h
      · simp at h
      · rename_i ws1 hws
        simp only [Option.some.injEq] at h
        subst h
        simp [ih hws]

theorem GenerateTopicDistributionForWord_length {sampler : Sampler} {doc : Document}
    {word : String} {t : Int} {u : Bool} {dist : Distribution}
    (h : GenerateTopicDistributionForWord sampler doc word t u = some dist) :
    dist.length = sampler.model.NumTopics := by
  unfold GenerateTopicDistributionForWord at h
  rw [weightLoop_length _ _ h, List.length_range]

/-- The draw is `-1` or an index of the vector. -/
theorem GetAccumulativeSample_range (w : Distribution) (u : ℚ) :
    GetAccumulativeSample w u = -1 ∨
      (0 ≤ GetAccumulativeSample w u ∧ GetAccumulativeSample w u < (w.length : Int)) := by
  rcases GetAccumulativeSample_spec w u with h | ⟨j, hj, he, _⟩
  · exact Or.inl h.1
  · right
    rw [he]
    omega

/-- The body of the updating loop leaves a state in which the model is
consistent with the corpus, whatever its outcome, and does not touch the
range table of the document. -/
theorem gibbsStep_tracks {K : Int} {before rest : List Document} (rnd : Nat → ℚ)
    {iter : WordIterator} {st : DocSweep} (hinv : st.Tracks K before rest)
    (hc : CursorAt st.doc iter) (hu : iter.unique_word_index < st.doc.unique_words.length) :
    (gibbsStep true rnd iter st).state.Tracks K before rest ∧
    (gibbsStep true rnd iter st).state.doc.unique_words = st.doc.unique_words ∧
    (gibbsStep true rnd iter st).state.doc.wordtopics_indices = st.doc.wordtopics_indices ∧
    (gibbsStep true rnd iter st).state.doc.wordtopics.length = st.doc.wordtopics.length := by
  obtain ⟨hv, hK, hr, hcons⟩ := hinv
  obtain ⟨word, old, hw, ht, _, _, _, _⟩ := cursor_reads hr hc hu
  unfold gibbsStep
  simp only [hw, ht]
  cases hdist : GenerateTopicDistributionForWord st.sampler st.doc word old true with
  | none => exact ⟨⟨hv, hK, hr, hcons⟩, rfl, rfl, rfl⟩
  | some dist =>
    simp only
    by_cases hs : GetAccumulativeSample dist (rnd st.draws) ≠ -1
    · rw [if_pos hs]
      have hrange : 0 ≤ GetAccumulativeSample dist (rnd st.draws) ∧
          GetAccumulativeSample dist (rnd st.draws) < K := by
        rcases GetAccumulativeSample_range dist (rnd st.draws) with h | h
        · exact absurd h hs
        · rw [GenerateTopicDistributionForWord_length hdist, hK] at h
          exact h
      obtain ⟨m1, d1, hre, hset, hv1, hK1, hr1, hcons1⟩ :=
        update_step hv hK hr hc hu hw ht hrange hcons
      simp only [if_true, hre, hset]
      obtain ⟨l1, l2, l3, _⟩ := SetTopic_lengths hset
      exact ⟨⟨hv1, by rw [← hK]; exact_mod_cast hK1, hr1, hcons1⟩, l1, l2, l3⟩
    · rw [if_neg hs]
      exact ⟨⟨hv, hK, hr, hcons⟩, rfl, rfl, rfl⟩

theorem gibbsLoop_tracks {K : Int} {before rest : List Document} (rnd : Nat → ℚ) (fuel : Nat)
    (iter : WordIterator) (st : DocSweep) (hinv : st.Tracks K before rest)
    (hc : CursorAt st.doc iter) :
    (gibbsLoop true rnd fuel iter st).state.Tracks K before rest := by
  induction fuel generalizing iter st with
  | zero => exact hinv
  | succ fuel ih =>
    rw [gibbsLoop]
    cases hd : Done st.doc iter with
    | none => exact hinv
    | some b =>
      cases b with
      | true => exact hinv
      | false =>
        simp only
        have hu := Done_eq_false hd
        obtain ⟨t1, t2, t3, t4⟩ := gibbsStep_tracks rnd hinv hc hu
        cases hstep : gibbsStep true rnd iter st with
        | ok st1 =>
          rw [hstep] at t1 t2 t3 t4
          simp only [Res.state] at t1 t2 t3 t4
          simp only
          cases hnext : Next st1.doc iter with
          | ok iter1 =>
            simp only
            apply ih iter1 st1 t1
            exact CursorAt_next (Reachable_facts t1.2.2.1).2.1 (CursorAt_congr t2 t3 t4 hc) hnext
          | panic _ => exact t1
          | timeout _ => exact t1
        | panic st1 =>
          rw [hstep] at t1
          exact t1
        | timeout st1 =>
          rw [hstep] at t1
          exact t1

theorem DocumentGibbsSampling_tracks {K : Int} {before rest : List Document} (rnd : Nat → ℚ)
    (st : DocSweep) (hinv : st.Tracks K before rest) :
    (DocumentGibbsSampling true rnd st).state.Tracks K before rest := by
  unfold DocumentGibbsSampling
  cases hn : NewWordIterator st.doc with
  | none => exact hinv
  | some iter =>
    simp only
    obtain ⟨hv, rfl⟩ := NewWordIterator_eq hn
    exact gibbsLoop_tracks rnd _ _ st hinv (CursorAt_new (Reachable_ranged hinv.2.2.1) hv)

theorem sweepDocs_tracks {K : Int} (rnd : Nat → ℚ) (before rest : List Document)
    (sampler : Sampler) (draws : Nat)
    (hinv : CorpusSweep.Tracks K ⟨sampler, before ++ rest, draws⟩) :
    (sweepDocs true rnd before rest sampler draws).state.Tracks K := by
  induction rest generalizing before sampler draws with
  | nil =>
    simp only [sweepDocs, Res.state]
    simpa using hinv
  | cons doc rest ih =>
    obtain ⟨hv, hK, hr, hcons⟩ := hinv
    have hdoc : DocSweep.Tracks K before rest ⟨sampler, doc, draws⟩ :=
      ⟨hv, hK, hr doc (by simp), hcons⟩
    have ht := DocumentGibbsSampling_tracks rnd _ hdoc
    have hothers : ∀ d ∈ before ++ rest, Document.Reachable K d := by
      intro d hd
      apply hr d
      simp only [List.mem_append, List.mem_cons] at hd ⊢
      tauto
    have hall : ∀ st : DocSweep, st.Tracks K before rest →
        CorpusSweep.Tracks K ⟨st.sampler, before ++ st.doc :: rest, st.draws⟩ := by
      intro st h
      refine ⟨h.1, h.2.1, ?_, h.2.2.2⟩
      intro d hd
      simp only [List.mem_append, List.mem_cons] at hd
      rcases hd with hd | rfl | hd
      · exact hothers d (by simp [hd])
      · exact h.2.2.1
      · exact hothers d (by simp [hd])
    rw [sweepDocs]
    cases hres : DocumentGibbsSampling true rnd ⟨sampler, doc, draws⟩ with
    | ok st =>
      rw [hres] at ht
      simp only
      apply ih
      have := hall st ht
      simpa using this
    | panic st =>
      rw [hres] at ht
      exact hall st ht
    | timeout st =>
      rw [hres] at ht
      exact hall st ht

/-- Whatever the outcome of an updating sweep, the state it leaves behind is
one in which the live model counts the labels of the corpus. -/
theorem CorpusGibbsSampling_tracks {K : Int} (burn_in : Bool) (rnd : Nat → ℚ)
    (st : CorpusSweep) (hinv : st.Tracks K) :
    (CorpusGibbsSampling true burn_in rnd st).state.Tracks K := by
  unfold CorpusGibbsSampling
  have h := sweepDocs_tracks rnd [] st.corpus st.sampler st.draws (by simpa using hinv)
  cases hres : sweepDocs true rnd [] st.corpus st.sampler st.draws with
  | ok st1 =>
    rw [hres] at h
    simp only [Res.state] at h
    simp only [Res.bind]
    cases ha : st1.sampler.accum_model with
    | none => exact h
    | some accum =>
      simp only
      split
      · split
        · exact h
        · exact h
      · exact h
  | panic st1 =>
    rw [hres] at h
    exact h
  | timeout st1 =>
    rw [hres] at h
    exact h

/-! ## `CreateModel` counts the labels of the corpus -/

theorem cursor_reads_structured {d : Document} {iter : WordIterator} (hs : d.Structured)
    (hc : CursorAt d iter) (hu : iter.unique_word_index < d.unique_words.length) :
    ∃ word old, Word d iter = some word ∧ Topic d iter = some old ∧
      d.wordAt iter.word_topic_index = some word ∧
      d.wordtopics[iter.word_topic_index]? = some old := by
  obtain ⟨s, _, _, hj, _⟩ := hc.1 hu
  have hd := Done_of_lt hu
  refine ⟨d.unique_words[iter.unique_word_index], d.wordtopics[iter.word_topic_index], ?_, ?_,
    ?_, List.getElem?_eq_getElem hj⟩
  · simp only [Word, hd]
    exact List.getElem?_eq_getElem hu
  · simp only [Topic, hd]
    exact List.getElem?_eq_getElem hj
  · rw [wordAt_of_cursor hs hc hu]
    exact List.getElem?_eq_getElem hu

theorem Done_eq_true {d : Document} {iter : WordIterator} (h : Done d iter = some true) :
    d.unique_words.length ≤ iter.unique_word_index := by
  unfold Done at h
  split at h
  · simp at h
  · simp only [Option.some.injEq, decide_eq_true_eq] at h
    omega

theorem labelCount_take_succ (labels : List Int) (j : Nat) (old : Int) (k : Nat)
    (h : labels[j]? = some old) :
    labelCount (labels.take (j + 1)) k =
      labelCount (labels.take j) k + (if (k : Int) = old then 1 else 0) := by
  unfold labelCount
  rw [List.take_succ, h, List.count_append]
  simp only [Option.toList_some, List.count_singleton, beq_iff_eq]
  push_cast
  congr 1
  by_cases e : (k : Int) = old
  · simp [e]
  · have : ¬ old = (k : Int) := fun x => e x.symm
    simp [e, this]

theorem createLoop_counts {d : Document} (hr : d.Ranged) (B : String → Nat → Int)
    (G : Nat → Int) (fuel : Nat) (iter : WordIterator) (model : Model) {m1 : Model}
    (hc : CursorAt d iter)
    (hw : ∀ w k, wordCount model w k = B w k + docWordCountBelow d iter.word_topic_index w k)
    (hg : ∀ k, globalCount model k =
      G k + labelCount (d.wordtopics.take iter.word_topic_index) k)
    (h : createLoop d fuel iter model = .ok m1) :
    (∀ w k, wordCount m1 w k = B w k + docWordCount d w k) ∧
    (∀ k, globalCount m1 k = G k + labelCount d.wordtopics k) := by
  induction fuel generalizing iter model with
  | zero => simp [createLoop] at h
  | succ fuel ih =>
    rw [createLoop] at h
    cases hd : Done d iter with
    | none => rw [hd] at h; simp at h
    | some b =>
      rw [hd] at h
      cases b with
      | true =>
        simp only [Res.ok.injEq] at h
        subst h
        have hj := (hc.2 (Done_eq_true hd)).2
        refine ⟨fun w k => ?_, fun k => ?_⟩
        · rw [hw w k, hj]; rfl
        · rw [hg k, hj, List.take_length]
      | false =>
        simp only at h
        have hu := Done_eq_false hd
        obtain ⟨word, old, e1, e2, e3, e4⟩ := cursor_reads_structured hr.1 hc hu
        rw [e1, e2] at h
        simp only at h
        cases hinc : IncrementTopic model word old 1 with
        | ok model1 =>
          rw [hinc] at h
          simp only at h
          cases hnext : Next d iter with
          | ok iter1 =>
            rw [hnext] at h
            simp only at h
            obtain ⟨c1, c2, _⟩ := IncrementTopic_counts hinc
            have hj1 : iter1.word_topic_index = iter.word_topic_index + 1 := (Next_ok hnext).2.1
            apply ih iter1 model1 (CursorAt_next hr.1 hc hnext) ?_ ?_ h
            · intro w k
              rw [c1 w k, hw w k, hj1, docWordCountBelow_succ, e3, e4]
              have : (some word = some w ∧ some old = some (k : Int)) ↔
                  (w = word ∧ (k : Int) = old) := by
                simp only [Option.some.injEq]
                exact ⟨fun x => ⟨x.1.symm, x.2.symm⟩, fun x => ⟨x.1.symm, x.2.symm⟩⟩
              simp only [this]
              ring
            · intro k
              rw [c2 k, hg k, hj1, labelCount_take_succ _ _ _ _ e4]
              ring
          | panic _ => rw [hnext] at h; simp at h
          | timeout _ => rw [hnext] at h; simp at h
        | panic _ => rw [hinc] at h; simp at h
        | timeout _ => rw [hinc] at h; simp at h

theorem createDocs_consistent (corpus before : List Document) (model : Model) {m1 : Model}
    (hr : ∀ d ∈ corpus, d.Ranged) (hcons : Consistent model before)
    (h : createDocs corpus model = .ok m1) : Consistent m1 (before ++ corpus) := by
  induction corpus generalizing before model with
  | nil =>
    simp only [createDocs, Res.ok.injEq] at h
    subst h
    simpa using hcons
  | cons d rest ih =>
    rw [createDocs] at h
    cases hn : NewWordIterator d with
    | none => rw [hn] at h; simp at h
    | some iter =>
      rw [hn] at h
      simp only at h
      obtain ⟨hv, rfl⟩ := NewWordIterator_eq hn
      obtain ⟨m2, h1, h2⟩ := Res.bind_ok h
      have hd := hr d (List.mem_cons_self _ _)
      obtain ⟨k1, k2⟩ := createLoop_counts hd (fun w k => corpusWordCount before w k)
        (fun k => corpusTopicCount before k) _ ⟨0, 0⟩ model (CursorAt_new hd hv)
        (fun w k => by simp [docWordCountBelow, hcons.1 w k])
        (fun k => by simp [labelCount, hcons.2 k]) h1
      have := ih (before ++ [d]) m2 (fun x hx => hr x (List.mem_cons_of_mem _ hx))
        ⟨fun w k => by rw [k1 w k]; simp [corpusWordCount],
         fun k => by rw [k2 k]; simp [corpusTopicCount]⟩ h2
      simpa using this

/-- `CreateModel` establishes the consistency of the model with the corpus. -/
theorem CreateModel_consistent {K : Nat} {corpus : Corpus} {m : Model}
    (hr : ∀ d ∈ corpus, d.Ranged) (h : CreateModel K corpus = .ok m) : Consistent m corpus := by
  have := createDocs_consistent corpus [] (NewModel K) hr
    ⟨fun w k => by rw [(NewModel_counts K).1 w k]; rfl,
     fun k => by rw [(NewModel_counts K).2.1 k]; rfl⟩ h
  simpa using this

/-! ## The weights of a consistent updating step are positive -/

theorem sample_in_range {w : Distribution} {u : ℚ} (hne : w ≠ []) (hp : ∀ x ∈ w, 0 < x)
    (hu : u ≤ 1) :
    0 ≤ GetAccumulativeSample w u ∧ GetAccumulativeSample w u < (w.length : Int) := by
  rcases GetAccumulativeSample_spec w u with ⟨_, h⟩ | ⟨j, hj, he, _⟩
  · exfalso
    have hlen : 0 < w.length := List.length_pos.2 hne
    have h1 := h (w.length - 1) (by omega)
    rw [prefixSum_last w hne] at h1
    have hs := sum_pos_of_pos w hne hp
    nlinarith
  · rw [he]
    omega

theorem labelCount_pos {labels : List Int} {j k : Nat} (h : labels[j]? = some (k : Int)) :
    1 ≤ labelCount labels k := by
  unfold labelCount
  have : 0 < labels.count (k : Int) := List.count_pos_iff.2 (List.getElem?_mem h)
  omega

theorem labelCount_nonneg (labels : List Int) (k : Nat) : 0 ≤ labelCount labels k :=
  Int.natCast_nonneg _

/-- In a consistent state, the counts that the weight of topic `k` reads are
non-negative, and at least 1 at the label of the occurrence under the cursor;
its word is known to the model. -/
theorem counts_at_cursor {m : Model} {d : Document} {iter : WordIterator}
    {before rest : List Document} {word : String} {old : Int}
    (hv : m.Valid)
    (hwa : d.wordAt iter.word_topic_index = some word)
    (hold : d.wordtopics[iter.word_topic_index]? = some old) (h0 : 0 ≤ old)
    (hcons : Consistent m (before ++ d :: rest)) :
    (∀ k, 0 ≤ wordCount m word k ∧ 0 ≤ globalCount m k ∧ 0 ≤ labelCount d.wordtopics k) ∧
    (1 ≤ wordCount m word old.toNat ∧ 1 ≤ globalCount m old.toNat ∧
      1 ≤ labelCount d.wordtopics old.toNat) ∧
    (GetWordTopicHistogram m word).length = m.NumTopics ∧ 1 ≤ m.NumWords := by
  have hcast : ((old.toNat : Nat) : Int) = old := Int.toNat_of_nonneg h0
  have hold1 : d.wordtopics[iter.word_topic_index]? = some ((old.toNat : Nat) : Int) := by
    rw [hcast]; exact hold
  have hw1 : 1 ≤ wordCount m word old.toNat := by
    rw [hcons.1, corpusWordCount_split]
    have a := corpusWordCount_nonneg before word old.toNat
    have b := corpusWordCount_nonneg rest word old.toNat
    have c := docWordCount_pos hwa hold1
    omega
  have hl1 : 1 ≤ labelCount d.wordtopics old.toNat := labelCount_pos hold1
  have hg1 : 1 ≤ globalCount m old.toNat := by
    rw [hcons.2, corpusTopicCount_split]
    have a := corpusTopicCount_nonneg before old.toNat
    have b := corpusTopicCount_nonneg rest old.toNat
    omega
  obtain ⟨n1, n2⟩ := Consistent_nonneg hcons
  refine ⟨fun k => ⟨n1 word k, n2 k, labelCount_nonneg _ k⟩, ⟨hw1, hg1, hl1⟩, ?_, ?_⟩
  · cases e : mapGet m.topic_histograms word with
    | none =>
      simp [wordCount, GetWordTopicHistogram, e] at hw1
    | some h =>
      simp only [GetWordTopicHistogram, e, Option.getD_some]
      exact hv.2 _ (mapGet_mem e)
  · cases e : mapGet m.topic_histograms word with
    | none =>
      simp [wordCount, GetWordTopicHistogram, e] at hw1
    | some h =>
      have := List.length_pos_of_mem (mapGet_mem e)
      simp only [Model.NumWords]
      omega

/-- C22, the weights: in a consistent state with positive priors, the vector
computed for the occurrence under the cursor has `K` entries, each of them the
quotient of positive factors. -/
theorem weights_positive {K : Int} {sampler : Sampler} {d : Document} {iter : WordIterator}
    {before rest : List Document} {word : String} {old : Int}
    (ha : 0 < sampler.topic_prior) (hb : 0 < sampler.word_prior)
    (hv : sampler.model.Valid) (hK : (sampler.model.NumTopics : Int) = K)
    (hr : Document.Reachable K d)
    (hwa : d.wordAt iter.word_topic_index = some word)
    (hold : d.wordtopics[iter.word_topic_index]? = some old) (h0 : 0 ≤ old)
    (hcons : Consistent sampler.model (before ++ d :: rest)) :
    (∀ k, k < sampler.model.NumTopics →
      0 < ((wordCount sampler.model word k : Int) : ℚ) + adjustmentOf true old k +
        sampler.word_prior ∧
      0 < ((d.topic_histogram.getD k 0 : Int) : ℚ) + adjustmentOf true old k +
        sampler.topic_prior ∧
      0 < ((globalCount sampler.model k : Int) : ℚ) + adjustmentOf true old k +
        (sampler.model.NumWords : ℚ) * sampler.word_prior) ∧
    GenerateTopicDistributionForWord sampler d word old true =
      some ((List.range sampler.model.NumTopics).map (fun k =>
        (((wordCount sampler.model word k : Int) : ℚ) + adjustmentOf true old k +
            sampler.word_prior) *
          (((d.topic_histogram.getD k 0 : Int) : ℚ) + adjustmentOf true old k +
            sampler.topic_prior) /
          (((globalCount sampler.model k : Int) : ℚ) + adjustmentOf true old k +
            (sampler.model.NumWords : ℚ) * sampler.word_prior))) := by
  obtain ⟨hcount, _, hlen, _⟩ := Reachable_facts hr
  obtain ⟨hnn, ⟨p1, p2, p3⟩, hwl, hV⟩ := counts_at_cursor hv hwa hold h0 hcons
  have hdl : d.topic_histogram.length = sampler.model.NumTopics := by
    have : (d.topic_histogram.length : Int) = (sampler.model.NumTopics : Int) := by
      rw [hlen, hK]
    exact_mod_cast this
  have hVb : 0 < (sampler.model.NumWords : ℚ) * sampler.word_prior := by
    have : (1 : ℚ) ≤ (sampler.model.NumWords : ℚ) := by exact_mod_cast hV
    nlinarith
  have hpos : ∀ k, k < sampler.model.NumTopics →
      0 < ((wordCount sampler.model word k : Int) : ℚ) + adjustmentOf true old k +
        sampler.word_prior ∧
      0 < ((d.topic_histogram.getD k 0 : Int) : ℚ) + adjustmentOf true old k +
        sampler.topic_prior ∧
      0 < ((globalCount sampler.model k : Int) : ℚ) + adjustmentOf true old k +
        (sampler.model.NumWords : ℚ) * sampler.word_prior := by
    intro k hk
    obtain ⟨q1, q2, q3⟩ := hnn k
    have hdc : d.topic_histogram.getD k 0 = labelCount d.wordtopics k :=
      hcount.1 k (by omega)
    rw [hdc]
    by_cases e : (k : Int) = old
    · have ek : k = old.toNat := by omega
      subst ek
      have a1 : (1 : ℚ) ≤ ((wordCount sampler.model word old.toNat : Int) : ℚ) := by
        exact_mod_cast p1
      have a2 : (1 : ℚ) ≤ ((globalCount sampler.model old.toNat : Int) : ℚ) := by
        exact_mod_cast p2
      have a3 : (1 : ℚ) ≤ ((labelCount d.wordtopics old.toNat : Int) : ℚ) := by
        exact_mod_cast p3
      simp only [adjustmentOf, e, and_self, if_true]
      refine ⟨by linarith, by linarith, by linarith⟩
    · have a1 : (0 : ℚ) ≤ ((wordCount sampler.model word k : Int) : ℚ) := by exact_mod_cast q1
      have a2 : (0 : ℚ) ≤ ((globalCount sampler.model k : Int) : ℚ) := by exact_mod_cast q2
      have a3 : (0 : ℚ) ≤ ((labelCount d.wordtopics k : Int) : ℚ) := by exact_mod_cast q3
      simp only [adjustmentOf, e, and_false, if_false]
      refine ⟨by linarith, by linarith, by linarith⟩
  refine ⟨hpos, ?_⟩
  unfold GenerateTopicDistributionForWord
  apply weightLoop_eq_map
  intro k hk
  have hk1 : k < sampler.model.NumTopics := List.mem_range.1 hk
  exact topicWeight_eq sampler d word old true k (by rw [hwl]; exact hk1) hk1 (by omega)

/-! ## The training driver -/

theorem loadCorpusLines_docs (K : Int) (lines : List String) (corpus : Corpus) {c1 : Corpus}
    (h : loadCorpusLines K lines corpus = .ok c1) :
    ∀ d ∈ c1, d ∈ corpus ∨ ∃ l, NewDocument l K = .ok d := by
  induction lines generalizing corpus with
  | nil =>
    simp only [loadCorpusLines, Res.ok.injEq] at h
    subst h
    exact fun d hd => Or.inl hd
  | cons l rest ih =>
    rw [loadCorpusLines] at h
    split at h
    · split at h
      · rename_i doc hdoc
        intro d hd
        rcases ih _ h d hd with e | e
        · rcases List.mem_append.1 e with e1 | e1
          · exact Or.inl e1
          · simp only [List.mem_singleton] at e1
            subst e1
            exact Or.inr ⟨l, hdoc⟩
        · exact Or.inr e
      · simp at h
    · exact ih _ h

/-- Every document that `LoadCorpus` returns is built by `NewDocument` with
the number of topics that `LoadCorpus` is given. -/
theorem LoadCorpus_docs {file : Option FileReads} {K : Int} {corpus : Corpus}
    (h : LoadCorpus file K = .ok (.ok corpus)) :
    ∀ d ∈ corpus, Document.Reachable K d ∧ (d.topic_histogram.length : Int) = K := by
  unfold LoadCorpus at h
  split at h
  · simp at h
  · split at h
    · simp at h
    · split at h
      · rename_i c hc
        split at h
        · simp at h
        · simp only [Res.ok.injEq, Except.ok.injEq] at h
          subst h
          intro d hd
          rcases loadCorpusLines_docs K _ [] hc d hd with e | ⟨l, e⟩
          · simp at e
          · have hr : Document.Reachable K d := Document.Reachable.new e
            exact ⟨hr, (Reachable_facts hr).2.2.1⟩
      · simp at h
      · simp at h

theorem createLoop_topics (d : Document) (fuel : Nat) (iter : WordIterator) {m m1 : Model}
    (hv : m.Valid) (h : createLoop d fuel iter m = .ok m1) :
    m1.Valid ∧ m1.NumTopics = m.NumTopics := by
  induction fuel generalizing iter m with
  | zero => simp [createLoop] at h
  | succ n ih =>
    rw [createLoop] at h
    split at h
    · simp at h
    · simp at h; subst h; exact ⟨hv, rfl⟩
    · split at h
      · rename_i word topic hw ht
        split at h
        · rename_i m2 hinc
          split at h
          · rename_i iter1 hn
            obtain ⟨v2, k2⟩ := IncrementTopic_valid hv hinc
            obtain ⟨v3, k3⟩ := ih iter1 v2 h
            exact ⟨v3, k3.trans k2⟩
          · simp at h
        · rename_i r hr
          exact absurd h (hr m1)
      · simp at h

theorem createDocs_topics (corpus : List Document) {m m1 : Model} (hv : m.Valid)
    (h : createDocs corpus m = .ok m1) : m1.Valid ∧ m1.NumTopics = m.NumTopics := by
  induction corpus generalizing m with
  | nil => simp [createDocs] at h; subst h; exact ⟨hv, rfl⟩
  | cons d rest ih =>
    rw [createDocs] at h
    split at h
    · simp at h
    · obtain ⟨m2, h1, h2⟩ := Res.bind_ok h
      obtain ⟨v2, k2⟩ := createLoop_topics d _ _ hv h1
      obtain ⟨v3, k3⟩ := ih v2 h2
      exact ⟨v3, k3.trans k2⟩

/-- The model that `CreateModel` returns has the number of topics it is given. -/
theorem CreateModel_topics {K : Nat} {corpus : Corpus} {m : Model}
    (h : CreateModel K corpus = .ok m) : m.Valid ∧ m.NumTopics = K := by
  obtain ⟨v, k⟩ := createDocs_topics corpus (NewModel_good K).1 h
  exact ⟨v, k.trans (NewModel_counts K).2.2.2⟩

theorem likelihoodLoop_total (log : ℚ → ℚ) (sampler : Sampler) (doc : Document)
    (prob : Distribution) (fuel : Nat) (iter : WordIterator) (l : ℚ)
    (hf : (doc.wordtopics.length - iter.word_topic_index) +
        (doc.unique_words.length - iter.unique_word_index) < fuel) :
    (likelihoodLoop log sampler doc prob fuel iter l).isTimeout = false := by
  induction fuel generalizing iter l with
  | zero => omega
  | succ n ih =>
    rw [likelihoodLoop]
    split
    · rfl
    · rfl
    · split
      · rfl
      · split
        · rfl
        · split
          · rename_i iter1 hnext
            apply ih
            have hm := Next_measure hnext
            omega
          · rfl

theorem DocumentLogLikelihood_total (log : ℚ → ℚ) (sampler : Sampler) (doc : Document) :
    (DocumentLogLikelihood log sampler doc).isTimeout = false := by
  unfold DocumentLogLikelihood
  simp only
  split
  · rfl
  · split
    · rfl
    · rename_i iter hnew
      obtain ⟨_, rfl⟩ := NewWordIterator_eq hnew
      apply likelihoodLoop_total
      simp only [cursorBudget]
      omega

theorem CorpusLogLikelihood_total (log : ℚ → ℚ) (sampler : Sampler) (corpus : List Document)
    (total : ℚ) : (CorpusLogLikelihood log sampler corpus total).isTimeout = false := by
  induction corpus generalizing total with
  | nil => rfl
  | cons v rest ih =>
    rw [CorpusLogLikelihood]
    have ht := DocumentLogLikelihood_total log sampler v
    split
    · exact ih _
    · rfl
    · rename_i hres
      rw [hres] at ht
      simp [Res.isTimeout] at ht

/-- A document whose histogram is shorter than the number of topics of the
model makes the body of the sampling loop panic: the loop over the topics
indexes the histogram of the document out of range. -/
theorem gibbsStep_short_histogram (update_model : Bool) (rnd : Nat → ℚ) (iter : WordIterator)
    (st : DocSweep) (hs : st.doc.topic_histogram.length < st.sampler.model.NumTopics) :
    gibbsStep update_model rnd iter st = .panic st := by
  unfold gibbsStep
  split
  · rename_i word topic _ _
    have hnone : GenerateTopicDistributionForWord st.sampler st.doc word topic update_model
        = none := by
      unfold GenerateTopicDistributionForWord
      apply weightLoop_none _ _ st.doc.topic_histogram.length (List.mem_range.2 hs)
      unfold topicWeight
      simp only
      have : st.doc.topic_histogram[st.doc.topic_histogram.length]? = none :=
        List.getElem?_eq_none (le_refl _)
      rw [this]
      split <;> first | rfl | simp_all
    rw [hnone]
  · rfl

theorem DocumentGibbsSampling_short_histogram (update_model : Bool) (rnd : Nat → ℚ)
    (st : DocSweep) (hs : st.doc.topic_histogram.length < st.sampler.model.NumTopics) :
    DocumentGibbsSampling update_model rnd st = .panic st := by
  unfold DocumentGibbsSampling
  split
  · rfl
  · rename_i iter hnew
    obtain ⟨hv, rfl⟩ := NewWordIterator_eq hnew
    have hu : 0 < st.doc.unique_words.length := (IsValid_facts hv).1
    have hfuel : cursorBudget st.doc = (cursorBudget st.doc - 1) + 1 := by
      simp only [cursorBudget]; omega
    rw [hfuel, gibbsLoop]
    have hd : Done st.doc ⟨0, 0⟩ = some false := Done_of_lt hu
    rw [hd]
    simp only [gibbsStep_short_histogram update_model rnd _ st hs, Res.state]

theorem CorpusGibbsSampling_short_histogram (update_model burn_in : Bool) (rnd : Nat → ℚ)
    (sampler : Sampler) (d : Document) (rest : List Document) (draws : Nat)
    (hs : d.topic_histogram.length < sampler.model.NumTopics) :
    CorpusGibbsSampling update_model burn_in rnd ⟨sampler, d :: rest, draws⟩ =
      .panic ⟨sampler, d :: rest, draws⟩ := by
  unfold CorpusGibbsSampling
  simp only [sweepDocs, DocumentGibbsSampling_short_histogram update_model rnd
    ⟨sampler, d, draws⟩ hs, Res.bind, List.nil_append]

/-- The first iteration of the driver panics when the first document has
fewer histogram entries than the model has topics. -/
theorem trainLoop_short_histogram (log : ℚ → ℚ) (rnd : Nat → ℚ) (flags : Flags)
    (remaining : Nat) (iter : Int) (sampler : Sampler) (d : Document) (rest : List Document)
    (draws : Nat) (hs : d.topic_histogram.length < sampler.model.NumTopics) :
    trainLoop log rnd flags (remaining + 1) iter ⟨sampler, d :: rest, draws⟩ =
      .panic ⟨sampler, d :: rest, draws⟩ := by
  rw [trainLoop]
  have hgibbs := CorpusGibbsSampling_short_histogram true
    (decide (iter < flags.burn_in_iterations)) rnd sampler d rest draws hs
  cases hc : flags.compute_loglikelihood with
  | false =>
    simp only [Bool.false_eq_true, if_false, hgibbs, Res.bind]
  | true =>
    simp only [if_true]
    have ht := CorpusLogLikelihood_total log sampler (d :: rest) 0
    cases hl : CorpusLogLikelihood log sampler (d :: rest) 0 with
    | ok _ => simp only [hgibbs, Res.bind]
    | panic _ => rfl
    | timeout _ =>
      rw [hl] at ht
      simp [Res.isTimeout] at ht

theorem CheckFlagsValid_facts {flags : Flags} (h : CheckFlagsValid flags = true) :
    2 ≤ flags.num_topics ∧ 0 < flags.topic_prior ∧ 0 < flags.word_prior ∧
    0 < flags.burn_in_iterations ∧ 0 < flags.accumulate_iterations := by
  unfold CheckFlagsValid at h
  simp only [Bool.not_eq_true', Bool.or_eq_false_iff, decide_eq_false_iff_not, not_lt,
    not_le] at h
  obtain ⟨⟨⟨⟨⟨⟨h1, h2⟩, h3⟩, _⟩, _⟩, h6⟩, h7⟩ := h
  exact ⟨h1, h2, h3, h6, h7⟩

/-- With three or more topics asked for and a document in the corpus, the
driver panics. -/
theorem main_short_histogram (log : ℚ → ℚ) (fmtInt : Int → String) (rnd : Nat → ℚ)
    (corpus_reads : Option FileReads) (model_file_opens : Bool) (flags : Flags)
    (d : Document) (rest : List Document) (hvalid : CheckFlagsValid flags = true)
    (h3 : 3 ≤ flags.num_topics) (hload : LoadCorpus corpus_reads 2 = .ok (.ok (d :: rest))) :
    ∃ s, main log fmtInt rnd corpus_reads model_file_opens flags = .panic s := by
  obtain ⟨_, _, _, hb, ha⟩ := CheckFlagsValid_facts hvalid
  have hd : (d.topic_histogram.length : Int) = 2 :=
    (LoadCorpus_docs hload d (List.mem_cons_self _ _)).2
  unfold main
  simp only [hvalid, Bool.not_true, Bool.false_eq_true, if_false, hload]
  have ht := CreateModel_total flags.num_topics.toNat (d :: rest)
  cases hc : CreateModel flags.num_topics.toNat (d :: rest) with
  | ok model =>
    simp only
    obtain ⟨_, hk⟩ := CreateModel_topics hc
    obtain ⟨n, hn⟩ : ∃ n, (flags.burn_in_iterations + flags.accumulate_iterations).toNat = n + 1 :=
      ⟨(flags.burn_in_iterations + flags.accumulate_iterations).toNat - 1, by omega⟩
    rw [hn, trainLoop_short_histogram log rnd flags n 0 _ d rest 0
      (by simp only [NewSampler]; omega)]
    exact ⟨_, rfl⟩
  | panic _ => exact ⟨_, rfl⟩
  | timeout _ =>
    rw [hc] at ht
    simp [Res.isTimeout] at ht

/-! ## The claims -/

/-- C1. Column-sum invariant of the model. Every model obtained from
`NewModel`, `CreateModel` or a successful `LoadModel` by `IncrementTopic`,
`ReassignTopic` and `AccumulateModel` calls that return normally has distinct
words, histograms of `K` entries, and `global_histogram[k]` equal to the sum
over the known words of `topic_histograms[w][k]` for every `k < K`; and each
single operation that returns normally preserves this predicate. -/
theorem column_sum_invariant :
    (∀ m : Model, m.Reachable → m.Valid ∧ m.ColumnSum) ∧
    (∀ (m m1 : Model) (w : String) (t c : Int),
      m.Valid → m.ColumnSum → IncrementTopic m w t c = .ok m1 → m1.Valid ∧ m1.ColumnSum) ∧
    (∀ (m m1 : Model) (w : String) (a b : Int),
      m.Valid → m.ColumnSum → ReassignTopic m w a b = .ok m1 → m1.Valid ∧ m1.ColumnSum) ∧
    (∀ (m o m1 : Model),
      m.Valid → m.ColumnSum → AccumulateModel m o = .ok m1 → m1.Valid ∧ m1.ColumnSum) := by
  refine ⟨?_, ?_, ?_, ?_⟩
  · intro m hr
    induction hr with
    | new K => exact NewModel_good K
    | create h => exact CreateModel_good h
    | load h => exact LoadModel_good h
    | increment _ h ih => exact IncrementTopic_good ih h
    | reassign _ h ih => exact ReassignTopic_good ih h
    | accumulate _ h ih => exact AccumulateModel_good ih h
  · intro m m1 w t c hv hc h
    exact IncrementTopic_good ⟨hv, hc⟩ h
  · intro m m1 w a b hv hc h
    exact ReassignTopic_good ⟨hv, hc⟩ h
  · intro m o m1 hv hc h
    exact AccumulateModel_good ⟨hv, hc⟩ h

/-- Witness of C1 on the model of `TestReassignTopic`: two increments and one
reassignment from `NewModel(2)`. -/
theorem column_sum_invariant_witness :
    fruitModel.Reachable ∧ fruitModel.Valid ∧ fruitModel.ColumnSum :=
  have hr : fruitModel.Reachable :=
    Model.Reachable.reassign (w := "apple") (a := 0) (b := 1)
      (Model.Reachable.increment (w := "orange") (t := 1) (c := 5)
        (Model.Reachable.increment (w := "apple") (t := 0) (c := 3)
          (Model.Reachable.new 2) (n := ⟨[("apple", [3, 0])], [3, 0], [0, 0]⟩) (by decide))
        (n := ⟨[("apple", [3, 0]), ("orange", [0, 5])], [3, 5], [0, 0]⟩) (by decide))
      (by decide)
  ⟨hr, column_sum_invariant.1 fruitModel hr⟩

/-- C2. Document histogram invariant. For every document built by
`NewDocument` with `K` topics and then modified by `SetTopic` calls that
return normally, through any cursor value: the histogram has `K` entries, its
sum is `Length()`, every entry is non-negative, every label lies in `[0,K)`,
and `topic_histogram[k]` is the number of occurrences labelled `k`. -/
theorem document_histogram_invariant (K : Int) (d : Document) (h : Document.Reachable K d) :
    (d.topic_histogram.length : Int) = K ∧
    d.topic_histogram.sum = (d.Length : Int) ∧
    (∀ c ∈ d.topic_histogram, 0 ≤ c) ∧
    (∀ t ∈ d.wordtopics, 0 ≤ t ∧ t < K) ∧
    (∀ k : Nat, (k : Int) < K → d.topic_histogram.getD k 0 = labelCount d.wordtopics k) := by
  obtain ⟨hc, _, hK, _⟩ := Reachable_facts h
  obtain ⟨hs, hn⟩ := Counted_sum hc
  refine ⟨hK, hs, hn, ?_, ?_⟩
  · intro t ht
    have := hc.2 t ht
    omega
  · intro k hk
    exact hc.1 k (by omega)

/-- Witness of C2: "apple orange apple" with 3 topics, after relabelling the
first occurrence to topic 2 and the last one to topic 1. -/
theorem document_histogram_invariant_witness :
    Document.Reachable 3 ⟨["apple", "orange"], [0, 2], [2, 0, 1], [1, 1, 1]⟩ ∧
    (([1, 1, 1] : List Int).sum = 3 ∧ ∀ t ∈ ([2, 0, 1] : List Int), 0 ≤ t ∧ t < 3) :=
  have hr : Document.Reachable 3 ⟨["apple", "orange"], [0, 2], [2, 0, 1], [1, 1, 1]⟩ :=
    Document.Reachable.set (i := ⟨1, 2⟩) (t := 1)
      (Document.Reachable.set (i := ⟨0, 0⟩) (t := 2)
        (Document.Reachable.new (s := "apple orange apple") (d := appleDoc) (by rfl))
        (e := ⟨["apple", "orange"], [0, 2], [2, 0, 0], [2, 0, 1]⟩) (by decide))
      (by decide)
  ⟨hr, (document_histogram_invariant 3 _ hr).2.1, (document_histogram_invariant 3 _ hr).2.2.2.1⟩

/-- C3 (code defect). The document of "apple orange orange" is built and its
cursor starts, reads "apple", moves on and reads "orange"; the next `Next`
panics on `wordtopics_indices[unique_word_index+1]`, with one occurrence
left unvisited. The cursor only completes when the last unique word occurs
once. -/
theorem cursor_panics_when_last_word_repeats :
    NewDocument "apple orange orange" 2 = .ok orangeDoc ∧
    NewWordIterator orangeDoc = some ⟨0, 0⟩ ∧
    Word orangeDoc ⟨0, 0⟩ = some "apple" ∧
    Next orangeDoc ⟨0, 0⟩ = .ok ⟨1, 1⟩ ∧
    Done orangeDoc ⟨1, 1⟩ = some false ∧
    Word orangeDoc ⟨1, 1⟩ = some "orange" ∧
    Next orangeDoc ⟨1, 1⟩ = .panic ⟨1, 2⟩ ∧
    orangeDoc.Length = 3 :=
  ⟨by rfl, by decide, by decide, by decide, by decide, by decide, by decide, by decide⟩

/-- C4 (code defect, the one of C3). `CreateModel` on the corpus that holds
the document of "apple orange orange" panics in the cursor after counting two
of the three occurrences. -/
theorem CreateModel_panics_when_last_word_repeats :
    NewDocument "apple orange orange" 2 = .ok orangeDoc ∧
    orangeDoc.IsValid = true ∧
    (∀ t ∈ orangeDoc.wordtopics, 0 ≤ t ∧ t < 2) ∧
    CreateModel 2 [orangeDoc] =
      .panic ⟨[("apple", [1, 0]), ("orange", [1, 0])], [2, 0], [0, 0]⟩ :=
  ⟨by rfl, by decide, by decide, by decide⟩

/-- C5. Inference-only sweep. `CorpusGibbsSampling(corpus, update_model=false,
burn_in)` ends, and whatever its outcome the sampler it leaves is the one it
started from: the live model (known words, per-word histograms, global
histogram), the accumulator and the priors. -/
theorem inference_sweep_leaves_model (burn_in : Bool) (rnd : Nat → ℚ) (st : CorpusSweep) :
    (CorpusGibbsSampling false burn_in rnd st).isTimeout = false ∧
    (CorpusGibbsSampling false burn_in rnd st).state.sampler.model = st.sampler.model ∧
    (CorpusGibbsSampling false burn_in rnd st).state.sampler = st.sampler := by
  have hf := sweepDocs_frame rnd [] st.corpus st.sampler st.draws
  have key : (CorpusGibbsSampling false burn_in rnd st).state.sampler = st.sampler := by
    unfold CorpusGibbsSampling
    cases hs : sweepDocs false rnd [] st.corpus st.sampler st.draws with
    | ok st1 =>
      rw [hs] at hf
      simp only [Res.bind, Bool.false_and, Bool.false_eq_true, if_false]
      split <;> exact hf
    | panic st1 => rw [hs] at hf; exact hf
    | timeout st1 => rw [hs] at hf; exact hf
  exact ⟨CorpusGibbsSampling_total false burn_in rnd st, by rw [key], key⟩

/-- C6 as stated fails: with an empty live model (an empty corpus) the
accumulator is configured, `update_model` is true and `burn_in` is false, yet
the call leaves the accumulator as it was. -/
theorem accumulator_can_stay_unchanged :
    ¬ ((CorpusGibbsSampling true false zeroDraws idleSweep).state.sampler.accum_model ≠
          idleSweep.sampler.accum_model ↔
        (idleSweep.sampler.accum_model.isSome = true ∧ true = true ∧ false = false)) := by
  decide

/-- C6, amended. For a live model that satisfies the column-sum invariant:
`CorpusGibbsSampling` ends; it leaves an accumulator different from the one it
started with only if an accumulator is configured, `update_model` is true and
`burn_in` is false; and when these three hold and the call returns normally,
the accumulator it leaves is the one before plus the live model at the end of
the sweep, per word and topic and in the global histogram, its known words
being the union. -/
theorem accumulation_rule (update_model burn_in : Bool) (rnd : Nat → ℚ) (st : CorpusSweep)
    (hg : st.sampler.model.Good) :
    (CorpusGibbsSampling update_model burn_in rnd st).isTimeout = false ∧
    ((CorpusGibbsSampling update_model burn_in rnd st).state.sampler.accum_model ≠
        st.sampler.accum_model →
      st.sampler.accum_model.isSome = true ∧ update_model = true ∧ burn_in = false) ∧
    (∀ st1 accum, CorpusGibbsSampling update_model burn_in rnd st = .ok st1 →
      st.sampler.accum_model = some accum → update_model = true → burn_in = false →
      ∃ accum1, st1.sampler.accum_model = some accum1 ∧
        (∀ w k, wordCount accum1 w k = wordCount accum w k + wordCount st1.sampler.model w k) ∧
        (∀ k, globalCount accum1 k = globalCount accum k + globalCount st1.sampler.model k) ∧
        (∀ w, accum1.knows w = (accum.knows w || st1.sampler.model.knows w))) := by
  have hcfg := sweepDocs_config update_model rnd [] st.corpus st.sampler st.draws
  refine ⟨CorpusGibbsSampling_total _ _ _ _, ?_, ?_⟩
  · intro hne
    by_contra hcond
    apply hne
    unfold CorpusGibbsSampling
    cases hs : sweepDocs update_model rnd [] st.corpus st.sampler st.draws with
    | ok st1 =>
      rw [hs] at hcfg
      simp only [Res.bind]
      split
      · rename_i accum hacc
        split
        · rename_i hflags
          exfalso
          apply hcond
          simp only [Res.state] at hcfg
          rw [← hcfg, hacc]
          simpa using hflags
        · exact hcfg
      · exact hcfg
    | panic st1 => rw [hs] at hcfg; exact hcfg
    | timeout st1 => rw [hs] at hcfg; exact hcfg
  · intro st1 accum hok hacc hu hb
    unfold CorpusGibbsSampling at hok
    obtain ⟨st2, hs, hrest⟩ := Res.bind_ok hok
    rw [hs] at hcfg
    simp only [Res.state] at hcfg
    have hgood := sweepDocs_good _ _ _ _ _ _ hg hs
    rw [hcfg, hacc] at hrest
    simp only [hu, hb, Bool.not_false, Bool.and_self, if_true] at hrest
    split at hrest
    · rename_i accum1 hacm
      simp only [Res.ok.injEq] at hrest
      subst hrest
      exact ⟨accum1, rfl, AccumulateModel_counts hgood hacm⟩
    · simp at hrest

/-- Witness of C6: a training sweep over the corpus of `TestCreateModel`
returns normally and folds the live model into the empty accumulator. -/
theorem accumulation_rule_witness :
    trainSweep.sampler.model.Good ∧
    ∃ accum1,
      (CorpusGibbsSampling true false mixedDraws trainSweep).state.sampler.accum_model =
        some accum1 ∧
      (∀ w k, wordCount accum1 w k = wordCount (NewModel 2) w k +
        wordCount (CorpusGibbsSampling true false mixedDraws trainSweep).state.sampler.model w k) ∧
      (∀ k, globalCount accum1 k = globalCount (NewModel 2) k +
        globalCount (CorpusGibbsSampling true false mixedDraws trainSweep).state.sampler.model k) ∧
      (∀ w, accum1.knows w = ((NewModel 2).knows w ||
        (CorpusGibbsSampling true false mixedDraws trainSweep).state.sampler.model.knows w)) :=
  have hok : CorpusGibbsSampling true false mixedDraws trainSweep =
      .ok (CorpusGibbsSampling true false mixedDraws trainSweep).state := by decide!
  ⟨by decide,
    (accumulation_rule true false mixedDraws trainSweep (by decide)).2.2 _ (NewModel 2) hok
      rfl rfl rfl⟩

/-- C7. Conditional-distribution formula over exact arithmetic. For a model of
the right shape with `K` topics, a document with `K` topics and a word known
to the model, `GenerateTopicDistributionForWord` returns a vector of length
`K` whose entry `k` is
`(word_topic_count[word][k] + adj + word_prior) * (doc_topic_count[k] + adj +
topic_prior) / (global_topic_count[k] + adj + vocabulary_size * word_prior)`,
with `adj = -1` exactly when updating and `k` is the target topic, else `0`,
and `vocabulary_size` the number of distinct known words. -/
theorem topic_distribution_formula (sampler : Sampler) (doc : Document) (word : String)
    (target_topic : Int) (updating : Bool) (hv : sampler.model.Valid)
    (hd : doc.topic_histogram.length = sampler.model.NumTopics)
    (hw : sampler.model.knows word = true) :
    ∃ weight : Distribution,
      GenerateTopicDistributionForWord sampler doc word target_topic updating = some weight ∧
      weight.length = sampler.model.NumTopics ∧
      ∀ k, k < sampler.model.NumTopics →
        weight[k]? = some
          ((((wordCount sampler.model word k : Int) : ℚ) + adjustmentOf updating target_topic k +
              sampler.word_prior) *
            (((doc.topic_histogram.getD k 0 : Int) : ℚ) + adjustmentOf updating target_topic k +
              sampler.topic_prior) /
            (((globalCount sampler.model k : Int) : ℚ) + adjustmentOf updating target_topic k +
              (vocabularySize sampler.model : ℚ) * sampler.word_prior)) := by
  obtain ⟨hist, hh⟩ : ∃ hist, mapGet sampler.model.topic_histograms word = some hist := by
    cases hq : mapGet sampler.model.topic_histograms word with
    | none => simp [Model.knows, hq] at hw
    | some hist => exact ⟨hist, rfl⟩
  have hlen : (GetWordTopicHistogram sampler.model word).length = sampler.model.NumTopics := by
    simp only [GetWordTopicHistogram, hh, Option.getD_some]
    exact hv.2 _ (mapGet_mem hh)
  rw [vocabularySize_eq hv]
  refine ⟨(List.range sampler.model.NumTopics).map (fun k =>
      (((wordCount sampler.model word k : Int) : ℚ) + adjustmentOf updating target_topic k +
          sampler.word_prior) *
        (((doc.topic_histogram.getD k 0 : Int) : ℚ) + adjustmentOf updating target_topic k +
          sampler.topic_prior) /
        (((globalCount sampler.model k : Int) : ℚ) + adjustmentOf updating target_topic k +
          (sampler.model.NumWords : ℚ) * sampler.word_prior)),
    weightLoop_eq_map _ _ _ ?_, by simp, ?_⟩
  · intro k hk
    have hk2 := List.mem_range.1 hk
    exact topicWeight_eq sampler doc word target_topic updating k (by omega)
      (by simpa [Model.NumTopics] using hk2) (by omega)
  · intro k hk
    simp [List.getElem?_map, List.getElem?_range hk]

/-- Witness of C7: the model that only knows apple:[0,1], both priors 1,
target topic 1, updating; the weights are `doc_count[0] + 1` and `doc_count[1]`. -/
theorem topic_distribution_formula_witness :
    appleModel.Valid ∧
    GenerateTopicDistributionForWord ⟨1, 1, appleModel, none⟩ ⟨["apple"], [0], [1, 1], [5, 7]⟩
      "apple" 1 true = some [5 + 1, 7] ∧
    ∃ weight : Distribution,
      GenerateTopicDistributionForWord ⟨1, 1, appleModel, none⟩ ⟨["apple"], [0], [1, 1], [5, 7]⟩
        "apple" 1 true = some weight ∧ weight.length = 2 :=
  have h := topic_distribution_formula ⟨1, 1, appleModel, none⟩ ⟨["apple"], [0], [1, 1], [5, 7]⟩
    "apple" 1 true (by decide) (by decide) (by decide)
  ⟨by decide, by decide!, h.elim fun weight hw => ⟨weight, hw.1, hw.2.1⟩⟩

/-- C8 (code defect). For a word the model has never seen,
`GetWordTopicHistogram` yields the nil slice, not the zero histogram that the
model carries, so `GenerateTopicDistributionForWord` panics on its first
index and an inference sweep over a document with such a word panics. -/
theorem unseen_word_histogram_is_nil :
    appleModel.knows "pear" = false ∧
    GetWordTopicHistogram appleModel "pear" = [] ∧
    appleModel.zero_histogram = [0, 0] ∧
    NewDocument "apple pear" 2 = .ok pearDoc ∧
    GenerateTopicDistributionForWord ⟨1, 1, appleModel, none⟩ pearDoc "pear" 0 false = none ∧
    (DocumentGibbsSampling false zeroDraws ⟨⟨1, 1, appleModel, none⟩, pearDoc, 0⟩).isOk = false :=
  ⟨by decide, by decide, by decide, by rfl, by decide!, by decide!⟩

/-- C9 as stated fails on the empty weight vector: every weight of it is
strictly positive (there is none), and the draw returns `-1`. -/
theorem empty_vector_draws_minus_one :
    ¬ ((∀ x ∈ ([] : Distribution), 0 < x) →
        0 ≤ GetAccumulativeSample [] (1 / 2) ∧
        GetAccumulativeSample [] (1 / 2) < (([] : Distribution).length : Int)) := by
  intro h
  have h2 := h (by simp)
  simp [GetAccumulativeSample, sampleScan] at h2

/-- C9, amended. With `draw = u * sum(w)`, `GetAccumulativeSample` returns the
smallest index `i` with `w[0] + ... + w[i] >= draw`, and `-1` exactly when no
index satisfies this; when `w` is not empty, every weight is strictly positive
and `u` lies in `[0,1)`, the result is an index in `[0, len(w))`. -/
theorem inverse_cdf_draw (w : Distribution) (u : ℚ) :
    (∀ i : Nat, GetAccumulativeSample w u = (i : Int) ↔
      (i < w.length ∧ u * w.sum ≤ prefixSum w i ∧ ∀ j, j < i → prefixSum w j < u * w.sum)) ∧
    (GetAccumulativeSample w u = -1 ↔ ∀ i, i < w.length → prefixSum w i < u * w.sum) ∧
    (w ≠ [] → (∀ x ∈ w, 0 < x) → 0 ≤ u → u < 1 →
      0 ≤ GetAccumulativeSample w u ∧ GetAccumulativeSample w u < (w.length : Int)) := by
  have hspec := GetAccumulativeSample_spec w u
  have part2 : GetAccumulativeSample w u = -1 ↔
      ∀ i, i < w.length → prefixSum w i < u * w.sum := by
    constructor
    · intro h
      rcases hspec with ⟨_, h2⟩ | ⟨j, _, h1, _, _⟩
      · exact h2
      · rw [h] at h1; omega
    · intro h
      rcases hspec with ⟨h1, _⟩ | ⟨j, hj, _, h2, _⟩
      · exact h1
      · exact absurd (h j hj) (not_lt.2 h2)
  refine ⟨?_, part2, ?_⟩
  · intro i
    constructor
    · intro h
      rcases hspec with ⟨h1, _⟩ | ⟨j, hj, h1, h2, h3⟩
      · rw [h] at h1; omega
      · have : i = j := by rw [h] at h1; omega
        subst this
        exact ⟨hj, h2, h3⟩
    · rintro ⟨hi, h2, h3⟩
      rcases hspec with ⟨_, h4⟩ | ⟨j, hj, h1, h5, h6⟩
      · exact absurd (h4 i hi) (not_lt.2 h2)
      · have : i = j := by
          rcases Nat.lt_trichotomy i j with hlt | heq | hgt
          · exact absurd (h6 i hlt) (not_lt.2 h2)
          · exact heq
          · exact absurd (h3 j hgt) (not_lt.2 h5)
        rw [this]; exact h1
  · intro hne hpos hu0 hu1
    have hsum := sum_pos_of_pos w hne hpos
    have hlen := List.length_pos.2 hne
    rcases hspec with ⟨_, h2⟩ | ⟨j, hj, h1, _, _⟩
    · exfalso
      have h3 := h2 (w.length - 1) (by omega)
      rw [prefixSum_last w hne] at h3
      nlinarith
    · rw [h1]
      omega

/-- Witness of C9: the weights 1/2 and 1/4 with `u = 3/4`; the draw is 9/16
and the result is index 1. -/
theorem inverse_cdf_draw_witness :
    GetAccumulativeSample [1 / 2, 1 / 4] (3 / 4) = 1 ∧
    (0 ≤ GetAccumulativeSample [1 / 2, 1 / 4] (3 / 4) ∧
      GetAccumulativeSample [1 / 2, 1 / 4] (3 / 4) < (([1 / 2, 1 / 4] : Distribution).length : Int)) :=
  ⟨by decide!,
    (inverse_cdf_draw [1 / 2, 1 / 4] (3 / 4)).2.2 (by decide) (by decide!) (by decide!)
      (by decide!)⟩

/-- C10. `SetTopic` contract. For a document built by `NewDocument` with `K`
topics and modified by `SetTopic`, and a cursor of it that is not done:
`SetTopic(t)` panics if and only if `t < 0` or `t >= K`, and then leaves the
document as it was; when it returns, the label under the cursor is `t`, every
other label is unchanged, the histogram loses one at the old topic and gains
one at `t` (no net change when they are equal) and is unchanged elsewhere, and
the unique-word table and the range table are unchanged. The cursor is a value
that `SetTopic` does not return, so its position is unchanged, and it is still
not done. -/
theorem SetTopic_contract (K : Int) (d : Document) (iter : WordIterator) (t : Int)
    (hd : Document.Reachable K d) (hc : CursorOf d iter) (hnd : Done d iter = some false) :
    ((SetTopic d iter t).isOk = false ↔ (t < 0 ∨ t ≥ K)) ∧
    ((SetTopic d iter t).isOk = false → SetTopic d iter t = .panic d) ∧
    (∀ d1, SetTopic d iter t = .ok d1 →
      ∃ old, Topic d iter = some old ∧ Topic d1 iter = some t ∧
        d1.wordtopics.length = d.wordtopics.length ∧
        (∀ j, j ≠ iter.word_topic_index → d1.wordtopics[j]? = d.wordtopics[j]?) ∧
        d1.topic_histogram.length = d.topic_histogram.length ∧
        (∀ k : Nat, d1.topic_histogram.getD k 0 =
          d.topic_histogram.getD k 0 - (if (k : Int) = old then 1 else 0) +
            (if (k : Int) = t then 1 else 0)) ∧
        d1.unique_words = d.unique_words ∧
        d1.wordtopics_indices = d.wordtopics_indices ∧
        Done d1 iter = some false) := by
  obtain ⟨hcnt, hstr, hK, _⟩ := Reachable_facts hd
  have hu := Done_eq_false hnd
  obtain ⟨hw, _⟩ := CursorOf_within hstr hc hu
  have hin : 0 ≤ t → t < K → (SetTopic d iter t).isOk = true := by
    intro h0 h1
    obtain ⟨d1, h⟩ := SetTopic_in_range hcnt hnd hw h0 (by omega)
    rw [h]; rfl
  have hout : (t < 0 ∨ t ≥ K) → SetTopic d iter t = .panic d := by
    intro h
    exact SetTopic_out_of_range (by omega)
  refine ⟨⟨?_, ?_⟩, ?_, ?_⟩
  · intro hf
    by_contra hcon
    have := hin (by omega) (by omega)
    rw [hf] at this
    exact absurd this (by decide)
  · intro h
    rw [hout h]; rfl
  · intro hf
    apply hout
    by_contra hcon
    have := hin (by omega) (by omega)
    rw [hf] at this
    exact absurd this (by decide)
  · intro d1 h
    have hold : d.wordtopics[iter.word_topic_index]? =
        some (d.wordtopics[iter.word_topic_index]) := List.getElem?_eq_getElem hw
    have hhist := SetTopic_histogram hold h
    obtain ⟨h1, h2, h3, h4⟩ := SetTopic_lengths h
    have hdone1 : Done d1 iter = some false := by
      simpa [Done, h1] using hnd
    obtain ⟨_, _, _, old1, c_old, c_new, _, _, _, _, _, hd1⟩ := SetTopic_ok h
    have hlab : d1.wordtopics = d.wordtopics.set iter.word_topic_index t := by
      rw [hd1]
    refine ⟨d.wordtopics[iter.word_topic_index], ?_, ?_, h3, ?_, h4, hhist, h1, h2, hdone1⟩
    · simp only [Topic, hnd, hold]
    · simp only [Topic, hdone1, hlab]
      rw [List.getElem?_set]
      simp [hw]
    · intro j hj
      rw [hlab, List.getElem?_set]
      have : ¬ iter.word_topic_index = j := fun e => hj e.symm
      simp [this]

/-- Witness of C10: the fresh document of "apple orange apple" with 3 topics,
its fresh cursor, and the topics 5 (rejected) and 2 (accepted). -/
theorem SetTopic_contract_witness :
    Document.Reachable 3 appleDoc ∧ CursorOf appleDoc ⟨0, 0⟩ ∧
    Done appleDoc ⟨0, 0⟩ = some false ∧
    ((SetTopic appleDoc ⟨0, 0⟩ 5).isOk = false ↔ ((5 : Int) < 0 ∨ (5 : Int) ≥ 3)) ∧
    SetTopic appleDoc ⟨0, 0⟩ 5 = .panic appleDoc ∧
    SetTopic appleDoc ⟨0, 0⟩ 2 = .ok ⟨["apple", "orange"], [0, 2], [2, 0, 0], [2, 0, 1]⟩ :=
  have hr : Document.Reachable 3 appleDoc :=
    Document.Reachable.new (s := "apple orange apple") (by rfl)
  have hc : CursorOf appleDoc ⟨0, 0⟩ := CursorOf.new (by decide)
  ⟨hr, hc, by decide, (SetTopic_contract 3 appleDoc ⟨0, 0⟩ 5 hr hc (by decide)).1,
    (SetTopic_contract 3 appleDoc ⟨0, 0⟩ 5 hr hc (by decide)).2.1 (by decide), by decide⟩

/-- C11. `IncrementTopic` postcondition. On a model of the right shape with
`K` topics: for `0 <= topic < K` the call returns, the word is known, its
histogram is its previous one (all zeros if the word was unseen) with
`delta` added at `topic`, the global histogram is the previous one with
`delta` added at `topic`, every other entry, the histogram and the presence of
every other word are unchanged; for `topic >= K` the call panics and leaves
the model, its known words included, as it was. -/
theorem IncrementTopic_postcondition (m : Model) (word : String) (topic delta : Int)
    (hv : m.Valid) :
    (0 ≤ topic → topic < (m.NumTopics : Int) →
      ∃ m1, IncrementTopic m word topic delta = .ok m1 ∧
        m1.knows word = true ∧
        wordCount m1 word topic.toNat = wordCount m word topic.toNat + delta ∧
        globalCount m1 topic.toNat = globalCount m topic.toNat + delta ∧
        (∀ k, k ≠ topic.toNat →
          wordCount m1 word k = wordCount m word k ∧ globalCount m1 k = globalCount m k) ∧
        mapGet m1.topic_histograms word =
          some ((histogramOrZero m word).set topic.toNat
            (wordCount m word topic.toNat + delta)) ∧
        m1.global_histogram =
          m.global_histogram.set topic.toNat (globalCount m topic.toNat + delta) ∧
        (∀ w, w ≠ word → mapGet m1.topic_histograms w = mapGet m.topic_histograms w) ∧
        m1.Valid ∧ m1.NumTopics = m.NumTopics) ∧
    (topic ≥ (m.NumTopics : Int) → IncrementTopic m word topic delta = .panic m) := by
  refine ⟨?_, fun h => IncrementTopic_too_large word delta h⟩
  intro h0 hK
  obtain ⟨m1, h⟩ := IncrementTopic_succeeds word delta hv h0 hK
  obtain ⟨a1, a2, a3⟩ := IncrementTopic_counts h
  obtain ⟨b1, b2, b3, _⟩ := IncrementTopic_result h
  obtain ⟨hv1, hK1⟩ := IncrementTopic_valid hv h
  have ht : ((topic.toNat : Nat) : Int) = topic := by omega
  refine ⟨m1, h, ?_, ?_, ?_, ?_, ?_, b3, b2, hv1, hK1⟩
  · rw [a3]; simp
  · rw [a1, if_pos ⟨rfl, ht⟩]
  · rw [a2, if_pos ht]
  · intro k hk
    have hne : ¬ (k : Int) = topic := by omega
    rw [a1, a2, if_neg (fun x => hne x.2), if_neg hne]
    simp
  · rw [b1, histogramOrZero_getD]

/-- Witness of C11: the first increment of `TestReassignTopic`, on `NewModel(2)`. -/
theorem IncrementTopic_postcondition_witness :
    (NewModel 2).Valid ∧
    ∃ m1, IncrementTopic (NewModel 2) "apple" 0 3 = .ok m1 ∧ m1.knows "apple" = true ∧
      wordCount m1 "apple" 0 = wordCount (NewModel 2) "apple" 0 + 3 :=
  have h := (IncrementTopic_postcondition (NewModel 2) "apple" 0 3 (by decide)).1
    (by decide) (by decide)
  ⟨by decide, h.elim fun m1 hm => ⟨m1, hm.1, hm.2.1, hm.2.2.1⟩⟩

/-- C12. Reassignment round trip. On a model of the right shape, for topics
`a`, `b` in `[0,K)`: `ReassignTopic(word, a, b)` followed by
`ReassignTopic(word, b, a)` returns and restores every count. The global
histogram is the one before, every other word keeps its presence and its
histogram, and `word` has the histogram it had, or the all-zero one if it
was unseen (it is known afterwards). -/
theorem reassign_round_trip (m : Model) (word : String) (a b : Int) (hv : m.Valid)
    (ha : 0 ≤ a ∧ a < (m.NumTopics : Int)) (hb : 0 ≤ b ∧ b < (m.NumTopics : Int)) :
    ∃ m1 m2, ReassignTopic m word a b = .ok m1 ∧ ReassignTopic m1 word b a = .ok m2 ∧
      m2.global_histogram = m.global_histogram ∧
      (∀ w k, wordCount m2 w k = wordCount m w k) ∧
      (∀ w, w ≠ word → mapGet m2.topic_histograms w = mapGet m.topic_histograms w) ∧
      mapGet m2.topic_histograms word = some (histogramOrZero m word) := by
  obtain ⟨_, m1, _, _, h1, hv1, hK1⟩ := ReassignTopic_succeeds word hv ha hb
  obtain ⟨_, m2, _, _, h2, hv2, hK2⟩ := ReassignTopic_succeeds word hv1
    (by rw [hK1]; exact hb) (by rw [hK1]; exact ha)
  obtain ⟨a1, a2, a3, a4⟩ := ReassignTopic_counts h1
  obtain ⟨b1, b2, b3, b4⟩ := ReassignTopic_counts h2
  have hw : ∀ w k, wordCount m2 w k = wordCount m w k := by
    intro w k
    rw [b1, a1]
    split_ifs <;> ring
  refine ⟨m1, m2, h1, h2, ?_, hw, ?_, ?_⟩
  · apply list_eq_of_getD
    · have : m2.NumTopics = m.NumTopics := by omega
      simpa [Model.NumTopics] using this
    · intro k
      have := b2 k
      rw [a2] at this
      simp only [globalCount] at this
      rw [this]
      split_ifs <;> ring
  · intro w hw1
    rw [b4 w hw1, a4 w hw1]
  · have hk : m2.knows word = true := by rw [b3]; simp
    cases e : mapGet m2.topic_histograms word with
    | none => simp [Model.knows, e] at hk
    | some h2w =>
      have hl := hv2.2 _ (mapGet_mem e)
      simp only at hl
      congr 1
      apply list_eq_of_getD
      · rw [hl, histogramOrZero_length word hv]; omega
      · intro k
        rw [histogramOrZero_getD, ← hw word k]
        simp [wordCount, GetWordTopicHistogram, e]

/-- Witness of C12: apple:[3 0], orange:[0 5]; moving one apple count from
topic 0 to topic 1 and back. -/
theorem reassign_round_trip_witness :
    ∃ m1 m2,
      ReassignTopic ⟨[("apple", [3, 0]), ("orange", [0, 5])], [3, 5], [0, 0]⟩ "apple" 0 1 =
        .ok m1 ∧
      ReassignTopic m1 "apple" 1 0 = .ok m2 ∧ m2.global_histogram = [3, 5] :=
  (reassign_round_trip ⟨[("apple", [3, 0]), ("orange", [0, 5])], [3, 5], [0, 0]⟩ "apple" 0 1
    (by decide) (by decide) (by decide)).elim fun m1 h1 =>
      h1.elim fun m2 h2 => ⟨m1, m2, h2.1, h2.2.1, h2.2.2.1⟩

/-- C13. `ReassignTopic` moves exactly one count. It is `IncrementTopic(word,
old, -1)` followed by `IncrementTopic(word, new, +1)`; on a model of the right
shape and topics in `[0,K)` it returns, the histogram of `word` and the global
histogram each lose 1 at `old` and gain 1 at `new` (no count changes when
`old == new`), every other word keeps its histogram, and the total of the
global histogram is unchanged. -/
theorem ReassignTopic_moves_one_count (m : Model) (word : String) (old_topic new_topic : Int)
    (hv : m.Valid) (ho : 0 ≤ old_topic ∧ old_topic < (m.NumTopics : Int))
    (hn : 0 ≤ new_topic ∧ new_topic < (m.NumTopics : Int)) :
    ∃ m1 m2, IncrementTopic m word old_topic (-1) = .ok m1 ∧
      IncrementTopic m1 word new_topic 1 = .ok m2 ∧
      ReassignTopic m word old_topic new_topic = .ok m2 ∧
      (∀ k, wordCount m2 word k =
        wordCount m word k - (if (k : Int) = old_topic then 1 else 0) +
          (if (k : Int) = new_topic then 1 else 0)) ∧
      (∀ k, globalCount m2 k =
        globalCount m k - (if (k : Int) = old_topic then 1 else 0) +
          (if (k : Int) = new_topic then 1 else 0)) ∧
      (old_topic = new_topic →
        (∀ w k, wordCount m2 w k = wordCount m w k) ∧
        m2.global_histogram = m.global_histogram) ∧
      (∀ w, w ≠ word → mapGet m2.topic_histograms w = mapGet m.topic_histograms w) ∧
      m2.global_histogram.sum = m.global_histogram.sum := by
  obtain ⟨m1, m2, h1, h2, h, hv2, hK2⟩ := ReassignTopic_succeeds word hv ho hn
  obtain ⟨a1, a2, a3, a4⟩ := ReassignTopic_counts h
  refine ⟨m1, m2, h1, h2, h, ?_, a2, ?_, a4, ?_⟩
  · intro k
    rw [a1]
    simp
  · intro e
    subst e
    refine ⟨?_, ?_⟩
    · intro w k
      rw [a1]; ring
    · apply list_eq_of_getD
      · simpa [Model.NumTopics] using hK2
      · intro k
        have := a2 k
        simp only [globalCount] at this
        rw [this]; ring
  · rw [globalCount_sum m2, globalCount_sum m, hK2]
    have : (fun k => globalCount m2 k) = (fun k => globalCount m k -
        (if (k : Int) = old_topic then 1 else 0) +
          (if (k : Int) = new_topic then 1 else 0)) := funext a2
    rw [this, sum_map_sub_add, sum_indicator_nat, sum_indicator_nat, if_pos ho, if_pos hn]
    ring

/-- Witness of C13: `TestReassignTopic`. From apple:[3 0], orange:[0 5],
reassigning apple from topic 0 to topic 1 gives apple:[2 1], orange:[0 5],
global [2 6]. -/
theorem ReassignTopic_moves_one_count_witness :
    ReassignTopic ⟨[("apple", [3, 0]), ("orange", [0, 5])], [3, 5], [0, 0]⟩ "apple" 0 1 =
      .ok fruitModel ∧
    ∃ m1 m2,
      IncrementTopic ⟨[("apple", [3, 0]), ("orange", [0, 5])], [3, 5], [0, 0]⟩ "apple" 0 (-1) =
        .ok m1 ∧
      IncrementTopic m1 "apple" 1 1 = .ok m2 ∧ m2.global_histogram.sum = 8 :=
  ⟨by decide,
    (ReassignTopic_moves_one_count ⟨[("apple", [3, 0]), ("orange", [0, 5])], [3, 5], [0, 0]⟩
      "apple" 0 1 (by decide) (by decide) (by decide)).elim fun m1 h1 =>
        h1.elim fun m2 h2 => ⟨m1, m2, h2.1, h2.2.1, h2.2.2.2.2.2.2.2⟩⟩

/-- C14. `AccumulateModel` is a pointwise sum. For a target of the right shape
and a source that satisfies the model invariant: when the topic counts are
equal the call returns, the known words of the target are the union of both
word sets, every per-word count is the previous one plus the source's (a
missing word counting as zero), every global count is the previous one plus
the source's, and the target keeps its shape; when the topic counts differ the
call panics and leaves the target as it was. The source is an argument that
the call only reads. -/
theorem AccumulateModel_pointwise_sum (target other : Model) (hv : target.Valid)
    (ho : other.Good) :
    (target.NumTopics = other.NumTopics →
      ∃ m1, AccumulateModel target other = .ok m1 ∧
        (∀ w, m1.knows w = (target.knows w || other.knows w)) ∧
        (∀ w k, wordCount m1 w k = wordCount target w k + wordCount other w k) ∧
        (∀ k, globalCount m1 k = globalCount target k + globalCount other k) ∧
        m1.Valid ∧ m1.NumTopics = target.NumTopics) ∧
    (target.NumTopics ≠ other.NumTopics → AccumulateModel target other = .panic target) := by
  refine ⟨?_, AccumulateModel_mismatch⟩
  intro hK
  obtain ⟨m1, h, hv1, hK1⟩ := AccumulateModel_succeeds hv ho.1 hK
  obtain ⟨a1, a2, a3⟩ := AccumulateModel_counts ho h
  exact ⟨m1, h, a3, a1, a2, hv1, hK1⟩

/-- Witness of C14: `TestAccumulateModel`. The model orange:[0 1] accumulating
apple:[1 0], orange:[1 0] gives orange:[1 1], apple:[1 0], global [2 1]. -/
theorem AccumulateModel_pointwise_sum_witness :
    AccumulateModel ⟨[("orange", [0, 1])], [0, 1], [0, 0]⟩
        ⟨[("apple", [1, 0]), ("orange", [1, 0])], [2, 0], [0, 0]⟩ =
      .ok ⟨[("orange", [1, 1]), ("apple", [1, 0])], [2, 1], [0, 0]⟩ ∧
    ∃ m1, AccumulateModel ⟨[("orange", [0, 1])], [0, 1], [0, 0]⟩
        ⟨[("apple", [1, 0]), ("orange", [1, 0])], [2, 0], [0, 0]⟩ = .ok m1 ∧
      ∀ w, m1.knows w =
        (Model.knows ⟨[("orange", [0, 1])], [0, 1], [0, 0]⟩ w ||
          Model.knows ⟨[("apple", [1, 0]), ("orange", [1, 0])], [2, 0], [0, 0]⟩ w) :=
  ⟨by decide,
    ((AccumulateModel_pointwise_sum ⟨[("orange", [0, 1])], [0, 1], [0, 0]⟩
      ⟨[("apple", [1, 0]), ("orange", [1, 0])], [2, 0], [0, 0]⟩ (by decide) (by decide)).1
        (by decide)).elim fun m1 h => ⟨m1, h.1, h.2.1⟩⟩

/-- C15. Accumulating into an empty model copies the source. For a model `M`
that satisfies the model invariant, `NewModel(K).AccumulateModel(M)` with `K`
the topic count of `M` returns a model with the same known words, the same
histogram for each word and the same global histogram as `M`. -/
theorem accumulate_into_empty (M : Model) (hg : M.Good) :
    ∃ m1, AccumulateModel (NewModel M.NumTopics) M = .ok m1 ∧ m1.Same M := by
  obtain ⟨c1, c2, c3, c4⟩ := NewModel_counts M.NumTopics
  obtain ⟨m1, h, hv1, hK1⟩ := AccumulateModel_succeeds (NewModel_good M.NumTopics).1 hg.1 c4
  obtain ⟨a1, a2, a3⟩ := AccumulateModel_counts hg h
  refine ⟨m1, h, Same_of_counts hv1 hg.1 (by omega) ?_ ?_ ?_⟩
  · intro w; rw [a3, c3]; simp
  · intro w k; rw [a1, c1]; simp
  · intro k; rw [a2, c2]; simp

/-- Witness of C15 on the model of `TestReassignTopic`. -/
theorem accumulate_into_empty_witness :
    fruitModel.Good ∧ ∃ m1, AccumulateModel (NewModel 2) fruitModel = .ok m1 ∧ m1.Same fruitModel :=
  ⟨by decide, accumulate_into_empty fruitModel (by decide)⟩

/-- C16. Accumulation is order-independent. For a target `T` of the right
shape and sources that satisfy the model invariant and have the topic count of
`T`: accumulating `A` then `B` gives the same model as `B` then `A`;
accumulating the model obtained by accumulating `B` into `A` gives the same
model as accumulating `A` then `B`; and any two orderings of a list of sources
give the same model. All these calls return. -/
theorem accumulation_order_independent (T A B : Model) (hT : T.Valid) (hA : A.Good)
    (hB : B.Good) (hKA : A.NumTopics = T.NumTopics) (hKB : B.NumTopics = T.NumTopics) :
    (∃ x y, accumulateAll T [A, B] = .ok x ∧ accumulateAll T [B, A] = .ok y ∧ x.Same y) ∧
    (∃ s x y, AccumulateModel A B = .ok s ∧ AccumulateModel T s = .ok x ∧
      accumulateAll T [A, B] = .ok y ∧ x.Same y) ∧
    (∀ sources reordered : List Model,
      (∀ s ∈ sources, s.Good ∧ s.NumTopics = T.NumTopics) → sources.Perm reordered →
      ∃ x y, accumulateAll T sources = .ok x ∧ accumulateAll T reordered = .ok y ∧
        x.Same y) := by
  have general : ∀ sources reordered : List Model,
      (∀ s ∈ sources, s.Good ∧ s.NumTopics = T.NumTopics) → sources.Perm reordered →
      ∃ x y, accumulateAll T sources = .ok x ∧ accumulateAll T reordered = .ok y ∧
        x.Same y := by
    intro sources reordered hs hp
    have hs2 : ∀ s ∈ reordered, s.Good ∧ s.NumTopics = T.NumTopics :=
      fun s h => hs s (hp.mem_iff.2 h)
    obtain ⟨x, hx, hvx, hKx, a1, a2, a3⟩ := accumulateAll_counts sources hT hs
    obtain ⟨y, hy, hvy, hKy, b1, b2, b3⟩ := accumulateAll_counts reordered hT hs2
    refine ⟨x, y, hx, hy, Same_of_counts hvx hvy (by omega) ?_ ?_ ?_⟩
    · intro w
      rw [Bool.eq_iff_iff, a3, b3]
      constructor
      · rintro (h | ⟨s, hs1, hs3⟩)
        · exact Or.inl h
        · exact Or.inr ⟨s, hp.mem_iff.1 hs1, hs3⟩
      · rintro (h | ⟨s, hs1, hs3⟩)
        · exact Or.inl h
        · exact Or.inr ⟨s, hp.mem_iff.2 hs1, hs3⟩
    · intro w k
      rw [a1, b1, (hp.map _).sum_eq]
    · intro k
      rw [a2, b2, (hp.map _).sum_eq]
  refine ⟨?_, ?_, general⟩
  · apply general [A, B] [B, A]
    · intro s hs
      simp only [List.mem_cons, List.mem_singleton, List.not_mem_nil, or_false] at hs
      rcases hs with rfl | rfl
      · exact ⟨hA, hKA⟩
      · exact ⟨hB, hKB⟩
    · exact List.Perm.swap B A []
  · obtain ⟨s, hs, hvs, hKs⟩ := AccumulateModel_succeeds hA.1 hB.1 (by omega)
    have hgs := AccumulateModel_good hA hs
    obtain ⟨s1, s2, s3⟩ := AccumulateModel_counts hB hs
    obtain ⟨x, hx, hvx, hKx⟩ := AccumulateModel_succeeds hT hvs (by omega)
    obtain ⟨x1, x2, x3⟩ := AccumulateModel_counts hgs hx
    obtain ⟨y, hy, hvy, hKy, b1, b2, b3⟩ := accumulateAll_counts [A, B] hT
      (by
        intro r hr
        simp only [List.mem_cons, List.mem_singleton, List.not_mem_nil, or_false] at hr
        rcases hr with rfl | rfl
        · exact ⟨hA, hKA⟩
        · exact ⟨hB, hKB⟩)
    refine ⟨s, x, y, hs, hx, hy, Same_of_counts hvx hvy (by omega) ?_ ?_ ?_⟩
    · intro w
      rw [Bool.eq_iff_iff, b3, x3, s3]
      simp only [Bool.or_eq_true, List.mem_cons, List.mem_singleton, List.not_mem_nil,
        or_false, exists_eq_or_imp, exists_eq_left]
    · intro w k
      rw [x1, s1, b1]
      simp only [List.map_cons, List.map_nil, List.sum_cons, List.sum_nil]
      ring
    · intro k
      rw [x2, s2, b2]
      simp only [List.map_cons, List.map_nil, List.sum_cons, List.sum_nil]
      ring

/-- Witness of C16: the empty target, the model of `TestReassignTopic` and the
model that only knows apple, in both orders. -/
theorem accumulation_order_independent_witness :
    fruitModel.Good ∧ appleModel.Good ∧
    ∃ x y, accumulateAll (NewModel 2) [fruitModel, appleModel] = .ok x ∧
      accumulateAll (NewModel 2) [appleModel, fruitModel] = .ok y ∧ x.Same y :=
  ⟨by decide, by decide,
    (accumulation_order_independent (NewModel 2) fruitModel appleModel (by decide) (by decide)
      (by decide) (by decide) (by decide)).1⟩

/-- C17. Deterministic initial state of a document. For a text of `n >= 2`
whitespace-separated words and `K >= 2`, with the sorted word list being the
increasing rearrangement of the words: `NewDocument` returns a document whose
unique words are strictly increasing and are the words of the text, whose
range starts are as many, begin at 0, are strictly increasing, each being the
position of the first occurrence of its unique word in the sorted list, the
positions from a start up to the next start (or `n`) being exactly the
occurrences of that word; its `n` labels are all 0, its histogram has `K`
entries and is `[n, 0, ..., 0]`, and its `Length()` is `n`. -/
theorem NewDocument_initial_state (text : String) (K : Int)
    (hn : 2 ≤ (Fields text).length) (hK : 2 ≤ K) :
    (SortStrings (Fields text)).Sorted strLe ∧
    (SortStrings (Fields text)).Perm (Fields text) ∧
    ∃ d, NewDocument text K = .ok d ∧
      d.unique_words.Pairwise (fun a b => strLess a b = true) ∧
      (∀ w, w ∈ d.unique_words ↔ w ∈ Fields text) ∧
      d.wordtopics_indices.length = d.unique_words.length ∧
      d.wordtopics_indices[0]? = some 0 ∧
      d.wordtopics_indices.Pairwise (fun a b => a < b) ∧
      (∀ k w p, d.unique_words[k]? = some w → d.wordtopics_indices[k]? = some p →
        (SortStrings (Fields text))[p]? = some w ∧
        (∀ j, j < p → (SortStrings (Fields text))[j]? ≠ some w) ∧
        ∀ j, j < (Fields text).length →
          ((SortStrings (Fields text))[j]? = some w ↔ (p ≤ j ∧ j < d.rangeEnd k))) ∧
      d.wordtopics = List.replicate (Fields text).length 0 ∧
      d.topic_histogram = ((Fields text).length : Int) :: List.replicate (K.toNat - 1) 0 ∧
      d.topic_histogram.length = K.toNat ∧
      d.Length = (Fields text).length := by
  obtain ⟨hsorted, hperm⟩ := SortStrings_sorted (Fields text)
  have hlen : (SortStrings (Fields text)).length = (Fields text).length := hperm.length_eq
  obtain ⟨d, last, hd, hs, hw, hh⟩ := NewDocument_succeeds hK hn
  have hLne : SortStrings (Fields text) ≠ [] := by
    intro e
    rw [e] at hlen
    simp at hlen
    omega
  have hdn : d.wordtopics.length = (SortStrings (Fields text)).length := by
    rw [hw, hlen]; simp
  refine ⟨hsorted, hperm, d, hd, hs.increasing, ?_, hs.lengths, ScanState_first_start hs hLne,
    hs.starts.1, ?_, hw, ?_, ?_, ?_⟩
  · intro w
    rw [ScanState_words hs w]
    exact hperm.mem_iff
  · intro k w p hu hi
    obtain ⟨f1, f2⟩ := ScanState_first_occurrence hs hu hi
    refine ⟨f1, f2, ?_⟩
    intro j hj
    exact ScanState_ranges hs hdn hu hi (by omega)
  · rw [hh]
    obtain ⟨k, hk⟩ : ∃ k, K.toNat = k + 1 := ⟨K.toNat - 1, by omega⟩
    rw [hk]
    simp [List.replicate_succ]
  · rw [hh]
    simp
  · simp [Document.Length, hw]

/-- Witness of C17: `TestNewDocument`. "apple orange apple" with 3 topics gives
unique words [apple orange], range starts [0 2], labels [0 0 0], histogram
[3 0 0]. -/
theorem NewDocument_initial_state_witness :
    2 ≤ (Fields "apple orange apple").length ∧
    NewDocument "apple orange apple" 3 =
      .ok ⟨["apple", "orange"], [0, 2], [0, 0, 0], [3, 0, 0]⟩ ∧
    ∃ d, NewDocument "apple orange apple" 3 = .ok d ∧
      d.wordtopics_indices[0]? = some 0 ∧ d.Length = (Fields "apple orange apple").length :=
  ⟨by decide, by rfl,
    (NewDocument_initial_state "apple orange apple" 3 (by decide) (by decide)).2.2.elim
      fun d h => ⟨d, h.1, h.2.2.2.2.1, h.2.2.2.2.2.2.2.2.2.2⟩⟩

/-- C18. `NewDocument` rejection. For every text and every integer `K`,
`NewDocument` returns an error, and no document, if and only if `K < 2` or the
text has fewer than 2 whitespace-separated words; otherwise it returns a
document. The empty text, a whitespace-only text and a one-word text are
rejected for every `K`. -/
theorem NewDocument_rejection (text : String) (K : Int) :
    ((∃ e, NewDocument text K = .error e) ↔ (K < 2 ∨ (Fields text).length < 2)) ∧
    ((∃ d, NewDocument text K = .ok d) ↔ (2 ≤ K ∧ 2 ≤ (Fields text).length)) ∧
    (∃ e, NewDocument "" K = .error e) ∧
    (∃ e, NewDocument "   " K = .error e) ∧
    (∃ e, NewDocument "orange" K = .error e) := by
  have reject : ∀ (s : String) (k : Int), (k < 2 ∨ (Fields s).length < 2) →
      ∃ e, NewDocument s k = .error e := by
    intro s k h
    unfold NewDocument
    by_cases hk : k ≤ 1
    · rw [if_pos hk]; exact ⟨_, rfl⟩
    · rw [if_neg hk]
      simp only
      rw [if_pos (by omega)]
      exact ⟨_, rfl⟩
  refine ⟨⟨?_, reject text K⟩, ⟨?_, ?_⟩, reject "" K (Or.inr (by decide)),
    reject "   " K (Or.inr (by decide)), reject "orange" K (Or.inr (by decide))⟩
  · rintro ⟨e, he⟩
    by_contra hcon
    obtain ⟨d, _, hd, _⟩ := @NewDocument_succeeds text K (by omega) (by omega)
    rw [hd] at he
    simp at he
  · rintro ⟨d, hd⟩
    by_contra hcon
    obtain ⟨e, he⟩ := reject text K (by omega)
    rw [hd] at he
    simp at he
  · rintro ⟨h1, h2⟩
    obtain ⟨d, _, hd, _⟩ := NewDocument_succeeds h1 h2
    exact ⟨d, hd⟩

/-! ## C19: a model file survives load, save, load -/

/-- C19. Model file round trip. Let `m` be the model of a successful `LoadModel`
and let `SaveModel` emit its words in any order (`order` is a permutation of
the entries of the map). Then `SaveModel` succeeds and writes one line per
word, and `LoadModel` on the written lines succeeds with a model that has the
same word to histogram map (same known words, same histogram for each) and
the same global histogram as `m`. The two conversions are those of the code:
`atoi` reads back every integer that `fmtInt` prints, and what `fmtInt`
prints is non-empty and free of white space. -/
theorem model_file_round_trip (atoi : String → Option Int) (fmtInt : Int → String)
    (hrt : ∀ c, atoi (fmtInt c) = some c) (htok : ∀ c, IsToken (fmtInt c))
    (file : Option FileReads) (m : Model) (order : List (String × Histogram))
    (hload : LoadModel atoi file = .ok m) (hperm : order.Perm m.topic_histograms) :
    ∃ lines m2,
      SaveModel fmtInt true ⟨order, m.global_histogram, m.zero_histogram⟩ = .ok lines ∧
      lines.length = m.NumWords ∧
      LoadModel atoi (some (readBack lines)) = .ok m2 ∧
      m2.Same m ∧
      (∀ w, m2.knows w = m.knows w) ∧
      (∀ w, GetWordTopicHistogram m2 w = GetWordTopicHistogram m w) ∧
      GetGlobalTopicHistogram m2 = GetGlobalTopicHistogram m := by
  obtain ⟨hne, htokens, hK⟩ := LoadModel_words hload
  have hgood : m.Good := LoadModel_good hload
  have hone : order ≠ [] := by
    intro e
    rw [e] at hperm
    exact hne (List.Perm.eq_nil hperm.symm)
  obtain ⟨m2, h1, h2⟩ := loadLines_written atoi fmtInt hrt htok m.NumTopics hK order 0
    ⟨[], [], []⟩ (Or.inl rfl)
    (fun p hp => ⟨htokens p (hperm.subset hp), hgood.1.2 p (hperm.subset hp)⟩)
    (((hperm.map Prod.fst).nodup_iff).mpr hgood.1.1)
    (fun p _ => rfl)
  simp only [List.nil_append] at h2
  have hreload : LoadModel atoi (some (readBack
      (order.map (fun p => formatLine fmtInt p.1 p.2)))) = .ok m2 := by
    unfold LoadModel readBack
    have hflag : (((order.map (fun p => formatLine fmtInt p.1 p.2)).map
        (fun l => (l, false))).head?.map Prod.snd).getD false = false := by
      cases order <;> rfl
    have hfst : ((order.map (fun p => formatLine fmtInt p.1 p.2)).map
        (fun l => (l, false))).map Prod.fst = order.map (fun p => formatLine fmtInt p.1 p.2) := by
      rw [List.map_map]
      exact List.map_id _
    simp only [hflag, hfst, h1, Bool.false_eq_true, if_false, Bool.not_true]
    have : ¬ m2.topic_histograms.length ≤ 0 := by
      rw [h2]
      cases order with
      | nil => exact absurd rfl hone
      | cons a b => simp
    rw [if_neg this]
  have hsame : m2.Same m :=
    Same_of_perm (LoadModel_good hreload) hgood (h2 ▸ hperm) hne
  refine ⟨order.map (fun p => formatLine fmtInt p.1 p.2), m2, ?_, ?_, hreload, hsame, ?_, ?_, ?_⟩
  · simp [SaveModel]
  · simp [Model.NumWords, hperm.length_eq]
  · exact (Same_counts hsame).1
  · intro w
    simp [GetWordTopicHistogram, hsame.1 w]
  · simp [GetGlobalTopicHistogram, hsame.2]

/-- Witness for C19: the fruit file, written back in reverse order. -/
theorem model_file_round_trip_witness :
    ∃ lines m2,
      SaveModel showInt true
        ⟨[("zebra", [1, 0]), ("orange", [0, 1]), ("apple", [0, 1])], [1, 2], [0, 0]⟩ = .ok lines ∧
      lines.length = 3 ∧
      LoadModel Atoi (some (readBack lines)) = .ok m2 ∧
      m2.Same ⟨[("apple", [0, 1]), ("orange", [0, 1]), ("zebra", [1, 0])], [1, 2], [0, 0]⟩ ∧
      (∀ w, m2.knows w =
        Model.knows ⟨[("apple", [0, 1]), ("orange", [0, 1]), ("zebra", [1, 0])], [1, 2], [0, 0]⟩ w) ∧
      (∀ w, GetWordTopicHistogram m2 w = GetWordTopicHistogram
        ⟨[("apple", [0, 1]), ("orange", [0, 1]), ("zebra", [1, 0])], [1, 2], [0, 0]⟩ w) ∧
      GetGlobalTopicHistogram m2 = [1, 2] :=
  model_file_round_trip Atoi showInt Atoi_showInt showInt_token (some fruitFile)
    ⟨[("apple", [0, 1]), ("orange", [0, 1]), ("zebra", [1, 0])], [1, 2], [0, 0]⟩
    [("zebra", [1, 0]), ("orange", [0, 1]), ("apple", [0, 1])]
    (by rfl) (List.reverse_perm [("apple", [0, 1]), ("orange", [0, 1]), ("zebra", [1, 0])])

/-! ## C20: which lines of a corpus file are skipped -/

/-- C21. Model/corpus consistency is preserved by every updating step. Let
the live model have the right shape and `K` topics, let every document of the
corpus be one built by `NewDocument` with `K` topics and modified by
`SetTopic`, and let the model count the labels of the corpus (for every word
and topic, `topic_histograms[w][k]` is the number of occurrences of `w`
labelled `k`, and `global_histogram[k]` the number of occurrences labelled
`k`). (1) `CreateModel`, when it returns, establishes this equality. (2) At
every cursor of a document of the corpus that is not done, the cursor reads a
word and a label `old` in `[0,K)`, and for every `new` in `[0,K)`,
`ReassignTopic(word, old, new)` followed by `SetTopic(new)` both return, the
equality holds again for the corpus with the updated document, no count of
the model is negative, and the histogram of the document equals its label
counts. (3) An updating sweep `CorpusGibbsSampling(corpus, true, burn_in)`
ends, and whatever its outcome, the state it leaves behind satisfies the same
equality, with no negative count in the model and every document histogram
equal to its label counts; in particular after every completed sweep. -/
theorem consistency_preserved (K : Int) (st : CorpusSweep)
    (hv : st.sampler.model.Valid) (hK : (st.sampler.model.NumTopics : Int) = K)
    (hr : ∀ d ∈ st.corpus, Document.Reachable K d)
    (hcons : Consistent st.sampler.model st.corpus) :
    (∀ (n : Nat) (corpus : Corpus) (m : Model), (∀ d ∈ corpus, Document.Reachable K d) →
      CreateModel n corpus = .ok m → Consistent m corpus) ∧
    (∀ before d rest iter, st.corpus = before ++ d :: rest → CursorOf d iter →
      Done d iter = some false →
      ∃ word old, Word d iter = some word ∧ Topic d iter = some old ∧ 0 ≤ old ∧ old < K ∧
        ∀ new_topic, 0 ≤ new_topic → new_topic < K →
          ∃ m1 d1, ReassignTopic st.sampler.model word old new_topic = .ok m1 ∧
            SetTopic d iter new_topic = .ok d1 ∧
            Consistent m1 (before ++ d1 :: rest) ∧
            (∀ w k, 0 ≤ wordCount m1 w k) ∧ (∀ k, 0 ≤ globalCount m1 k) ∧
            d1.Counted ∧ m1.Valid ∧ m1.NumTopics = st.sampler.model.NumTopics ∧
            Document.Reachable K d1) ∧
    (∀ (burn_in : Bool) (rnd : Nat → ℚ),
      (CorpusGibbsSampling true burn_in rnd st).isTimeout = false ∧
      Consistent (CorpusGibbsSampling true burn_in rnd st).state.sampler.model
        (CorpusGibbsSampling true burn_in rnd st).state.corpus ∧
      (∀ w k, 0 ≤ wordCount (CorpusGibbsSampling true burn_in rnd st).state.sampler.model w k) ∧
      (∀ k, 0 ≤ globalCount (CorpusGibbsSampling true burn_in rnd st).state.sampler.model k) ∧
      (∀ d ∈ (CorpusGibbsSampling true burn_in rnd st).state.corpus,
        d.Counted ∧ Document.Reachable K d) ∧
      (CorpusGibbsSampling true burn_in rnd st).state.sampler.model.Valid ∧
      ((CorpusGibbsSampling true burn_in rnd st).state.sampler.model.NumTopics : Int) = K) := by
  refine ⟨?_, ?_, ?_⟩
  · intro n corpus m hdocs hcreate
    exact CreateModel_consistent (fun d hd => Reachable_ranged (hdocs d hd)) hcreate
  · intro before d rest iter hsplit hcur hdone
    have hd : Document.Reachable K d := hr d (by rw [hsplit]; simp)
    have hat := CursorOf_at (Reachable_ranged hd) hcur
    have hu := Done_eq_false hdone
    obtain ⟨word, old, hw, ht, _, _, ho0, hoK⟩ := cursor_reads hd hat hu
    refine ⟨word, old, hw, ht, ho0, hoK, ?_⟩
    intro new_topic hn0 hnK
    obtain ⟨m1, d1, hre, hset, hv1, hK1, hr1, hc1⟩ :=
      update_step hv hK hd hat hu hw ht ⟨hn0, hnK⟩ (hsplit ▸ hcons)
    exact ⟨m1, d1, hre, hset, hc1, (Consistent_nonneg hc1).1, (Consistent_nonneg hc1).2,
      (Reachable_facts hr1).1, hv1, hK1, hr1⟩
  · intro burn_in rnd
    obtain ⟨t1, t2, t3, t4⟩ := CorpusGibbsSampling_tracks burn_in rnd st ⟨hv, hK, hr, hcons⟩
    exact ⟨CorpusGibbsSampling_total true burn_in rnd st, t4, (Consistent_nonneg t4).1,
      (Consistent_nonneg t4).2, fun d hd => ⟨(Reachable_facts (t3 d hd)).1, t3 d hd⟩, t1, t2⟩

/-- Witness of C21: the corpus of `TestCreateModel` and the model that
`CreateModel` counts from it. -/
theorem consistency_preserved_witness :
    CreateModel 2 fruitCorpus = .ok trainSweep.sampler.model ∧
    Consistent trainSweep.sampler.model trainSweep.corpus ∧
    ∀ (burn_in : Bool) (rnd : Nat → ℚ),
      Consistent (CorpusGibbsSampling true burn_in rnd trainSweep).state.sampler.model
        (CorpusGibbsSampling true burn_in rnd trainSweep).state.corpus :=
  have hdocs : ∀ d ∈ fruitCorpus, Document.Reachable 2 d := by
    intro d hd
    simp only [fruitCorpus, List.mem_cons, List.mem_singleton, List.not_mem_nil, or_false] at hd
    rcases hd with rfl | rfl
    · exact Document.Reachable.new (s := "apple orange apple") (by rfl)
    · exact Document.Reachable.new (s := "zebra cat") (by rfl)
  have hcreate : CreateModel 2 fruitCorpus = .ok trainSweep.sampler.model := by rfl
  have hcons : Consistent trainSweep.sampler.model trainSweep.corpus :=
    CreateModel_consistent (fun d hd => Reachable_ranged (hdocs d hd)) hcreate
  ⟨hcreate, hcons, fun burn_in rnd =>
    ((consistency_preserved 2 trainSweep (by decide) (by decide) hdocs hcons).2.2
      burn_in rnd).2.1⟩

/-! ## C22: the draw of a consistent updating step lands on a topic -/

/-- C22. The "cannot sample" branch is unreachable in a consistent updating
sweep, over exact arithmetic. Let both priors be positive, the live model
have the right shape and `K` topics, the document be one of the corpus, built
by `NewDocument` with `K` topics and modified by `SetTopic`, and the model
count the labels of the corpus. At every cursor of the document that is not
done, with `target_topic` the current label and `updating = true`:
`GenerateTopicDistributionForWord` returns a vector of `K` weights; for every
`k < K` the two factors of the numerator and the denominator are strictly
positive, and so is the weight; for every uniform value `u <= 1` (every value
of `rand.Float64()` lies in `[0,1)`), `GetAccumulativeSample` returns an index
in `[0,K)`, and the body of the loop of `DocumentGibbsSampling` returns
normally instead of panicking. -/
theorem cannot_sample_unreachable (K : Int) (sampler : Sampler) (corpus : Corpus)
    (d : Document) (iter : WordIterator)
    (ha : 0 < sampler.topic_prior) (hb : 0 < sampler.word_prior)
    (hv : sampler.model.Valid) (hK : (sampler.model.NumTopics : Int) = K)
    (hr : Document.Reachable K d) (hmem : d ∈ corpus)
    (hcons : Consistent sampler.model corpus)
    (hcur : CursorOf d iter) (hdone : Done d iter = some false) :
    ∃ word topic dist, Word d iter = some word ∧ Topic d iter = some topic ∧
      GenerateTopicDistributionForWord sampler d word topic true = some dist ∧
      (dist.length : Int) = K ∧ d.topic_histogram.length = dist.length ∧
      (∀ k, k < dist.length →
        0 < ((wordCount sampler.model word k : Int) : ℚ) + adjustmentOf true topic k +
          sampler.word_prior ∧
        0 < ((d.topic_histogram.getD k 0 : Int) : ℚ) + adjustmentOf true topic k +
          sampler.topic_prior ∧
        0 < ((globalCount sampler.model k : Int) : ℚ) + adjustmentOf true topic k +
          (sampler.model.NumWords : ℚ) * sampler.word_prior ∧
        dist[k]? = some
          ((((wordCount sampler.model word k : Int) : ℚ) + adjustmentOf true topic k +
              sampler.word_prior) *
            (((d.topic_histogram.getD k 0 : Int) : ℚ) + adjustmentOf true topic k +
              sampler.topic_prior) /
            (((globalCount sampler.model k : Int) : ℚ) + adjustmentOf true topic k +
              (sampler.model.NumWords : ℚ) * sampler.word_prior))) ∧
      (∀ x ∈ dist, 0 < x) ∧
      ∀ (rnd : Nat → ℚ) (n : Nat), rnd n ≤ 1 →
        0 ≤ GetAccumulativeSample dist (rnd n) ∧ GetAccumulativeSample dist (rnd n) < K ∧
        GetAccumulativeSample dist (rnd n) ≠ -1 ∧
        (gibbsStep true rnd iter ⟨sampler, d, n⟩).isOk = true := by
  obtain ⟨before, rest, rfl⟩ := List.append_of_mem hmem
  have hat := CursorOf_at (Reachable_ranged hr) hcur
  have hu := Done_eq_false hdone
  obtain ⟨word, old, hw, ht, hwa, hold, ho0, hoK⟩ := cursor_reads hr hat hu
  obtain ⟨hpos, hdist⟩ := weights_positive ha hb hv hK hr hwa hold ho0 hcons
  obtain ⟨_, _, hlen, hvalid⟩ := Reachable_facts hr
  have hK2 : 2 ≤ sampler.model.NumTopics := by
    have := (IsValid_facts hvalid).2.2.2
    have e : (d.topic_histogram.length : Int) = (sampler.model.NumTopics : Int) := by
      rw [hlen, hK]
    omega
  have hall : ∀ x ∈ (List.range sampler.model.NumTopics).map (fun k =>
      (((wordCount sampler.model word k : Int) : ℚ) + adjustmentOf true old k +
          sampler.word_prior) *
        (((d.topic_histogram.getD k 0 : Int) : ℚ) + adjustmentOf true old k +
          sampler.topic_prior) /
        (((globalCount sampler.model k : Int) : ℚ) + adjustmentOf true old k +
          (sampler.model.NumWords : ℚ) * sampler.word_prior)), 0 < x := by
    intro x hx
    obtain ⟨k, hk, rfl⟩ := List.mem_map.1 hx
    obtain ⟨p1, p2, p3⟩ := hpos k (List.mem_range.1 hk)
    exact div_pos (mul_pos p1 p2) p3
  have hne : (List.range sampler.model.NumTopics).map (fun k =>
      (((wordCount sampler.model word k : Int) : ℚ) + adjustmentOf true old k +
          sampler.word_prior) *
        (((d.topic_histogram.getD k 0 : Int) : ℚ) + adjustmentOf true old k +
          sampler.topic_prior) /
        (((globalCount sampler.model k : Int) : ℚ) + adjustmentOf true old k +
          (sampler.model.NumWords : ℚ) * sampler.word_prior)) ≠ [] := by
    intro e
    have := congrArg List.length e
    simp only [List.length_map, List.length_range, List.length_nil] at this
    omega
  refine ⟨word, old, _, hw, ht, hdist, ?_, ?_, ?_, hall, ?_⟩
  · simp only [List.length_map, List.length_range]
    exact hK
  · simp only [List.length_map, List.length_range]
    have e : (d.topic_histogram.length : Int) = (sampler.model.NumTopics : Int) := by
      rw [hlen, hK]
    exact_mod_cast e
  · intro k hk
    simp only [List.length_map, List.length_range] at hk
    obtain ⟨p1, p2, p3⟩ := hpos k hk
    refine ⟨p1, p2, p3, ?_⟩
    rw [List.getElem?_map, List.getElem?_range hk]
    rfl
  · intro rnd n hu1
    obtain ⟨s0, s1⟩ := sample_in_range hne hall hu1
    simp only [List.length_map, List.length_range] at s1
    rw [hK] at s1
    have sne : GetAccumulativeSample ((List.range sampler.model.NumTopics).map (fun k =>
        (((wordCount sampler.model word k : Int) : ℚ) + adjustmentOf true old k +
            sampler.word_prior) *
          (((d.topic_histogram.getD k 0 : Int) : ℚ) + adjustmentOf true old k +
            sampler.topic_prior) /
          (((globalCount sampler.model k : Int) : ℚ) + adjustmentOf true old k +
            (sampler.model.NumWords : ℚ) * sampler.word_prior))) (rnd n) ≠ -1 := by
      intro e
      rw [e] at s0
      omega
    refine ⟨s0, s1, sne, ?_⟩
    obtain ⟨m1, d1, hre, hset, _⟩ := update_step hv hK hr hat hu hw ht ⟨s0, s1⟩ hcons
    unfold gibbsStep
    simp only [hw, ht, hdist, if_pos sne, if_true, hre, hset, Res.isOk]

/-- Witness of C22: the first occurrence of the first document of the corpus of
`TestCreateModel`, with both priors 1 and the model `CreateModel` counts. -/
theorem cannot_sample_unreachable_witness :
    GenerateTopicDistributionForWord trainSweep.sampler
        ⟨["apple", "orange"], [0, 2], [0, 0, 0], [3, 0]⟩ "apple" 0 true =
      some [2 * 3 / 8, 1 * 1 / 4] ∧
    ∃ word topic dist,
      Word ⟨["apple", "orange"], [0, 2], [0, 0, 0], [3, 0]⟩ ⟨0, 0⟩ = some word ∧
      Topic ⟨["apple", "orange"], [0, 2], [0, 0, 0], [3, 0]⟩ ⟨0, 0⟩ = some topic ∧
      GenerateTopicDistributionForWord trainSweep.sampler
        ⟨["apple", "orange"], [0, 2], [0, 0, 0], [3, 0]⟩ word topic true = some dist ∧
      (∀ x ∈ dist, 0 < x) ∧
      ∀ (rnd : Nat → ℚ) (n : Nat), rnd n ≤ 1 →
        0 ≤ GetAccumulativeSample dist (rnd n) ∧ GetAccumulativeSample dist (rnd n) < 2 :=
  have hdocs : ∀ d ∈ fruitCorpus, Document.Reachable 2 d := by
    intro d hd
    simp only [fruitCorpus, List.mem_cons, List.mem_singleton, List.not_mem_nil, or_false] at hd
    rcases hd with rfl | rfl
    · exact Document.Reachable.new (s := "apple orange apple") (by rfl)
    · exact Document.Reachable.new (s := "zebra cat") (by rfl)
  have hcreate : CreateModel 2 fruitCorpus = .ok trainSweep.sampler.model := by rfl
  have hcons : Consistent trainSweep.sampler.model fruitCorpus :=
    CreateModel_consistent (fun d hd => Reachable_ranged (hdocs d hd)) hcreate
  ⟨by decide!,
    (cannot_sample_unreachable 2 trainSweep.sampler fruitCorpus
      ⟨["apple", "orange"], [0, 2], [0, 0, 0], [3, 0]⟩ ⟨0, 0⟩ (by decide!) (by decide!)
      (by decide) (by decide) (hdocs _ (by simp [fruitCorpus])) (by simp [fruitCorpus]) hcons
      (CursorOf.new (by rfl)) (by rfl)).elim fun word h1 => h1.elim fun topic h2 =>
        h2.elim fun dist h3 => ⟨word, topic, dist, h3.1, h3.2.1, h3.2.2.1, h3.2.2.2.2.2.2.1,
          fun rnd n hu => ⟨(h3.2.2.2.2.2.2.2 rnd n hu).1, (h3.2.2.2.2.2.2.2 rnd n hu).2.1⟩⟩⟩

/-! ## C23: the number of topics of the documents the driver loads -/

/-- C23 (code defect). The driver does not build its documents with the
configured number of topics: `main` calls `LoadCorpus(*corpus_file, 2)` with
the literal 2. With `num_topics = 3` (flags accepted by `CheckFlagsValid`) and
a corpus file that holds the line "apple orange apple", the document has a
histogram of 2 entries while the live model and the accumulator have 3
topics; the loop over `k` in `[0,3)` of `GenerateTopicDistributionForWord`
indexes the document histogram out of range, and `main` panics in its first
sweep, whatever `math.Log` and the random stream are. In general, for all
accepted flags and every corpus file that loads: every document has a
histogram of 2 entries, the live model and the accumulator have `num_topics`
topics, and with `num_topics >= 3` and at least one document `main` panics. -/
theorem driver_loads_documents_with_two_topics :
    CheckFlagsValid threeTopicFlags = true ∧
    LoadCorpus (some appleFile) 2 =
      .ok (.ok [⟨["apple", "orange"], [0, 2], [0, 0, 0], [3, 0]⟩]) ∧
    CreateModel 3 [⟨["apple", "orange"], [0, 2], [0, 0, 0], [3, 0]⟩] =
      .ok ⟨[("apple", [2, 0, 0]), ("orange", [1, 0, 0])], [3, 0, 0], [0, 0, 0]⟩ ∧
    GenerateTopicDistributionForWord
      ⟨1 / 10, 1 / 100, ⟨[("apple", [2, 0, 0]), ("orange", [1, 0, 0])], [3, 0, 0], [0, 0, 0]⟩,
        some (NewModel 3)⟩
      ⟨["apple", "orange"], [0, 2], [0, 0, 0], [3, 0]⟩ "apple" 0 true = none ∧
    (∀ (log : ℚ → ℚ) (rnd : Nat → ℚ),
      main log showInt rnd (some appleFile) true threeTopicFlags =
        .panic ⟨some ⟨⟨1 / 10, 1 / 100,
          ⟨[("apple", [2, 0, 0]), ("orange", [1, 0, 0])], [3, 0, 0], [0, 0, 0]⟩,
          some (NewModel 3)⟩, [⟨["apple", "orange"], [0, 2], [0, 0, 0], [3, 0]⟩], 0⟩, none⟩) ∧
    (∀ (log : ℚ → ℚ) (fmtInt : Int → String) (rnd : Nat → ℚ) (corpus_reads : Option FileReads)
        (model_file_opens : Bool) (flags : Flags) (corpus : Corpus),
      CheckFlagsValid flags = true → LoadCorpus corpus_reads 2 = .ok (.ok corpus) →
      (∀ d ∈ corpus, d.topic_histogram.length = 2) ∧
      (∀ m, CreateModel flags.num_topics.toNat corpus = .ok m →
        (m.NumTopics : Int) = flags.num_topics) ∧
      ((NewModel flags.num_topics.toNat).NumTopics : Int) = flags.num_topics ∧
      (3 ≤ flags.num_topics → corpus ≠ [] →
        ∃ s, main log fmtInt rnd corpus_reads model_file_opens flags = .panic s)) := by
  refine ⟨by decide!, by rfl, by rfl, by rfl, ?_, ?_⟩
  · intro log rnd
    unfold main
    rw [show CheckFlagsValid threeTopicFlags = true from by decide!]
    rfl
  · intro log fmtInt rnd corpus_reads model_file_opens flags corpus hvalid hload
    obtain ⟨h2, _⟩ := CheckFlagsValid_facts hvalid
    refine ⟨?_, ?_, ?_, ?_⟩
    · intro d hd
      have := (LoadCorpus_docs hload d hd).2
      omega
    · intro m hm
      rw [(CreateModel_topics hm).2]
      omega
    · rw [(NewModel_counts _).2.2.2]
      omega
    · intro h3 hne
      cases corpus with
      | nil => exact absurd rfl hne
      | cons d rest =>
        exact main_short_histogram log fmtInt rnd corpus_reads model_file_opens flags d rest
          hvalid h3 hload

end lda
